import Mathlib

/-!
# Verification of the `fbxtra` hierarchy helpers

A shallow embedding of the scene-graph logic of `fbxtra` (`node.py`,
`scene.py`).  The FBX SDK owns the scene representation; we model the part of
its object model that the code exercises:

* a scene is one root node (`RootNode`) holding an ordered forest of child
  nodes; each node carries an integer identity, a name (not necessarily
  unique), a local transform, and its ordered children.  The forest is stored
  in first-child / next-sibling form (`FT`), which makes every traversal a
  plain structural recursion.
* Modelled from the spec: transform composition and matrix inversion are owned
  by the external SDK.  Following the spec ("World transform is derived by
  composing local transforms up the ancestor chain"), local transforms are
  elements of an abstract group `G`, a node's global transform is
  `lcl(n) * global(parent n)` (the composition order used by the Python
  binding, under which the source computes `relative = node_xfo *
  parent_xfo.Inverse()`), and the SDK's translate/rotate/scale
  decomposition-recomposition round-trip is taken to be exact, which is the
  spec's stated edge-case policy ("the implementation accepts the SDK's
  decomposition as authoritative").
* `FbxNode.AddChild` detaches its argument from any previous parent and
  appends it as the last child; `scene.RemoveNode` + `Destroy` delete a node.
* Modelled from the spec: the scene's flat object registry (walked by
  `scene.get`) is enumerated as the root node followed by a preorder walk of
  the hierarchy; the actual registry order is SDK-owned, and no claim depends
  on it beyond "first object with a matching name".

Python operations that would raise an exception (attribute access on `None`,
argument-type errors in the binding) are modelled with `Except String`.
-/

namespace Fbxtra

/-- A forest of FBX nodes in first-child / next-sibling form: `node i nm l ch
sib` is a node with identity `i`, name `nm`, local transform `l`, child forest
`ch`, followed by its later siblings `sib`. -/
inductive FT (G : Type) : Type where
  | nil : FT G
  | node (id : Nat) (name : String) (lcl : G) (child : FT G) (sib : FT G) : FT G
deriving DecidableEq

/-- An FBX scene: the root node (its identity, name — `"RootNode"` in the SDK —
and local transform) plus the ordered forest of its children. -/
structure Scene (G : Type) where
  rootId : Nat
  rootName : String
  rootLcl : G
  tops : FT G
deriving DecidableEq

variable {G : Type}

/-- All node identities of a forest, in preorder (node, then its subtree, then
its later siblings). -/
def idsF : FT G → List Nat
  | .nil => []
  | .node i _ _ ch sib => i :: (idsF ch ++ idsF sib)

/-- Look up the node with identity `i` in a forest, returning its name, local
transform and child forest. -/
def findF (i : Nat) : FT G → Option (String × G × FT G)
  | .nil => none
  | .node j nm l ch sib =>
      if j = i then some (nm, l, ch)
      else
        match findF i ch with
        | some d => some d
        | none => findF i sib

/-- Name of the node `i` of the scene (`GetName`). -/
def nameOf (s : Scene G) (i : Nat) : Option String :=
  if i = s.rootId then some s.rootName else (findF i s.tops).map (fun d => d.1)

/-- Local transform of the node `i` of the scene. -/
def lclOf (s : Scene G) (i : Nat) : Option G :=
  if i = s.rootId then some s.rootLcl else (findF i s.tops).map (fun d => d.2.1)

/-- The identities of the subtree rooted at `i` (that node and all its
descendants), or `[]` when `i` is not in the forest. -/
def subIdsF (i : Nat) (t : FT G) : List Nat :=
  match findF i t with
  | some d => i :: idsF d.2.2
  | none => []

/-- Embeds `node.get_children`: the children of a node whose child forest is
the argument, immediate children in order, each (when `recursive`) followed by
its own recursive children — preorder. -/
def childIdsF (recursive : Bool) : FT G → List Nat
  | .nil => []
  | .node j _ _ ch sib =>
      j :: ((if recursive then childIdsF true ch else []) ++ childIdsF recursive sib)

/-- `node.get_children` on the scene node `i`. -/
def getChildren (s : Scene G) (i : Nat) (recursive : Bool) : List Nat :=
  if i = s.rootId then childIdsF recursive s.tops
  else
    match findF i s.tops with
    | some d => childIdsF recursive d.2.2
    | none => []

/-- The scene's top-level nodes (direct children of the root), in order;
`scene.children(scene, recursive=False)`. -/
def topIds (s : Scene G) : List Nat := childIdsF false s.tops

/-- Parent identity of node `i` inside a forest whose owner node is `pid`. -/
def parentOfF (pid : Nat) (i : Nat) : FT G → Option Nat
  | .nil => none
  | .node j _ _ ch sib =>
      if j = i then some pid
      else
        match parentOfF j i ch with
        | some p => some p
        | none => parentOfF pid i sib

/-- `FbxNode.GetParent`: the root has no parent, top-level nodes have the
root as parent. -/
def getParent (s : Scene G) (i : Nat) : Option Nat :=
  if i = s.rootId then none else parentOfF s.rootId i s.tops

/-- The identities on the path from a top-level node down to `i`, inclusive. -/
def pathToF (i : Nat) : FT G → Option (List Nat)
  | .nil => none
  | .node j _ _ ch sib =>
      if j = i then some [j]
      else
        match pathToF i ch with
        | some p => some (j :: p)
        | none => pathToF i sib

/-- Remove the node with identity `i` — with its whole subtree — from a
forest (`scene.RemoveNode` followed by `Destroy`, and also the detach half of
`AddChild`). -/
def removeF (i : Nat) : FT G → FT G
  | .nil => .nil
  | .node j nm l ch sib =>
      if j = i then removeF i sib else .node j nm l (removeF i ch) (removeF i sib)

/-- Concatenate two forests (used to append a node as a last child). -/
def appendF : FT G → FT G → FT G
  | .nil, t => t
  | .node j nm l ch sib, t => .node j nm l ch (appendF sib t)

/-- Graft the forest `nd` as the last children of the node `p` (first
occurrence). -/
def graftF (p : Nat) (nd : FT G) : FT G → FT G
  | .nil => .nil
  | .node j nm l ch sib =>
      if j = p then .node j nm l (appendF ch nd) sib
      else .node j nm l (graftF p nd ch) (graftF p nd sib)

/-- `FbxNode.AddChild`: append the (already detached) node `nd` as the last
child of node `p` of the scene. -/
def addChild (s : Scene G) (p : Nat) (nd : FT G) : Scene G :=
  if p = s.rootId then { s with tops := appendF s.tops nd }
  else { s with tops := graftF p nd s.tops }

/-- Global transform of node `i` within a forest whose owner has global
transform `acc`: `global(n) = lcl(n) * global(parent n)` in the binding's
composition order. -/
def globalF [Group G] (i : Nat) (acc : G) : FT G → Option G
  | .nil => none
  | .node j _ l ch sib =>
      if j = i then some (l * acc)
      else
        match globalF i (l * acc) ch with
        | some g => some g
        | none => globalF i acc sib

/-- `FbxNode.EvaluateGlobalTransform`. -/
def evalGlobal [Group G] (s : Scene G) (i : Nat) : Option G :=
  if i = s.rootId then some s.rootLcl else globalF i s.rootLcl s.tops

/-- Embeds `node.set_parent` for a non-null `node` argument (identity `n`).
`parentArg = none` resolves to the scene root.  With `keepWorldspace`, the
code computes `relative = node_xfo * parent_xfo.Inverse()` from the global
transforms evaluated before the move, re-attaches the node, and installs the
relative transform's components as the node's local transform (the
decomposition round-trip being exact in this model). -/
def setParent [Group G] (s : Scene G) (n : Nat) (parentArg : Option Nat)
    (keepWorldspace : Bool) : Scene G :=
  let pid := parentArg.getD s.rootId
  match findF n s.tops with
  | none => s
  | some (nm, l, ch) =>
    if keepWorldspace then
      match evalGlobal s n, evalGlobal s pid with
      | some wn, some wp =>
          addChild { s with tops := removeF n s.tops } pid (FT.node n nm (wn * wp⁻¹) ch FT.nil)
      | _, _ => s
    else
      addChild { s with tops := removeF n s.tops } pid (FT.node n nm l ch FT.nil)

/-- Embeds `node.set_parent` including a possibly-null `node` argument.  A
null node is never validated by the source: with no parent it fails resolving
`node.GetScene()`; with `keep_worldspace` it fails evaluating
`node.EvaluateGlobalTransform()`; otherwise the binding rejects
`AddChild(None)` (the argument is not declared to allow `None`). -/
def setParentE [Group G] (s : Scene G) (nodeArg : Option Nat)
    (parentArg : Option Nat) (keepWorldspace : Bool) : Except String (Scene G) :=
  match nodeArg, parentArg with
  | none, none => .error "AttributeError: NoneType object has no attribute GetScene"
  | none, some _ =>
      if keepWorldspace then
        .error "AttributeError: NoneType object has no attribute EvaluateGlobalTransform"
      else
        .error "TypeError: AddChild argument 1 has unexpected type NoneType"
  | some n, _ => .ok (setParent s n parentArg keepWorldspace)

/-- One step of the `node.get_parents` while-loop: as long as the current
object is truthy, replace it by its parent and append the result. -/
def getParentsGo (s : Scene G) : Nat → Option Nat → List (Option Nat)
  | 0, _ => []
  | _ + 1, none => []
  | fuel + 1, some c => getParent s c :: getParentsGo s fuel (getParent s c)

/-- Embeds `node.get_parents` (the loop terminates on trees; the fuel is
large enough for every node of the scene). -/
def getParents (s : Scene G) (n : Nat) : List (Option Nat) :=
  getParentsGo s ((idsF s.tops).length + 2) (some n)

/-- `scene.RemoveNode` followed by `node.Destroy()` on node `i`. -/
def destroyNode (s : Scene G) (i : Nat) : Scene G :=
  { s with tops := removeF i s.tops }

/-- The destruction order used by `scene.clear` and `scene.delete_node`: the
recursive children, reversed (leaf level up), then the node itself. -/
def destroyOrder (s : Scene G) (i : Nat) : List Nat :=
  (getChildren s i true).reverse ++ [i]

/-- First scene object whose name matches, walking the registry (modelled
from the spec as root-then-preorder). -/
def findIdByNameF (name : String) : FT G → Option Nat
  | .nil => none
  | .node j nm _ ch sib =>
      if nm = name then some j
      else
        match findIdByNameF name ch with
        | some r => some r
        | none => findIdByNameF name sib

/-- Embeds `scene.get`: first object of the registry with the given name. -/
def getByName (s : Scene G) (name : String) : Option Nat :=
  if s.rootName = name then some s.rootId else findIdByNameF name s.tops

/-- Embeds `scene.delete_node`.  The argument is `None`, a node, or a name; a
falsy argument (`None`, or the empty string) and a name that is not found
both give a no-op. -/
def deleteNode (s : Scene G) (arg : Option (Nat ⊕ String)) : Scene G :=
  match arg with
  | none => s
  | some (.inl i) => (destroyOrder s i).foldl destroyNode s
  | some (.inr nm) =>
      if nm = "" then s
      else
        match getByName s nm with
        | none => s
        | some i => (destroyOrder s i).foldl destroyNode s

/-- One iteration of the destruction loop of `scene.clear`: skip the
top-level node when its name is kept, otherwise destroy its subtree in
`destroyOrder`. -/
def deleteTopLevel (s : Scene G) (names : List String) (t : Nat) : Scene G :=
  match findF t s.tops with
  | none => s
  | some (nm, _, _) =>
      if nm ∈ names then s else (destroyOrder s t).foldl destroyNode s

/-- The destruction phase of `scene.clear`: iterate over a snapshot of the
top-level nodes. -/
def sweep (s : Scene G) (names : List String) : Scene G :=
  (topIds s).foldl (fun acc t => deleteTopLevel acc names t) s

/-- The destruction phase restricted to an explicit snapshot list (proof
helper; `sweep s names = sweepGo s names (topIds s)`). -/
def sweepGo (s : Scene G) (names : List String) (T : List Nat) : Scene G :=
  T.foldl (fun acc t => deleteTopLevel acc names t) s

/-- The ancestor identities of a node, immediate parent first, ending with
the scene root (empty for the root itself or for an unreachable node). -/
def ancestorsOf (s : Scene G) (n : Nat) : List Nat :=
  if n = s.rootId then []
  else
    match pathToF n s.tops with
    | some p => p.dropLast.reverse ++ [s.rootId]
    | none => []

/-- The node that the re-parenting walk of `scene.clear` actually moves: the
last node reached while ancestors' names stay in the keep list. -/
def keptTopGo (s : Scene G) (names : List String) : List (Option Nat) → Nat → Nat
  | [], ntr => ntr
  | none :: _, ntr => ntr
  | some p :: rest, ntr =>
      match nameOf s p with
      | none => ntr
      | some pnm => if pnm ∈ names then keptTopGo s names rest p else ntr

/-- The topmost consecutively-kept node on the ancestor walk from `n`. -/
def keptTop (s : Scene G) (names : List String) (n : Nat) : Nat :=
  keptTopGo s names (getParents s n) n

/-- The names of all nodes of the scene hierarchy (root excluded). -/
def sceneNames (s : Scene G) : List String :=
  (idsF s.tops).filterMap (fun i => nameOf s i)

/-- The node `j` lies inside the subtree of a top-level node whose name is in
the keep list (proof invariant for the re-parenting phase). -/
def inKeptTop (s : Scene G) (ks : List String) (j : Nat) : Prop :=
  ∃ t, t ∈ topIds s ∧ j ∈ subIdsF t s.tops ∧ ∃ nm, nameOf s t = some nm ∧ nm ∈ ks

/-- The resolution loop of `scene.clear`: replace string entries of
`excluding` by the object found by name (attribute error on `None` when the
name is not found) and record every entry's name. -/
def resolveEx (s : Scene G) : List (Nat ⊕ String) → Except String (List (Nat × String))
  | [] => .ok []
  | .inl i :: rest =>
      match nameOf s i with
      | some nm => (resolveEx s rest).map (fun r => (i, nm) :: r)
      | none => .error "model: excluding entry not present in the scene"
  | .inr nm :: rest =>
      match getByName s nm with
      | some i => (resolveEx s rest).map (fun r => (i, nm) :: r)
      | none => .error "AttributeError: NoneType object has no attribute GetName"

/-- The walk over `get_parents(node)` inside `scene.clear`, carrying
`node_to_reparent`: at the first ancestor whose name is not kept, re-parent
`node_to_reparent` to the scene root and stop; `None` at the end of the
parents list would be asked for its name. -/
def stabilizeGo [Group G] (s : Scene G) (names : List String) :
    List (Option Nat) → Nat → Except String (Scene G)
  | [], _ => .ok s
  | none :: _, _ => .error "AttributeError: NoneType object has no attribute GetName"
  | some p :: rest, ntr =>
      match nameOf s p with
      | none => .error "model: parent not present in the scene"
      | some pnm =>
          if pnm ∈ names then stabilizeGo s names rest p
          else .ok (setParent s ntr none true)

/-- One iteration of the re-parenting loop of `scene.clear` for the kept
node `n`. -/
def stabilizeOne [Group G] (s : Scene G) (names : List String) (n : Nat) :
    Except String (Scene G) :=
  stabilizeGo s names (getParents s n) n

/-- The whole re-parenting phase of `scene.clear`. -/
def stabilize [Group G] (s : Scene G) (names : List String) :
    List Nat → Except String (Scene G)
  | [] => .ok s
  | n :: rest =>
      match stabilizeOne s names n with
      | .ok s1 => stabilize s1 names rest
      | .error e => .error e

/-- Embeds `scene.clear`: resolve the `excluding` entries, re-parent every
kept node's chain, then destroy every top-level subtree whose name is not
kept. -/
def clearScene [Group G] (s : Scene G) (excluding : List (Nat ⊕ String)) :
    Except String (Scene G) :=
  match resolveEx s excluding with
  | .error e => .error e
  | .ok pairs =>
      match stabilize s (pairs.map (fun d => d.2)) (pairs.map (fun d => d.1)) with
      | .error e => .error e
      | .ok s1 => .ok (sweep s1 (pairs.map (fun d => d.2)))

/-- Well-formed scene: all node identities (root included) are distinct. -/
def wf (s : Scene G) : Prop := (s.rootId :: idsF s.tops).Nodup

instance (s : Scene G) : Decidable (wf s) := by
  unfold wf; infer_instance

/-- A concrete transform group for evaluating the model on examples:
multiplicative integers, so that `decide` can check whole pipelines. -/
abbrev Gm := Multiplicative ℤ

/-- A concrete scene: root(0) → A(1) → P1(2) → N(3), with distinct local
transforms. -/
def sc1 : Scene Gm :=
  { rootId := 0, rootName := "RootNode", rootLcl := 1,
    tops := .node 1 "A" (Multiplicative.ofAdd 2)
      (.node 2 "P1" (Multiplicative.ofAdd 3)
        (.node 3 "N" (Multiplicative.ofAdd 5) .nil .nil) .nil) .nil }

/-! ### Basic lookup and membership lemmas -/

theorem findF_isSome {i : Nat} {t : FT G} : (findF i t).isSome = true ↔ i ∈ idsF t := by
  induction t with
  | nil => simp [findF, idsF]
  | node j nm l ch sib ihc ihs =>
    simp only [findF, idsF]
    by_cases hj : j = i
    · subst hj; simp
    · rw [if_neg hj]
      cases hch : findF i ch with
      | some d =>
        have : i ∈ idsF ch := ihc.mp (by simp [hch])
        simp [this, Ne.symm hj]
      | none =>
        have hnc : i ∉ idsF ch := by
          intro hm
          have := ihc.mpr hm
          simp [hch] at this
        simp [ihs, Ne.symm hj, hnc]

theorem findF_eq_none {i : Nat} {t : FT G} : findF i t = none ↔ i ∉ idsF t := by
  rw [← findF_isSome (i := i) (t := t)]
  cases h : findF i t <;> simp

theorem findF_mem {i : Nat} {t : FT G} {d : String × G × FT G} (h : findF i t = some d) :
    i ∈ idsF t := by
  rw [← findF_isSome]; simp [h]

theorem mem_findF {i : Nat} {t : FT G} (h : i ∈ idsF t) :
    ∃ d, findF i t = some d := by
  have := findF_isSome.mpr h
  cases hf : findF i t with
  | some d => exact ⟨d, rfl⟩
  | none => simp [hf] at this

theorem idsF_appendF (t u : FT G) : idsF (appendF t u) = idsF t ++ idsF u := by
  induction t with
  | nil => simp [appendF, idsF]
  | node j nm l ch sib ihc ihs => simp [appendF, idsF, ihs]

theorem childIdsF_true (t : FT G) : childIdsF true t = idsF t := by
  induction t with
  | nil => rfl
  | node j nm l ch sib ihc ihs => simp [childIdsF, idsF, ihc, ihs]

theorem childIdsF_subset (b : Bool) (t : FT G) : childIdsF b t ⊆ idsF t := by
  induction t with
  | nil => simp [childIdsF, idsF]
  | node j nm l ch sib ihc ihs =>
    intro x hx
    simp only [childIdsF, List.mem_cons, List.mem_append] at hx
    simp only [idsF, List.mem_cons, List.mem_append]
    rcases hx with h | h | h
    · exact Or.inl h
    · cases b with
      | false => simp [childIdsF] at h
      | true => exact Or.inr (Or.inl ((childIdsF_true ch ▸ h)))
    · exact Or.inr (Or.inr (ihs h))

theorem idsF_removeF_sublist (i : Nat) (t : FT G) :
    List.Sublist (idsF (removeF i t)) (idsF t) := by
  induction t with
  | nil => simp [removeF]
  | node j nm l ch sib ihc ihs =>
    simp only [removeF]
    by_cases hj : j = i
    · rw [if_pos hj]
      refine List.Sublist.trans ihs ?_
      simp only [idsF]
      exact (List.sublist_append_right _ _).trans (List.sublist_cons_self _ _)
    · rw [if_neg hj]
      simp only [idsF]
      exact List.Sublist.cons₂ j (List.Sublist.append ihc ihs)

theorem idsF_removeF_subset (i : Nat) (t : FT G) : idsF (removeF i t) ⊆ idsF t :=
  (idsF_removeF_sublist i t).subset

theorem nodup_removeF (i : Nat) {t : FT G} (h : (idsF t).Nodup) :
    (idsF (removeF i t)).Nodup :=
  (idsF_removeF_sublist i t).nodup h

theorem not_mem_removeF (i : Nat) (t : FT G) : i ∉ idsF (removeF i t) := by
  induction t with
  | nil => simp [removeF, idsF]
  | node j nm l ch sib ihc ihs =>
    simp only [removeF]
    by_cases hj : j = i
    · rw [if_pos hj]; exact ihs
    · rw [if_neg hj]
      simp only [idsF, List.mem_cons, List.mem_append]
      rintro (h | h | h)
      · exact hj h.symm
      · exact ihc h
      · exact ihs h

theorem removeF_eq_self {i : Nat} {t : FT G} (h : i ∉ idsF t) : removeF i t = t := by
  induction t with
  | nil => rfl
  | node j nm l ch sib ihc ihs =>
    simp only [idsF, List.mem_cons, List.mem_append] at h
    push_neg at h
    obtain ⟨h1, h2, h3⟩ := h
    simp [removeF, Ne.symm h1, ihc h2, ihs h3]

theorem graftF_eq_self {p : Nat} {nd : FT G} {t : FT G} (h : p ∉ idsF t) :
    graftF p nd t = t := by
  induction t with
  | nil => rfl
  | node j nm l ch sib ihc ihs =>
    simp only [idsF, List.mem_cons, List.mem_append] at h
    push_neg at h
    obtain ⟨h1, h2, h3⟩ := h
    simp [graftF, Ne.symm h1, ihc h2, ihs h3]

theorem findF_appendF (i : Nat) (t u : FT G) :
    findF i (appendF t u) =
      match findF i t with
      | some d => some d
      | none => findF i u := by
  induction t with
  | nil => simp [appendF, findF]
  | node j nm l ch sib ihc ihs =>
    simp only [appendF, findF]
    by_cases hj : j = i
    · rw [if_pos hj, if_pos hj]
    · rw [if_neg hj, if_neg hj]
      cases hch : findF i ch with
      | some d => simp
      | none => simp [ihs]

theorem findF_child_subset {i : Nat} {t : FT G} {d : String × G × FT G}
    (h : findF i t = some d) : idsF d.2.2 ⊆ idsF t := by
  induction t with
  | nil => simp [findF] at h
  | node j nm l ch sib ihc ihs =>
    simp only [findF] at h
    by_cases hj : j = i
    · rw [if_pos hj] at h
      cases h
      intro x hx
      simp only [idsF, List.mem_cons, List.mem_append]
      exact Or.inr (Or.inl hx)
    · rw [if_neg hj] at h
      cases hch : findF i ch with
      | some d' =>
        rw [hch] at h
        cases h
        intro x hx
        simp only [idsF, List.mem_cons, List.mem_append]
        exact Or.inr (Or.inl (ihc hch hx))
      | none =>
        rw [hch] at h
        intro x hx
        simp only [idsF, List.mem_cons, List.mem_append]
        exact Or.inr (Or.inr (ihs h hx))

theorem subIdsF_subset (i : Nat) (t : FT G) : subIdsF i t ⊆ idsF t := by
  unfold subIdsF
  cases hf : findF i t with
  | none => simp
  | some d =>
    intro x hx
    simp only [List.mem_cons] at hx
    rcases hx with rfl | hx
    · exact findF_mem hf
    · exact findF_child_subset hf hx

theorem mem_subIdsF_self {i : Nat} {t : FT G} (h : i ∈ idsF t) : i ∈ subIdsF i t := by
  obtain ⟨d, hd⟩ := mem_findF h
  simp [subIdsF, hd]

/-! ### Distinct-identity structure lemmas -/

theorem nodup_parts {j : Nat} {nm : String} {l : G} {ch sib : FT G}
    (h : (idsF (FT.node j nm l ch sib)).Nodup) :
    j ∉ idsF ch ∧ j ∉ idsF sib ∧ (idsF ch).Nodup ∧ (idsF sib).Nodup ∧
      ∀ x, x ∈ idsF ch → x ∉ idsF sib := by
  simp only [idsF, List.nodup_cons, List.mem_append, List.nodup_append] at h
  push_neg at h
  exact ⟨h.1.1, h.1.2, h.2.1, h.2.2.1, fun x hx => h.2.2.2 hx⟩

theorem findF_node_left {i j : Nat} {nm : String} {l : G} {ch sib : FT G}
    (hj : j ≠ i) (hm : i ∈ idsF ch) :
    findF i (FT.node j nm l ch sib) = findF i ch := by
  obtain ⟨d, hd⟩ := mem_findF hm
  simp [findF, hj, hd]

theorem findF_node_right {i j : Nat} {nm : String} {l : G} {ch sib : FT G}
    (hj : j ≠ i) (hm : i ∉ idsF ch) :
    findF i (FT.node j nm l ch sib) = findF i sib := by
  have : findF i ch = none := findF_eq_none.mpr hm
  simp [findF, hj, this]

/-- Looking up a node that lies inside the child forest of a found node gives
the same result as looking it up in that child forest. -/
theorem findF_in_child {i x : Nat} {t : FT G} {nm : String} {l : G} {ch : FT G}
    (hnd : (idsF t).Nodup) (hf : findF i t = some (nm, l, ch)) (hx : x ∈ idsF ch) :
    findF x t = findF x ch := by
  induction t with
  | nil => simp [findF] at hf
  | node j nmj lj c s ihc ihs =>
    obtain ⟨hjc, hjs, hndc, hnds, hdisj⟩ := nodup_parts hnd
    simp only [findF] at hf
    by_cases hj : j = i
    · rw [if_pos hj] at hf
      cases hf
      have hxj : j ≠ x := fun he => hjc (he ▸ hx)
      exact findF_node_left hxj hx
    · rw [if_neg hj] at hf
      cases hic : findF i c with
      | some d =>
        rw [hic] at hf
        cases hf
        have hxc : x ∈ idsF c := findF_child_subset hic hx
        have hxj : j ≠ x := fun he => hjc (he ▸ hxc)
        rw [findF_node_left hxj hxc]
        exact ihc hndc hic
      | none =>
        rw [hic] at hf
        have hxs : x ∈ idsF s := findF_child_subset hf hx
        have hxj : j ≠ x := fun he => hjs (he ▸ hxs)
        rw [findF_node_right hxj (fun hm => hdisj x hm hxs)]
        exact ihs hnds hf

theorem mem_subIdsF_iff {i j : Nat} {t : FT G} :
    j ∈ subIdsF i t ↔ ∃ d, findF i t = some d ∧ (j = i ∨ j ∈ idsF d.2.2) := by
  unfold subIdsF
  cases hf : findF i t with
  | none => simp
  | some d => simp [hf]

theorem subIdsF_in_child {i x : Nat} {t : FT G} {nm : String} {l : G} {ch : FT G}
    (hnd : (idsF t).Nodup) (hf : findF i t = some (nm, l, ch)) (hx : x ∈ idsF ch) :
    subIdsF x t = subIdsF x ch := by
  unfold subIdsF
  rw [findF_in_child hnd hf hx]

/-- The preorder enumeration lists a subtree as one contiguous block. -/
theorem subIdsF_block {i : Nat} {t : FT G} (hi : i ∈ idsF t) :
    ∃ l1 l2, idsF t = l1 ++ (subIdsF i t ++ l2) := by
  induction t with
  | nil => simp [idsF] at hi
  | node j nm l ch sib ihc ihs =>
    by_cases hj : j = i
    · subst hj
      refine ⟨[], idsF sib, ?_⟩
      simp [subIdsF, findF, idsF]
    · simp only [idsF, List.mem_cons, List.mem_append] at hi
      rcases hi with rfl | hic | his

      · exact absurd rfl hj
      · obtain ⟨l1, l2, hsplit⟩ := ihc hic
        refine ⟨j :: l1, l2 ++ idsF sib, ?_⟩
        have hsub : subIdsF i (FT.node j nm l ch sib) = subIdsF i ch := by
          unfold subIdsF
          rw [findF_node_left hj hic]
        rw [hsub]
        simp only [idsF, hsplit]
        simp
      · by_cases hic : i ∈ idsF ch
        · obtain ⟨l1, l2, hsplit⟩ := ihc hic
          refine ⟨j :: l1, l2 ++ idsF sib, ?_⟩
          have hsub : subIdsF i (FT.node j nm l ch sib) = subIdsF i ch := by
            unfold subIdsF
            rw [findF_node_left hj hic]
          rw [hsub]
          simp only [idsF, hsplit]
          simp
        · obtain ⟨l1, l2, hsplit⟩ := ihs his
          refine ⟨j :: idsF ch ++ l1, l2, ?_⟩
          have hsub : subIdsF i (FT.node j nm l ch sib) = subIdsF i sib := by
            unfold subIdsF
            rw [findF_node_right hj hic]
          rw [hsub]
          simp only [idsF, hsplit]
          simp

theorem subIdsF_sublist {i : Nat} {t : FT G} :
    List.Sublist (subIdsF i t) (idsF t) := by
  by_cases hi : i ∈ idsF t
  · obtain ⟨l1, l2, hsplit⟩ := subIdsF_block (t := t) hi
    rw [hsplit]
    exact ((List.sublist_append_left _ _).trans (List.sublist_append_right _ _))
  · have : subIdsF i t = [] := by
      unfold subIdsF
      rw [findF_eq_none.mpr hi]
    simp [this]

theorem subIdsF_nodup {i : Nat} {t : FT G} (hnd : (idsF t).Nodup) :
    (subIdsF i t).Nodup :=
  subIdsF_sublist.nodup hnd

/-- Under distinct identities a node does not occur inside its own child
forest. -/
theorem findF_self_not_mem_child {i : Nat} {t : FT G} {nm : String} {l : G} {ch : FT G}
    (hnd : (idsF t).Nodup) (hf : findF i t = some (nm, l, ch)) :
    i ∉ idsF ch := by
  have hsub : subIdsF i t = i :: idsF ch := by
    unfold subIdsF
    rw [hf]
  have := subIdsF_nodup (i := i) hnd
  rw [hsub] at this
  exact (List.nodup_cons.mp this).1

/-- A strict member of a subtree does not have the subtree's root below it. -/
theorem not_mem_subIdsF_of_strict {i x : Nat} {t : FT G}
    (hnd : (idsF t).Nodup) (hx : x ∈ subIdsF i t) (hne : x ≠ i) :
    i ∉ subIdsF x t := by
  rw [mem_subIdsF_iff] at hx
  obtain ⟨⟨nm, l, ch⟩, hf, hcase⟩ := hx
  rcases hcase with rfl | hxch
  · exact absurd rfl hne
  · rw [subIdsF_in_child hnd hf hxch]
    intro hmem
    exact findF_self_not_mem_child hnd hf (subIdsF_subset _ _ hmem)

/-- Subtree containment is transitive. -/
theorem subIdsF_trans {i x j : Nat} {t : FT G}
    (hnd : (idsF t).Nodup) (hx : x ∈ subIdsF i t) (hj : j ∈ subIdsF x t) :
    j ∈ subIdsF i t := by
  rw [mem_subIdsF_iff] at hx
  obtain ⟨⟨nm, l, ch⟩, hf, hcase⟩ := hx
  rcases hcase with rfl | hxch
  · exact hj
  · rw [subIdsF_in_child hnd hf hxch] at hj
    have : j ∈ idsF ch := subIdsF_subset _ _ hj
    rw [mem_subIdsF_iff]
    exact ⟨(nm, l, ch), hf, Or.inr this⟩

theorem subIdsF_empty {i : Nat} {t : FT G} (h : i ∉ idsF t) : subIdsF i t = [] := by
  unfold subIdsF
  rw [findF_eq_none.mpr h]

theorem subIdsF_node_left {i k : Nat} {nm : String} {l : G} {ch sib : FT G}
    (hk : k ≠ i) (hic : i ∈ idsF ch) :
    subIdsF i (FT.node k nm l ch sib) = subIdsF i ch := by
  unfold subIdsF
  rw [findF_node_left hk hic]

theorem subIdsF_node_right {i k : Nat} {nm : String} {l : G} {ch sib : FT G}
    (hk : k ≠ i) (hic : i ∉ idsF ch) :
    subIdsF i (FT.node k nm l ch sib) = subIdsF i sib := by
  unfold subIdsF
  rw [findF_node_right hk hic]

theorem findF_child_nodup {i : Nat} {t : FT G} {nm : String} {l : G} {ch : FT G}
    (hnd : (idsF t).Nodup) (hf : findF i t = some (nm, l, ch)) :
    (idsF ch).Nodup := by
  have hsub : subIdsF i t = i :: idsF ch := by
    unfold subIdsF
    rw [hf]
  have := subIdsF_nodup (i := i) hnd
  rw [hsub] at this
  exact (List.nodup_cons.mp this).2

/-- Removal of a subtree, seen through lookup of a surviving node: the node's
data survives with the removal pushed into its child forest. -/
theorem findF_removeF {i j : Nat} {t : FT G} (hnd : (idsF t).Nodup)
    (hj : j ∉ subIdsF i t) :
    findF j (removeF i t) = (findF j t).map (fun d => (d.1, d.2.1, removeF i d.2.2)) := by
  induction t with
  | nil => simp [removeF, findF]
  | node k nm l ch sib ihc ihs =>
    obtain ⟨hkc, hks, hndc, hnds, hdisj⟩ := nodup_parts hnd
    by_cases hk : k = i
    · subst hk
      rw [show removeF k (FT.node k nm l ch sib) = removeF k sib by simp [removeF]]
      have hsubt : subIdsF k (FT.node k nm l ch sib) = k :: idsF ch := by
        unfold subIdsF
        simp [findF]
      rw [hsubt] at hj
      simp only [List.mem_cons, not_or] at hj
      obtain ⟨hjk, hjch⟩ := hj
      have hrhs : findF j (FT.node k nm l ch sib) = findF j sib :=
        findF_node_right (fun he => hjk he.symm) hjch
      rw [hrhs]
      exact ihs hnds (by rw [subIdsF_empty hks]; simp)
    · rw [show removeF i (FT.node k nm l ch sib)
            = FT.node k nm l (removeF i ch) (removeF i sib) by simp [removeF, hk]]
      by_cases hkj : k = j
      · subst hkj
        simp [findF]
      · by_cases hjc : j ∈ idsF ch
        · have hjc' : j ∈ idsF (removeF i ch) := by
            have hjsub : j ∉ subIdsF i ch := by
              by_cases hic : i ∈ idsF ch
              · rw [subIdsF_node_left hk hic] at hj
                exact hj
              · rw [subIdsF_empty hic]
                simp
            have := ihc hndc hjsub
            rw [← findF_isSome, this]
            obtain ⟨d, hd⟩ := mem_findF hjc
            simp [hd]
          rw [findF_node_left hkj hjc', findF_node_left hkj hjc]
          refine ihc hndc ?_
          by_cases hic : i ∈ idsF ch
          · rw [subIdsF_node_left hk hic] at hj
            exact hj
          · rw [subIdsF_empty hic]
            simp
        · have hjc' : j ∉ idsF (removeF i ch) :=
            fun hm => hjc (idsF_removeF_subset _ _ hm)
          rw [findF_node_right hkj hjc', findF_node_right hkj hjc]
          refine ihs hnds ?_
          by_cases his : i ∈ idsF sib
          · have hic : i ∉ idsF ch := fun hm => hdisj i hm his
            rw [subIdsF_node_right hk hic] at hj
            exact hj
          · rw [subIdsF_empty his]
            simp

/-- Every member of the removed subtree is gone after removal. -/
theorem not_mem_removeF_of_mem_sub {i j : Nat} {t : FT G} (hnd : (idsF t).Nodup)
    (hj : j ∈ subIdsF i t) : j ∉ idsF (removeF i t) := by
  induction t with
  | nil => simp [subIdsF, findF] at hj
  | node k nm l ch sib ihc ihs =>
    obtain ⟨hkc, hks, hndc, hnds, hdisj⟩ := nodup_parts hnd
    by_cases hk : k = i
    · subst hk
      rw [show removeF k (FT.node k nm l ch sib) = removeF k sib by simp [removeF]]
      have hsubt : subIdsF k (FT.node k nm l ch sib) = k :: idsF ch := by
        unfold subIdsF
        simp [findF]
      rw [hsubt] at hj
      intro hmem
      have hjs : j ∈ idsF sib := idsF_removeF_subset _ _ hmem
      rcases List.mem_cons.mp hj with rfl | hjc
      · exact hks hjs
      · exact hdisj j hjc hjs
    · rw [show removeF i (FT.node k nm l ch sib)
            = FT.node k nm l (removeF i ch) (removeF i sib) by simp [removeF, hk]]
      by_cases hic : i ∈ idsF ch
      · rw [subIdsF_node_left hk hic] at hj
        have hjch : j ∈ idsF ch := subIdsF_subset _ _ hj
        simp only [idsF, List.mem_cons, List.mem_append, not_or]
        refine ⟨fun he => hkc (he ▸ hjch), ihc hndc hj, ?_⟩
        intro hm
        exact hdisj j hjch (idsF_removeF_subset _ _ hm)
      · by_cases his : i ∈ idsF sib
        · rw [subIdsF_node_right hk hic] at hj
          have hjsib : j ∈ idsF sib := subIdsF_subset _ _ hj
          simp only [idsF, List.mem_cons, List.mem_append, not_or]
          refine ⟨fun he => hks (he ▸ hjsib), ?_, ihs hnds hj⟩
          intro hm
          exact hdisj j (idsF_removeF_subset _ _ hm) hjsib
        · have : i ∉ idsF (FT.node k nm l ch sib) := by
            simp only [idsF, List.mem_cons, List.mem_append, not_or]
            exact ⟨fun he => hk he.symm, hic, his⟩
          rw [subIdsF_empty this] at hj
          simp at hj

/-- Membership after removing the subtree at `i`. -/
theorem mem_idsF_removeF {i j : Nat} {t : FT G} (hnd : (idsF t).Nodup) :
    j ∈ idsF (removeF i t) ↔ j ∈ idsF t ∧ j ∉ subIdsF i t := by
  constructor
  · intro h
    refine ⟨idsF_removeF_subset _ _ h, fun hsub => ?_⟩
    exact not_mem_removeF_of_mem_sub hnd hsub h
  · rintro ⟨hmem, hsub⟩
    have := findF_removeF (i := i) hnd hsub
    rw [← findF_isSome, this]
    obtain ⟨d, hd⟩ := mem_findF hmem
    simp [hd]

/-- Two subtrees are nested or disjoint. -/
theorem subIdsF_nested_or_disjoint {i n x : Nat} {t : FT G} (hnd : (idsF t).Nodup)
    (hxi : x ∈ subIdsF i t) (hxn : x ∈ subIdsF n t) :
    i ∈ subIdsF n t ∨ n ∈ subIdsF i t := by
  induction t with
  | nil => simp [subIdsF, findF] at hxi
  | node k nm l ch sib ihc ihs =>
    obtain ⟨hkc, hks, hndc, hnds, hdisj⟩ := nodup_parts hnd
    have hsub_self : subIdsF k (FT.node k nm l ch sib) = k :: idsF ch := by
      unfold subIdsF
      simp [findF]
    by_cases hki : k = i
    · subst hki
      right
      rw [hsub_self]
      have hn : n ∈ idsF (FT.node k nm l ch sib) := by
        have : n ∈ subIdsF n (FT.node k nm l ch sib) := by
          rcases mem_subIdsF_iff.mp hxn with ⟨d, hd, _⟩
          exact mem_subIdsF_self (findF_mem hd)
        exact subIdsF_subset _ _ this
      simp only [idsF, List.mem_cons, List.mem_append] at hn
      rcases hn with rfl | hnc | hns
      · simp
      · simp [hnc]
      · -- n in the sibling forest: but x ∈ sub n ⊆ sib ids while x ∈ sub k = k :: ch ids
        exfalso
        by_cases hkn : k = n
        · exact hks (hkn ▸ hns)
        · rw [subIdsF_node_right hkn (fun hm => hdisj n hm hns)] at hxn
          have hxs : x ∈ idsF sib := subIdsF_subset _ _ hxn
          rw [hsub_self] at hxi
          rcases List.mem_cons.mp hxi with rfl | hxc
          · exact hks hxs
          · exact hdisj x hxc hxs
    · by_cases hkn : k = n
      · subst hkn
        left
        rw [hsub_self]
        have hi : i ∈ idsF (FT.node k nm l ch sib) := by
          have : i ∈ subIdsF i (FT.node k nm l ch sib) := by
            rcases mem_subIdsF_iff.mp hxi with ⟨d, hd, _⟩
            exact mem_subIdsF_self (findF_mem hd)
          exact subIdsF_subset _ _ this
        simp only [idsF, List.mem_cons, List.mem_append] at hi
        rcases hi with rfl | hic | his
        · simp
        · simp [hic]
        · exfalso
          rw [subIdsF_node_right hki (fun hm => hdisj i hm his)] at hxi
          have hxs : x ∈ idsF sib := subIdsF_subset _ _ hxi
          rw [hsub_self] at hxn
          rcases List.mem_cons.mp hxn with rfl | hxc
          · exact hks hxs
          · exact hdisj x hxc hxs
      · -- k is neither i nor n: push both subtrees into ch or sib
        have hi : i ∈ idsF ch ∨ i ∈ idsF sib := by
          have : i ∈ subIdsF i (FT.node k nm l ch sib) := by
            rcases mem_subIdsF_iff.mp hxi with ⟨d, hd, _⟩
            exact mem_subIdsF_self (findF_mem hd)
          have := subIdsF_subset _ _ this
          simp only [idsF, List.mem_cons, List.mem_append] at this
          rcases this with rfl | h | h
          · exact absurd rfl hki
          · exact Or.inl h
          · exact Or.inr h
        have hn : n ∈ idsF ch ∨ n ∈ idsF sib := by
          have : n ∈ subIdsF n (FT.node k nm l ch sib) := by
            rcases mem_subIdsF_iff.mp hxn with ⟨d, hd, _⟩
            exact mem_subIdsF_self (findF_mem hd)
          have := subIdsF_subset _ _ this
          simp only [idsF, List.mem_cons, List.mem_append] at this
          rcases this with rfl | h | h
          · exact absurd rfl hkn
          · exact Or.inl h
          · exact Or.inr h
        rcases hi with hic | his
        · rw [subIdsF_node_left hki hic] at hxi ⊢
          rcases hn with hnc | hns
          · rw [subIdsF_node_left hkn hnc] at hxn ⊢
            exact ihc hndc hxi hxn
          · exfalso
            rw [subIdsF_node_right hkn (fun hm => hdisj n hm hns)] at hxn
            exact hdisj x (subIdsF_subset _ _ hxi) (subIdsF_subset _ _ hxn)
        · rw [subIdsF_node_right hki (fun hm => hdisj i hm his)] at hxi ⊢
          rcases hn with hnc | hns
          · exfalso
            rw [subIdsF_node_left hkn hnc] at hxn
            exact hdisj x (subIdsF_subset _ _ hxn) (subIdsF_subset _ _ hxi)
          · rw [subIdsF_node_right hkn (fun hm => hdisj n hm hns)] at hxn ⊢
            exact ihs hnds hxi hxn

/-- Subtree membership after removing a disjoint subtree. -/
theorem mem_subIdsF_removeF {i n x : Nat} {t : FT G} (hnd : (idsF t).Nodup)
    (hn : n ∉ subIdsF i t) :
    x ∈ subIdsF n (removeF i t) ↔ x ∈ subIdsF n t ∧ x ∉ subIdsF i t := by
  by_cases hnt : n ∈ idsF t
  · obtain ⟨⟨nm, l, ch⟩, hf⟩ := mem_findF hnt
    have hfr := findF_removeF (i := i) hnd hn
    rw [hf] at hfr
    have hndch : (idsF ch).Nodup := findF_child_nodup hnd hf
    have hsubn : subIdsF n t = n :: idsF ch := by
      unfold subIdsF
      rw [hf]
    have hsubn' : subIdsF n (removeF i t) = n :: idsF (removeF i ch) := by
      simp [subIdsF, hfr]
    rw [hsubn, hsubn']
    have hni : n ∉ subIdsF i t := hn
    constructor
    · intro hx
      rcases List.mem_cons.mp hx with rfl | hx
      · exact ⟨List.mem_cons_self _ _, hni⟩
      · have := (mem_idsF_removeF (i := i) hndch).mp hx
        refine ⟨List.mem_cons_of_mem _ this.1, ?_⟩
        by_cases hic : i ∈ idsF ch
        · have heq : subIdsF i ch = subIdsF i t := by
            unfold subIdsF
            rw [findF_in_child hnd hf hic]
          rw [← heq]
          exact this.2
        · intro hxit
          have hxn : x ∈ subIdsF n t := hsubn ▸ List.mem_cons_of_mem _ this.1
          rcases subIdsF_nested_or_disjoint hnd hxit hxn with hin | hni2
          · rw [hsubn] at hin
            rcases List.mem_cons.mp hin with rfl | hin
            · exact hn (mem_subIdsF_self hnt)
            · exact hic hin
          · exact hn hni2
    · rintro ⟨hx, hxi⟩
      rcases List.mem_cons.mp hx with rfl | hx
      · exact List.mem_cons_self _ _
      · refine List.mem_cons_of_mem _ ?_
        rw [mem_idsF_removeF (i := i) hndch]
        refine ⟨hx, ?_⟩
        by_cases hic : i ∈ idsF ch
        · have heq : subIdsF i ch = subIdsF i t := by
            unfold subIdsF
            rw [findF_in_child hnd hf hic]
          rw [heq]
          exact hxi
        · rw [subIdsF_empty hic]
          simp
  · have h1 : subIdsF n t = [] := subIdsF_empty hnt
    have h2 : subIdsF n (removeF i t) = [] := by
      refine subIdsF_empty fun hm => hnt (idsF_removeF_subset _ _ hm)
    simp [h1, h2]

/-- Removing a subtree that is wholly outside another subtree leaves the
latter untouched (as lookup data). -/
theorem findF_removeF_of_disjoint {i n : Nat} {t : FT G} (hnd : (idsF t).Nodup)
    (hn : n ∉ subIdsF i t) (hi : i ∉ subIdsF n t) :
    findF n (removeF i t) = findF n t := by
  rw [findF_removeF hnd hn]
  cases hf : findF n t with
  | none => rfl
  | some d =>
    have : i ∉ idsF d.2.2 := by
      intro hm
      apply hi
      rw [mem_subIdsF_iff]
      exact ⟨d, hf, Or.inr hm⟩
    simp [removeF_eq_self this]

/-! ### Parent lookup lemmas -/

theorem parentOfF_eq_none {pid i : Nat} {t : FT G} :
    parentOfF pid i t = none ↔ i ∉ idsF t := by
  induction t generalizing pid with
  | nil => simp [parentOfF, idsF]
  | node j nm l ch sib ihc ihs =>
    simp only [parentOfF, idsF]
    by_cases hj : j = i
    · subst hj
      simp
    · rw [if_neg hj]
      cases hpc : parentOfF j i ch with
      | some p =>
        have : i ∈ idsF ch := by
          by_contra hm
          rw [(@ihc j).mpr hm] at hpc
          exact Option.noConfusion hpc
        simp [this, Ne.symm hj]
      | none =>
        have hnc : i ∉ idsF ch := (@ihc j).mp hpc
        simp [ihs, Ne.symm hj, hnc]

theorem parentOfF_node_left {pid i j : Nat} {nm : String} {l : G} {ch sib : FT G}
    (hj : j ≠ i) (hm : i ∈ idsF ch) :
    parentOfF pid i (FT.node j nm l ch sib) = parentOfF j i ch := by
  cases hpc : parentOfF j i ch with
  | some p => simp [parentOfF, hj, hpc]
  | none => exact absurd (parentOfF_eq_none.mp hpc) (by simp [hm])

theorem parentOfF_node_right {pid i j : Nat} {nm : String} {l : G} {ch sib : FT G}
    (hj : j ≠ i) (hm : i ∉ idsF ch) :
    parentOfF pid i (FT.node j nm l ch sib) = parentOfF pid i sib := by
  have : parentOfF j i ch = none := parentOfF_eq_none.mpr hm
  simp [parentOfF, hj, this]

theorem parentOfF_appendF (pid i : Nat) (t u : FT G) :
    parentOfF pid i (appendF t u) =
      match parentOfF pid i t with
      | some p => some p
      | none => parentOfF pid i u := by
  induction t with
  | nil => simp [appendF, parentOfF]
  | node j nm l ch sib ihc ihs =>
    simp only [appendF, parentOfF]
    by_cases hj : j = i
    · rw [if_pos hj, if_pos hj]
    · rw [if_neg hj, if_neg hj]
      cases hpc : parentOfF j i ch with
      | some p => simp
      | none => simp [ihs]

theorem parentOfF_removeF {pid i j : Nat} {t : FT G} (hnd : (idsF t).Nodup)
    (hj : j ∉ subIdsF i t) :
    parentOfF pid j (removeF i t) = parentOfF pid j t := by
  induction t generalizing pid with
  | nil => simp [removeF]
  | node k nm l ch sib ihc ihs =>
    obtain ⟨hkc, hks, hndc, hnds, hdisj⟩ := nodup_parts hnd
    by_cases hk : k = i
    · subst hk
      rw [show removeF k (FT.node k nm l ch sib) = removeF k sib by simp [removeF]]
      have hsubt : subIdsF k (FT.node k nm l ch sib) = k :: idsF ch := by
        unfold subIdsF
        simp [findF]
      rw [hsubt] at hj
      simp only [List.mem_cons, not_or] at hj
      obtain ⟨hjk, hjch⟩ := hj
      rw [parentOfF_node_right (fun he => hjk he.symm) hjch]
      exact ihs hnds (by rw [subIdsF_empty hks]; simp)
    · rw [show removeF i (FT.node k nm l ch sib)
            = FT.node k nm l (removeF i ch) (removeF i sib) by simp [removeF, hk]]
      by_cases hkj : k = j
      · subst hkj
        simp [parentOfF]
      · have hjsubch : j ∉ subIdsF i ch := by
          by_cases hic : i ∈ idsF ch
          · rw [subIdsF_node_left hk hic] at hj
            exact hj
          · rw [subIdsF_empty hic]
            simp
        have hjsubsib : j ∉ subIdsF i sib := by
          by_cases his : i ∈ idsF sib
          · by_cases hic : i ∈ idsF ch
            · rw [subIdsF_empty (fun hm => hdisj i hic his)]
              simp
            · rw [subIdsF_node_right hk hic] at hj
              exact hj
          · rw [subIdsF_empty his]
            simp
        by_cases hjc : j ∈ idsF ch
        · have hjc' : j ∈ idsF (removeF i ch) :=
            (mem_idsF_removeF hndc).mpr ⟨hjc, hjsubch⟩
          rw [parentOfF_node_left hkj hjc', parentOfF_node_left hkj hjc]
          exact ihc hndc hjsubch
        · have hjc' : j ∉ idsF (removeF i ch) :=
            fun hm => hjc (idsF_removeF_subset _ _ hm)
          rw [parentOfF_node_right hkj hjc', parentOfF_node_right hkj hjc]
          exact ihs hnds hjsubsib

/-! ### Global transform lemmas -/

theorem globalF_eq_none [Group G] {i : Nat} {acc : G} {t : FT G} :
    globalF i acc t = none ↔ i ∉ idsF t := by
  induction t generalizing acc with
  | nil => simp [globalF, idsF]
  | node j nm l ch sib ihc ihs =>
    simp only [globalF, idsF]
    by_cases hj : j = i
    · subst hj
      simp
    · rw [if_neg hj]
      cases hgc : globalF i (l * acc) ch with
      | some g =>
        have : i ∈ idsF ch := by
          by_contra hm
          rw [(@ihc (l * acc)).mpr hm] at hgc
          exact Option.noConfusion hgc
        simp [this, Ne.symm hj]
      | none =>
        have hnc : i ∉ idsF ch := (@ihc (l * acc)).mp hgc
        simp [ihs, Ne.symm hj, hnc]

theorem globalF_node_left [Group G] {i j : Nat} {nm : String} {l : G} {acc : G}
    {ch sib : FT G} (hj : j ≠ i) (hm : i ∈ idsF ch) :
    globalF i acc (FT.node j nm l ch sib) = globalF i (l * acc) ch := by
  cases hgc : globalF i (l * acc) ch with
  | some g => simp [globalF, hj, hgc]
  | none => exact absurd (globalF_eq_none.mp hgc) (by simp [hm])

theorem globalF_node_right [Group G] {i j : Nat} {nm : String} {l : G} {acc : G}
    {ch sib : FT G} (hj : j ≠ i) (hm : i ∉ idsF ch) :
    globalF i acc (FT.node j nm l ch sib) = globalF i acc sib := by
  have : globalF i (l * acc) ch = none := globalF_eq_none.mpr hm
  simp [globalF, hj, this]

theorem globalF_appendF [Group G] (i : Nat) (acc : G) (t u : FT G) :
    globalF i acc (appendF t u) =
      match globalF i acc t with
      | some g => some g
      | none => globalF i acc u := by
  induction t generalizing acc with
  | nil => simp [appendF, globalF]
  | node j nm l ch sib ihc ihs =>
    simp only [appendF, globalF]
    by_cases hj : j = i
    · rw [if_pos hj, if_pos hj]
    · rw [if_neg hj, if_neg hj]
      cases hgc : globalF i (l * acc) ch with
      | some g => simp
      | none => simp [ihs]

theorem globalF_removeF [Group G] {i j : Nat} {acc : G} {t : FT G}
    (hnd : (idsF t).Nodup) (hj : j ∉ subIdsF i t) :
    globalF j acc (removeF i t) = globalF j acc t := by
  induction t generalizing acc with
  | nil => simp [removeF]
  | node k nm l ch sib ihc ihs =>
    obtain ⟨hkc, hks, hndc, hnds, hdisj⟩ := nodup_parts hnd
    by_cases hk : k = i
    · subst hk
      rw [show removeF k (FT.node k nm l ch sib) = removeF k sib by simp [removeF]]
      have hsubt : subIdsF k (FT.node k nm l ch sib) = k :: idsF ch := by
        unfold subIdsF
        simp [findF]
      rw [hsubt] at hj
      simp only [List.mem_cons, not_or] at hj
      obtain ⟨hjk, hjch⟩ := hj
      rw [globalF_node_right (fun he => hjk he.symm) hjch]
      exact ihs hnds (by rw [subIdsF_empty hks]; simp)
    · rw [show removeF i (FT.node k nm l ch sib)
            = FT.node k nm l (removeF i ch) (removeF i sib) by simp [removeF, hk]]
      by_cases hkj : k = j
      · subst hkj
        simp [globalF]
      · have hjsubch : j ∉ subIdsF i ch := by
          by_cases hic : i ∈ idsF ch
          · rw [subIdsF_node_left hk hic] at hj
            exact hj
          · rw [subIdsF_empty hic]
            simp
        have hjsubsib : j ∉ subIdsF i sib := by
          by_cases his : i ∈ idsF sib
          · by_cases hic : i ∈ idsF ch
            · rw [subIdsF_empty (fun hm => hdisj i hic his)]
              simp
            · rw [subIdsF_node_right hk hic] at hj
              exact hj
          · rw [subIdsF_empty his]
            simp
        by_cases hjc : j ∈ idsF ch
        · have hjc' : j ∈ idsF (removeF i ch) :=
            (mem_idsF_removeF hndc).mpr ⟨hjc, hjsubch⟩
          rw [globalF_node_left hkj hjc', globalF_node_left hkj hjc]
          exact ihc hndc hjsubch
        · have hjc' : j ∉ idsF (removeF i ch) :=
            fun hm => hjc (idsF_removeF_subset _ _ hm)
          rw [globalF_node_right hkj hjc', globalF_node_right hkj hjc]
          exact ihs hnds hjsubsib

/-! ### Graft lemmas -/

/-- Grafting inserts the new forest's preorder block inside the host's
preorder enumeration. -/
theorem idsF_graftF_split {p : Nat} (nd : FT G) {t : FT G} (hnd : (idsF t).Nodup)
    (hp : p ∈ idsF t) :
    ∃ l1 l2, idsF t = l1 ++ l2 ∧ idsF (graftF p nd t) = l1 ++ (idsF nd ++ l2) := by
  induction t with
  | nil => simp [idsF] at hp
  | node k nm l ch sib ihc ihs =>
    obtain ⟨hkc, hks, hndc, hnds, hdisj⟩ := nodup_parts hnd
    by_cases hk : k = p
    · subst hk
      refine ⟨k :: idsF ch, idsF sib, by simp [idsF], ?_⟩
      simp [graftF, idsF, idsF_appendF]
    · simp only [idsF, List.mem_cons, List.mem_append] at hp
      rcases hp with rfl | hpc | hps
      · exact absurd rfl hk
      · obtain ⟨l1, l2, hsp, hsp'⟩ := ihc hndc hpc
        refine ⟨k :: l1, l2 ++ idsF sib, by simp [idsF, hsp], ?_⟩
        have hnops : graftF p nd sib = sib := graftF_eq_self (fun hm => hdisj p hpc hm)
        rw [show graftF p nd (FT.node k nm l ch sib)
              = FT.node k nm l (graftF p nd ch) (graftF p nd sib) by simp [graftF, hk]]
        simp [idsF, hsp', hnops]
      · obtain ⟨l1, l2, hsp, hsp'⟩ := ihs hnds hps
        refine ⟨k :: idsF ch ++ l1, l2, by simp [idsF, hsp], ?_⟩
        have hnopc : graftF p nd ch = ch := graftF_eq_self (fun hm => hdisj p hm hps)
        rw [show graftF p nd (FT.node k nm l ch sib)
              = FT.node k nm l (graftF p nd ch) (graftF p nd sib) by simp [graftF, hk]]
        simp [idsF, hsp', hnopc]

theorem mem_idsF_graftF {p j : Nat} {nd t : FT G} (hnd : (idsF t).Nodup)
    (hp : p ∈ idsF t) :
    j ∈ idsF (graftF p nd t) ↔ j ∈ idsF t ∨ j ∈ idsF nd := by
  obtain ⟨l1, l2, hsp, hsp'⟩ := idsF_graftF_split nd hnd hp
  rw [hsp, hsp']
  simp only [List.mem_append]
  tauto

theorem nodup_graftF {p : Nat} {nd t : FT G} (hnd : (idsF t).Nodup)
    (hndn : (idsF nd).Nodup) (hfresh : ∀ x ∈ idsF nd, x ∉ idsF t)
    (hp : p ∈ idsF t) : (idsF (graftF p nd t)).Nodup := by
  obtain ⟨l1, l2, hsp, hsp'⟩ := idsF_graftF_split nd hnd hp
  rw [hsp']
  rw [hsp] at hnd
  rw [List.nodup_append] at hnd
  obtain ⟨h1, h2, h12⟩ := hnd
  rw [List.nodup_append, List.nodup_append]
  refine ⟨h1, ⟨hndn, h2, ?_⟩, ?_⟩
  · intro x hx hx2
    exact hfresh x hx (hsp ▸ List.mem_append_right _ hx2)
  · intro x hx hx2
    rcases List.mem_append.mp hx2 with hxn | hxl2
    · exact hfresh x hxn (hsp ▸ List.mem_append_left _ hx)
    · exact h12 hx hxl2

/-- Lookup of the graft point after grafting: its child forest is extended. -/
theorem findF_graftF_self (p : Nat) (nd t : FT G) :
    findF p (graftF p nd t) =
      (findF p t).map (fun d => (d.1, d.2.1, appendF d.2.2 nd)) := by
  induction t with
  | nil => simp [graftF, findF]
  | node k nm l ch sib ihc ihs =>
    by_cases hk : k = p
    · subst hk
      simp [graftF, findF]
    · rw [show graftF p nd (FT.node k nm l ch sib)
            = FT.node k nm l (graftF p nd ch) (graftF p nd sib) by simp [graftF, hk]]
      simp only [findF, if_neg hk]
      rw [ihc]
      cases hfc : findF p ch with
      | some d => simp
      | none => simp [ihs]

/-- Lookup of any other node after grafting a fresh forest. -/
theorem findF_graftF_ne {p j : Nat} {nd t : FT G} (hnd : (idsF t).Nodup)
    (hj : j ≠ p) (hfresh : j ∉ idsF nd) :
    findF j (graftF p nd t) =
      (findF j t).map (fun d => (d.1, d.2.1, graftF p nd d.2.2)) := by
  induction t with
  | nil => simp [graftF, findF]
  | node k nm l ch sib ihc ihs =>
    obtain ⟨hkc, hks, hndc, hnds, hdisj⟩ := nodup_parts hnd
    by_cases hk : k = p
    · subst hk
      rw [show graftF k nd (FT.node k nm l ch sib)
            = FT.node k nm l (appendF ch nd) sib by simp [graftF]]
      have hkj : k ≠ j := fun he => hj (he.symm)
      simp only [findF, if_neg hkj]
      rw [findF_appendF]
      cases hfc : findF j ch with
      | some d =>
        have : j ∈ idsF ch := findF_mem hfc
        have hpd : k ∉ idsF d.2.2 := by
          intro hm
          exact hkc (findF_child_subset hfc hm)
        simp [graftF_eq_self hpd]
      | none =>
        rw [findF_eq_none.mpr hfresh]
        cases hfs : findF j sib with
        | none => simp
        | some d =>
          have hpd : k ∉ idsF d.2.2 := by
            intro hm
            exact hks (findF_child_subset hfs hm)
          simp [graftF_eq_self hpd]
    · rw [show graftF p nd (FT.node k nm l ch sib)
            = FT.node k nm l (graftF p nd ch) (graftF p nd sib) by simp [graftF, hk]]
      by_cases hkj : k = j
      · subst hkj
        simp [findF]
      · simp only [findF, if_neg hkj]
        rw [ihc hndc]
        cases hfc : findF j ch with
        | some d => simp
        | none => simp [ihs hnds]

/-- Parent linkage of pre-existing nodes is unchanged by grafting a fresh
forest. -/
theorem parentOfF_graftF_ne {pid p j : Nat} {nd t : FT G} (hnd : (idsF t).Nodup)
    (hfresh : j ∉ idsF nd) :
    parentOfF pid j (graftF p nd t) = parentOfF pid j t := by
  induction t generalizing pid with
  | nil => simp [graftF]
  | node k nm l ch sib ihc ihs =>
    obtain ⟨hkc, hks, hndc, hnds, hdisj⟩ := nodup_parts hnd
    by_cases hk : k = p
    · subst hk
      rw [show graftF k nd (FT.node k nm l ch sib)
            = FT.node k nm l (appendF ch nd) sib by simp [graftF]]
      by_cases hkj : k = j
      · simp [parentOfF, hkj]
      · simp only [parentOfF, if_neg hkj]
        rw [parentOfF_appendF]
        rw [parentOfF_eq_none.mpr hfresh]
        cases hpc : parentOfF k j ch with
        | some q => simp
        | none => simp
    · rw [show graftF p nd (FT.node k nm l ch sib)
            = FT.node k nm l (graftF p nd ch) (graftF p nd sib) by simp [graftF, hk]]
      by_cases hkj : k = j
      · simp [parentOfF, hkj]
      · simp only [parentOfF, if_neg hkj]
        rw [ihc hndc]
        cases hpc : parentOfF k j ch with
        | some q => simp
        | none => simp [ihs hnds]

/-- The freshly grafted node's parent is the graft point. -/
theorem parentOfF_graftF_fresh {pid p n : Nat} {nm : String} {r : G} {ch t : FT G}
    (hp : p ∈ idsF t) (hfresh : n ∉ idsF t) :
    parentOfF pid n (graftF p (FT.node n nm r ch FT.nil) t) = some p := by
  induction t generalizing pid with
  | nil => simp [idsF] at hp
  | node k nmk lk c s ihc ihs =>
    have hnk : k ≠ n := by
      intro he
      exact hfresh (he ▸ List.mem_cons_self _ _)
    by_cases hk : k = p
    · subst hk
      rw [show graftF k (FT.node n nm r ch FT.nil) (FT.node k nmk lk c s)
            = FT.node k nmk lk (appendF c (FT.node n nm r ch FT.nil)) s by simp [graftF]]
      simp only [parentOfF, if_neg hnk]
      rw [parentOfF_appendF]
      have hnc : n ∉ idsF c := by
        intro hm
        exact hfresh (by simp [idsF, hm])
      rw [parentOfF_eq_none.mpr hnc]
      simp [parentOfF]
    · rw [show graftF p (FT.node n nm r ch FT.nil) (FT.node k nmk lk c s)
            = FT.node k nmk lk (graftF p (FT.node n nm r ch FT.nil) c)
                (graftF p (FT.node n nm r ch FT.nil) s) by simp [graftF, hk]]
      simp only [parentOfF, if_neg hnk]
      have hfc : n ∉ idsF c := by
        intro hm
        exact hfresh (by simp [idsF, hm])
      have hfs : n ∉ idsF s := by
        intro hm
        exact hfresh (by simp [idsF, hm])
      simp only [idsF, List.mem_cons, List.mem_append] at hp
      rcases hp with rfl | hpc | hps
      · exact absurd rfl hk
      · rw [ihc hpc hfc]
      · by_cases hpc : p ∈ idsF c
        · rw [ihc hpc hfc]
        · rw [graftF_eq_self hpc, parentOfF_eq_none.mpr hfc, ihs hps hfs]

/-- Lookup of a freshly grafted node. -/
theorem findF_graftF_fresh {p n : Nat} {nm : String} {r : G} {ch t : FT G}
    (hp : p ∈ idsF t) (hfresh : n ∉ idsF t) :
    findF n (graftF p (FT.node n nm r ch FT.nil) t) = some (nm, r, ch) := by
  induction t with
  | nil => simp [idsF] at hp
  | node k nmk lk c s ihc ihs =>
    have hnk : k ≠ n := by
      intro he
      exact hfresh (he ▸ List.mem_cons_self _ _)
    have hfc : n ∉ idsF c := by
      intro hm
      exact hfresh (by simp [idsF, hm])
    have hfs : n ∉ idsF s := by
      intro hm
      exact hfresh (by simp [idsF, hm])
    by_cases hk : k = p
    · subst hk
      rw [show graftF k (FT.node n nm r ch FT.nil) (FT.node k nmk lk c s)
            = FT.node k nmk lk (appendF c (FT.node n nm r ch FT.nil)) s by simp [graftF]]
      simp only [findF, if_neg hnk]
      rw [findF_appendF, findF_eq_none.mpr hfc]
      simp [findF]
    · rw [show graftF p (FT.node n nm r ch FT.nil) (FT.node k nmk lk c s)
            = FT.node k nmk lk (graftF p (FT.node n nm r ch FT.nil) c)
                (graftF p (FT.node n nm r ch FT.nil) s) by simp [graftF, hk]]
      simp only [findF, if_neg hnk]
      simp only [idsF, List.mem_cons, List.mem_append] at hp
      rcases hp with rfl | hpc | hps
      · exact absurd rfl hk
      · rw [ihc hpc hfc]
      · by_cases hpc : p ∈ idsF c
        · rw [ihc hpc hfc]
        · rw [graftF_eq_self hpc, findF_eq_none.mpr hfc, ihs hps hfs]

/-- Global transforms of pre-existing nodes are unchanged by grafting a fresh
forest. -/
theorem globalF_graftF_ne [Group G] {p j : Nat} {acc : G} {nd t : FT G}
    (hfresh : j ∉ idsF nd) :
    globalF j acc (graftF p nd t) = globalF j acc t := by
  induction t generalizing acc with
  | nil => simp [graftF]
  | node k nm l ch sib ihc ihs =>
    by_cases hk : k = p
    · subst hk
      rw [show graftF k nd (FT.node k nm l ch sib)
            = FT.node k nm l (appendF ch nd) sib by simp [graftF]]
      by_cases hkj : k = j
      · simp [globalF, hkj]
      · simp only [globalF, if_neg hkj]
        rw [globalF_appendF, globalF_eq_none.mpr hfresh]
        cases hgc : globalF j (l * acc) ch with
        | some g => simp
        | none => simp
    · rw [show graftF p nd (FT.node k nm l ch sib)
            = FT.node k nm l (graftF p nd ch) (graftF p nd sib) by simp [graftF, hk]]
      by_cases hkj : k = j
      · simp [globalF, hkj]
      · simp only [globalF, if_neg hkj]
        rw [ihc]
        cases hgc : globalF j (l * acc) ch with
        | some g => simp
        | none => simp [ihs]

/-- Global transform of a freshly grafted node: its stored local transform
composed onto the graft point's global transform. -/
theorem globalF_graftF_fresh [Group G] {p n : Nat} {nm : String} {r : G} {acc : G}
    {ch t : FT G} (hp : p ∈ idsF t) (hfresh : n ∉ idsF t) :
    globalF n acc (graftF p (FT.node n nm r ch FT.nil) t) =
      (globalF p acc t).map (fun wp => r * wp) := by
  induction t generalizing acc with
  | nil => simp [idsF] at hp
  | node k nmk lk c s ihc ihs =>
    have hnk : k ≠ n := by
      intro he
      exact hfresh (he ▸ List.mem_cons_self _ _)
    have hfc : n ∉ idsF c := by
      intro hm
      exact hfresh (by simp [idsF, hm])
    have hfs : n ∉ idsF s := by
      intro hm
      exact hfresh (by simp [idsF, hm])
    by_cases hk : k = p
    · subst hk
      rw [show graftF k (FT.node n nm r ch FT.nil) (FT.node k nmk lk c s)
            = FT.node k nmk lk (appendF c (FT.node n nm r ch FT.nil)) s by simp [graftF]]
      simp only [globalF, if_neg hnk]
      rw [globalF_appendF, globalF_eq_none.mpr hfc]
      simp [globalF]
    · rw [show graftF p (FT.node n nm r ch FT.nil) (FT.node k nmk lk c s)
            = FT.node k nmk lk (graftF p (FT.node n nm r ch FT.nil) c)
                (graftF p (FT.node n nm r ch FT.nil) s) by simp [graftF, hk]]
      have hkp : k ≠ p := hk
      simp only [globalF, if_neg hnk, if_neg hkp]
      simp only [idsF, List.mem_cons, List.mem_append] at hp
      rcases hp with rfl | hpc | hps
      · exact absurd rfl hk
      · rw [ihc hpc hfc]
        obtain ⟨g, hg⟩ : ∃ g, globalF p (lk * acc) c = some g := by
          cases hgc : globalF p (lk * acc) c with
          | some g => exact ⟨g, rfl⟩
          | none => exact absurd (globalF_eq_none.mp hgc) (by simp [hpc])
        simp [hg]
      · by_cases hpc : p ∈ idsF c
        · rw [ihc hpc hfc]
          obtain ⟨g, hg⟩ : ∃ g, globalF p (lk * acc) c = some g := by
            cases hgc : globalF p (lk * acc) c with
            | some g => exact ⟨g, rfl⟩
            | none => exact absurd (globalF_eq_none.mp hgc) (by simp [hpc])
          simp [hg]
        · rw [graftF_eq_self hpc, globalF_eq_none.mpr hfc,
            globalF_eq_none.mpr hpc, ihs hps hfs]

/-! ### Top-level spine lemmas -/

theorem childIdsF_false_node (j : Nat) (nm : String) (l : G) (ch sib : FT G) :
    childIdsF false (FT.node j nm l ch sib) = j :: childIdsF false sib := by
  simp [childIdsF]

theorem childIdsF_false_sublist (t : FT G) :
    List.Sublist (childIdsF false t) (idsF t) := by
  induction t with
  | nil => exact List.Sublist.refl _
  | node j nm l ch sib ihc ihs =>
    rw [childIdsF_false_node]
    simp only [idsF]
    refine List.Sublist.cons₂ j ?_
    exact List.Sublist.trans ihs (List.sublist_append_right _ _)

theorem mem_childIdsF_false_removeF {i j : Nat} {t : FT G} :
    j ∈ childIdsF false (removeF i t) ↔ j ∈ childIdsF false t ∧ j ≠ i := by
  induction t with
  | nil => simp [removeF, childIdsF]
  | node k nm l ch sib ihc ihs =>
    by_cases hk : k = i
    · subst hk
      rw [show removeF k (FT.node k nm l ch sib) = removeF k sib by simp [removeF]]
      rw [ihs]
      simp only [childIdsF, List.nil_append, List.mem_cons]
      constructor
      · rintro ⟨h1, h2⟩
        exact ⟨Or.inr h1, h2⟩
      · rintro ⟨h1 | h1, h2⟩
        · exact absurd h1 h2
        · exact ⟨h1, h2⟩
    · rw [show removeF i (FT.node k nm l ch sib)
            = FT.node k nm l (removeF i ch) (removeF i sib) by simp [removeF, hk]]
      rw [childIdsF_false_node, childIdsF_false_node]
      simp only [List.mem_cons]
      rw [ihs]
      constructor
      · rintro (rfl | ⟨h1, h2⟩)
        · exact ⟨Or.inl rfl, hk⟩
        · exact ⟨Or.inr h1, h2⟩
      · rintro ⟨rfl | h1, h2⟩
        · exact Or.inl rfl
        · exact Or.inr ⟨h1, h2⟩

/-- A top-level node lies in a subtree only when it is that subtree's root. -/
theorem top_mem_subIdsF {t j : Nat} {f : FT G} (hnd : (idsF f).Nodup)
    (ht : t ∈ childIdsF false f) (hsub : t ∈ subIdsF j f) : j = t := by
  induction f with
  | nil => simp [childIdsF] at ht
  | node k nm l ch sib ihc ihs =>
    obtain ⟨hkc, hks, hndc, hnds, hdisj⟩ := nodup_parts hnd
    simp only [childIdsF, List.nil_append, List.mem_cons] at ht
    by_cases hkj : k = j
    · subst hkj
      have hsubt : subIdsF k (FT.node k nm l ch sib) = k :: idsF ch := by
        unfold subIdsF
        simp [findF]
      rw [hsubt] at hsub
      rcases List.mem_cons.mp hsub with rfl | htch
      · rfl
      · rcases ht with rfl | hts
        · exact absurd htch hkc
        · exact absurd (childIdsF_false_sublist sib |>.subset hts) (hdisj t htch)
    · by_cases hjc : j ∈ idsF ch
      · rw [subIdsF_node_left hkj hjc] at hsub
        have htch : t ∈ idsF ch := subIdsF_subset _ _ hsub
        rcases ht with rfl | hts
        · exact absurd htch hkc
        · exact absurd (childIdsF_false_sublist sib |>.subset hts) (hdisj t htch)
      · by_cases hjs : j ∈ idsF sib
        · rw [subIdsF_node_right hkj hjc] at hsub
          have htsib : t ∈ idsF sib := subIdsF_subset _ _ hsub
          rcases ht with rfl | hts
          · exact absurd htsib hks
          · exact ihs hnds hts hsub
        · have : j ∉ idsF (FT.node k nm l ch sib) := by
            simp only [idsF, List.mem_cons, List.mem_append, not_or]
            exact ⟨fun he => hkj he.symm, hjc, hjs⟩
          rw [subIdsF_empty this] at hsub
          simp at hsub

/-- Distinct top-level nodes have disjoint subtrees. -/
theorem topIds_disjoint {t u : Nat} {f : FT G} (hnd : (idsF f).Nodup)
    (ht : t ∈ childIdsF false f) (_hu : u ∈ childIdsF false f) (hne : t ≠ u) :
    t ∉ subIdsF u f :=
  fun hsub => hne (top_mem_subIdsF hnd ht hsub).symm

/-- Every forest member lies in the subtree of some top-level node. -/
theorem mem_top_subtree {j : Nat} {f : FT G} (hnd : (idsF f).Nodup) (hj : j ∈ idsF f) :
    ∃ t ∈ childIdsF false f, j ∈ subIdsF t f := by
  induction f with
  | nil => simp [idsF] at hj
  | node k nm l ch sib ihc ihs =>
    obtain ⟨hkc, hks, hndc, hnds, hdisj⟩ := nodup_parts hnd
    simp only [idsF, List.mem_cons, List.mem_append] at hj
    have hsubt : subIdsF k (FT.node k nm l ch sib) = k :: idsF ch := by
      unfold subIdsF
      simp [findF]
    rcases hj with rfl | hjc | hjs
    · exact ⟨j, by simp [childIdsF], by rw [hsubt]; simp⟩
    · exact ⟨k, by simp [childIdsF], by rw [hsubt]; simp [hjc]⟩
    · obtain ⟨t, htm, htsub⟩ := ihs hnds hjs
      refine ⟨t, by simp [childIdsF, htm], ?_⟩
      have htsib : t ∈ idsF sib := (childIdsF_false_sublist sib).subset htm
      have htk : k ≠ t := fun he => hks (he ▸ htsib)
      rw [subIdsF_node_right htk (fun hm => hdisj t hm htsib)]
      exact htsub

/-! ### Scene-level destruction lemmas -/

theorem rootId_destroyNode (s : Scene G) (i : Nat) :
    (destroyNode s i).rootId = s.rootId := rfl

theorem rootName_destroyNode (s : Scene G) (i : Nat) :
    (destroyNode s i).rootName = s.rootName := rfl

theorem tops_destroyNode (s : Scene G) (i : Nat) :
    (destroyNode s i).tops = removeF i s.tops := rfl

theorem wf_nodup {s : Scene G} (h : wf s) : (idsF s.tops).Nodup :=
  (List.nodup_cons.mp h).2

theorem wf_root_not_mem {s : Scene G} (h : wf s) : s.rootId ∉ idsF s.tops :=
  (List.nodup_cons.mp h).1

theorem wf_destroyNode {s : Scene G} (h : wf s) (i : Nat) : wf (destroyNode s i) := by
  rw [wf, List.nodup_cons]
  refine ⟨fun hm => wf_root_not_mem h (idsF_removeF_subset _ _ hm), ?_⟩
  exact nodup_removeF i (wf_nodup h)

theorem destroyNode_noop {s : Scene G} {i : Nat} (h : i ∉ idsF s.tops) :
    destroyNode s i = s := by
  cases s with
  | mk r nm lcl tops => simp [destroyNode, removeF_eq_self h]

/-- Destroying strictly inside a subtree first does not change the effect of
destroying the subtree afterwards. -/
theorem removeF_removeF_of_sub {i x : Nat} {t : FT G} (hnd : (idsF t).Nodup)
    (hx : x ∈ subIdsF i t) (hne : x ≠ i) :
    removeF i (removeF x t) = removeF i t := by
  induction t with
  | nil => simp [removeF]
  | node k nm l ch sib ihc ihs =>
    obtain ⟨hkc, hks, hndc, hnds, hdisj⟩ := nodup_parts hnd
    by_cases hk : k = i
    · subst hk
      have hsubt : subIdsF k (FT.node k nm l ch sib) = k :: idsF ch := by
        unfold subIdsF
        simp [findF]
      rw [hsubt] at hx
      have hxch : x ∈ idsF ch := by
        rcases List.mem_cons.mp hx with rfl | h
        · exact absurd rfl hne
        · exact h
      have hxk : k ≠ x := fun he => hkc (he ▸ hxch)
      rw [show removeF x (FT.node k nm l ch sib)
            = FT.node k nm l (removeF x ch) (removeF x sib) by simp [removeF, hxk]]
      rw [show removeF k (FT.node k nm l (removeF x ch) (removeF x sib))
            = removeF k (removeF x sib) by simp [removeF]]
      rw [show removeF k (FT.node k nm l ch sib) = removeF k sib by simp [removeF]]
      rw [removeF_eq_self (fun hm => hdisj x hxch hm)]
    · by_cases hic : i ∈ idsF ch
      · rw [subIdsF_node_left hk hic] at hx
        have hxch : x ∈ idsF ch := subIdsF_subset _ _ hx
        have hxk : k ≠ x := fun he => hkc (he ▸ hxch)
        rw [show removeF x (FT.node k nm l ch sib)
              = FT.node k nm l (removeF x ch) (removeF x sib) by simp [removeF, hxk]]
        rw [show removeF i (FT.node k nm l (removeF x ch) (removeF x sib))
              = FT.node k nm l (removeF i (removeF x ch)) (removeF i (removeF x sib))
            by simp [removeF, hk]]
        rw [show removeF i (FT.node k nm l ch sib)
              = FT.node k nm l (removeF i ch) (removeF i sib) by simp [removeF, hk]]
        rw [ihc hndc hx, removeF_eq_self (fun hm => hdisj x hxch hm)]
      · by_cases his : i ∈ idsF sib
        · rw [subIdsF_node_right hk hic] at hx
          have hxsib : x ∈ idsF sib := subIdsF_subset _ _ hx
          have hxk : k ≠ x := fun he => hks (he ▸ hxsib)
          rw [show removeF x (FT.node k nm l ch sib)
                = FT.node k nm l (removeF x ch) (removeF x sib)
              by simp [removeF, hxk]]
          rw [show removeF i (FT.node k nm l (removeF x ch) (removeF x sib))
                = FT.node k nm l (removeF i (removeF x ch)) (removeF i (removeF x sib))
              by simp [removeF, hk]]
          rw [show removeF i (FT.node k nm l ch sib)
                = FT.node k nm l (removeF i ch) (removeF i sib) by simp [removeF, hk]]
          rw [ihs hnds hx, removeF_eq_self (fun hm => hdisj x hm hxsib)]
        · have : i ∉ idsF (FT.node k nm l ch sib) := by
            simp only [idsF, List.mem_cons, List.mem_append, not_or]
            exact ⟨fun he => hk he.symm, hic, his⟩
          rw [subIdsF_empty this] at hx
          simp at hx

theorem destroyNode_destroyNode_of_sub {s : Scene G} {i x : Nat} (hwf : wf s)
    (hx : x ∈ subIdsF i s.tops) (hne : x ≠ i) :
    destroyNode (destroyNode s x) i = destroyNode s i := by
  cases s with
  | mk r nm lcl tops =>
    simp only [destroyNode]
    rw [removeF_removeF_of_sub (wf_nodup hwf) hx hne]

/-- Destroying a whole subtree leaf-first equals removing the subtree in one
step. -/
theorem foldl_destroyNode_sub {i : Nat} :
    ∀ (L : List Nat) (s : Scene G), wf s → i ∈ idsF s.tops →
      (∀ x ∈ L, x ∉ idsF s.tops ∨ (x ∈ subIdsF i s.tops ∧ x ≠ i)) →
      List.foldl destroyNode s (L ++ [i]) = destroyNode s i := by
  intro L
  induction L with
  | nil => intro s _ _ _; rfl
  | cons x L' ih =>
    intro s hwf hi hL
    rw [List.cons_append, List.foldl_cons]
    rcases hL x (List.mem_cons_self _ _) with hxa | ⟨hxs, hxne⟩
    · rw [destroyNode_noop hxa]
      exact ih s hwf hi (fun y hy => hL y (List.mem_cons_of_mem _ hy))
    · have hwf1 : wf (destroyNode s x) := wf_destroyNode hwf x
      have hnis : i ∉ subIdsF x s.tops :=
        not_mem_subIdsF_of_strict (wf_nodup hwf) hxs hxne
      have hi1 : i ∈ idsF (destroyNode s x).tops := by
        rw [tops_destroyNode, mem_idsF_removeF (wf_nodup hwf)]
        exact ⟨hi, hnis⟩
      have hL1 : ∀ y ∈ L', y ∉ idsF (destroyNode s x).tops ∨
          (y ∈ subIdsF i (destroyNode s x).tops ∧ y ≠ i) := by
        intro y hy
        rcases hL y (List.mem_cons_of_mem _ hy) with hya | ⟨hys, hyne⟩
        · exact Or.inl (fun hm => hya (idsF_removeF_subset _ _ (tops_destroyNode _ _ ▸ hm)))
        · by_cases hyx : y ∈ subIdsF x s.tops
          · refine Or.inl ?_
            rw [tops_destroyNode]
            exact not_mem_removeF_of_mem_sub (wf_nodup hwf) hyx
          · refine Or.inr ⟨?_, hyne⟩
            rw [tops_destroyNode, mem_subIdsF_removeF (wf_nodup hwf) hnis]
            exact ⟨hys, hyx⟩
      rw [ih (destroyNode s x) hwf1 hi1 hL1]
      exact destroyNode_destroyNode_of_sub hwf hxs hxne

theorem nameOf_destroyNode {s : Scene G} {i j : Nat} (hwf : wf s)
    (hj : j ∉ subIdsF i s.tops) :
    nameOf (destroyNode s i) j = nameOf s j := by
  unfold nameOf
  rw [rootId_destroyNode, rootName_destroyNode, tops_destroyNode,
    findF_removeF (wf_nodup hwf) hj]
  cases findF j s.tops <;> simp

theorem getParent_destroyNode {s : Scene G} {i j : Nat} (hwf : wf s)
    (hj : j ∉ subIdsF i s.tops) :
    getParent (destroyNode s i) j = getParent s j := by
  unfold getParent
  rw [rootId_destroyNode, tops_destroyNode, parentOfF_removeF (wf_nodup hwf) hj]

theorem subIdsF_destroyNode_of_disjoint {s : Scene G} {i j : Nat} (hwf : wf s)
    (hj : j ∉ subIdsF i s.tops) (hi : i ∉ subIdsF j s.tops) :
    subIdsF j (destroyNode s i).tops = subIdsF j s.tops := by
  unfold subIdsF
  rw [tops_destroyNode, findF_removeF_of_disjoint (wf_nodup hwf) hj hi]

theorem mem_topIds_destroyNode {s : Scene G} {i j : Nat} :
    j ∈ topIds (destroyNode s i) ↔ j ∈ topIds s ∧ j ≠ i := by
  unfold topIds
  rw [tops_destroyNode]
  exact mem_childIdsF_false_removeF

/-! ### `deleteTopLevel` characterization -/

theorem deleteTopLevel_not_found {s : Scene G} {names : List String} {t : Nat}
    (hf : findF t s.tops = none) : deleteTopLevel s names t = s := by
  simp [deleteTopLevel, hf]

theorem deleteTopLevel_kept {s : Scene G} {names : List String} {t : Nat}
    {nm : String} {l : G} {ch : FT G}
    (hf : findF t s.tops = some (nm, l, ch)) (hk : nm ∈ names) :
    deleteTopLevel s names t = s := by
  simp [deleteTopLevel, hf, hk]

theorem destroyOrder_eq {s : Scene G} {t : Nat} {nm : String} {l : G} {ch : FT G}
    (hwf : wf s) (hf : findF t s.tops = some (nm, l, ch)) :
    destroyOrder s t = (idsF ch).reverse ++ [t] := by
  have ht : t ∈ idsF s.tops := findF_mem hf
  have htr : t ≠ s.rootId := fun he => wf_root_not_mem hwf (he ▸ ht)
  unfold destroyOrder getChildren
  rw [if_neg htr, hf]
  simp [childIdsF_true]

theorem deleteTopLevel_unkept {s : Scene G} {names : List String} {t : Nat}
    {nm : String} {l : G} {ch : FT G} (hwf : wf s)
    (hf : findF t s.tops = some (nm, l, ch)) (hk : nm ∉ names) :
    deleteTopLevel s names t = destroyNode s t := by
  have ht : t ∈ idsF s.tops := findF_mem hf
  have hsubt : subIdsF t s.tops = t :: idsF ch := by
    unfold subIdsF
    rw [hf]
  have horder := destroyOrder_eq hwf hf
  unfold deleteTopLevel
  rw [hf]
  simp only [hk, if_neg (by simp : ¬False)]
  rw [horder]
  refine foldl_destroyNode_sub _ s hwf ht ?_
  intro x hx
  rw [List.mem_reverse] at hx
  refine Or.inr ⟨?_, fun he => findF_self_not_mem_child (wf_nodup hwf) hf (he ▸ hx)⟩
  rw [hsubt]
  exact List.mem_cons_of_mem _ hx

/-! ### Sweep characterization -/

theorem sweepGo_spec (names : List String) :
    ∀ (T : List Nat) (s : Scene G), wf s → (∀ t ∈ T, t ∈ topIds s) → T.Nodup →
      wf (sweepGo s names T) ∧
      (∀ j, j ∈ idsF (sweepGo s names T).tops ↔
        (j ∈ idsF s.tops ∧ ∀ t ∈ T, j ∈ subIdsF t s.tops →
          ∃ nmt, nameOf s t = some nmt ∧ nmt ∈ names)) ∧
      (∀ j, j ∈ idsF (sweepGo s names T).tops →
        findF j (sweepGo s names T).tops = findF j s.tops) ∧
      (∀ u, u ∈ topIds (sweepGo s names T) ↔ (u ∈ topIds s ∧ (u ∈ T →
          ∃ nmt, nameOf s u = some nmt ∧ nmt ∈ names))) := by
  intro T
  induction T with
  | nil =>
    intro s hwf _ _
    exact ⟨hwf, by simp [sweepGo], by simp [sweepGo], by simp [sweepGo]⟩
  | cons t T' ih =>
    intro s hwf hT hnodT
    have ht : t ∈ topIds s := hT t (List.mem_cons_self _ _)
    have htid : t ∈ idsF s.tops := (childIdsF_false_sublist _).subset ht
    obtain ⟨⟨nmt, lt, cht⟩, hf⟩ := mem_findF htid
    have htr : t ≠ s.rootId := fun he => wf_root_not_mem hwf (he ▸ htid)
    have hnmt : nameOf s t = some nmt := by
      unfold nameOf
      rw [if_neg htr, hf]
      rfl
    have hstep : sweepGo s names (t :: T') = sweepGo (deleteTopLevel s names t) names T' :=
      rfl
    by_cases hk : nmt ∈ names
    · rw [hstep, deleteTopLevel_kept hf hk]
      obtain ⟨c1, c2, c3, c4⟩ :=
        ih s hwf (fun u hu => hT u (List.mem_cons_of_mem _ hu)) hnodT.of_cons
      refine ⟨c1, ?_, c3, ?_⟩
      · intro j
        rw [c2 j]
        constructor
        · rintro ⟨hj, hall⟩
          refine ⟨hj, ?_⟩
          intro u hu hsub
          rcases List.mem_cons.mp hu with rfl | hu
          · exact ⟨nmt, hnmt, hk⟩
          · exact hall u hu hsub
        · rintro ⟨hj, hall⟩
          exact ⟨hj, fun u hu hsub => hall u (List.mem_cons_of_mem _ hu) hsub⟩
      · intro u
        rw [c4 u]
        constructor
        · rintro ⟨hu, himp⟩
          refine ⟨hu, ?_⟩
          intro humem
          rcases List.mem_cons.mp humem with rfl | humem
          · exact ⟨nmt, hnmt, hk⟩
          · exact himp humem
        · rintro ⟨hu, himp⟩
          exact ⟨hu, fun humem => himp (List.mem_cons_of_mem _ humem)⟩
    · rw [hstep, deleteTopLevel_unkept hwf hf hk]
      have hwf1 : wf (destroyNode s t) := wf_destroyNode hwf t
      have hT1 : ∀ u ∈ T', u ∈ topIds (destroyNode s t) := by
        intro u hu
        have hut : u ≠ t := by
          rintro rfl
          exact (List.nodup_cons.mp hnodT).1 hu
        rw [mem_topIds_destroyNode]
        exact ⟨hT u (List.mem_cons_of_mem _ hu), hut⟩
      obtain ⟨c1, c2, c3, c4⟩ := ih (destroyNode s t) hwf1 hT1 hnodT.of_cons
      have haux : ∀ u ∈ T', u ∉ subIdsF t s.tops ∧ t ∉ subIdsF u s.tops ∧
          subIdsF u (destroyNode s t).tops = subIdsF u s.tops ∧
          nameOf (destroyNode s t) u = nameOf s u := by
        intro u hu
        have hut : u ≠ t := by
          rintro rfl
          exact (List.nodup_cons.mp hnodT).1 hu
        have hutop : u ∈ topIds s := hT u (List.mem_cons_of_mem _ hu)
        have h1 : u ∉ subIdsF t s.tops :=
          topIds_disjoint (wf_nodup hwf) hutop ht hut
        have h2 : t ∉ subIdsF u s.tops :=
          topIds_disjoint (wf_nodup hwf) ht hutop (Ne.symm hut)
        exact ⟨h1, h2, subIdsF_destroyNode_of_disjoint hwf h1 h2,
          nameOf_destroyNode hwf h1⟩
      refine ⟨c1, ?_, ?_, ?_⟩
      · intro j
        rw [c2 j]
        have hjmem : j ∈ idsF (destroyNode s t).tops ↔
            j ∈ idsF s.tops ∧ j ∉ subIdsF t s.tops := by
          rw [tops_destroyNode, mem_idsF_removeF (wf_nodup hwf)]
        rw [hjmem]
        constructor
        · rintro ⟨⟨hj, hjt⟩, hall⟩
          refine ⟨hj, ?_⟩
          intro u hu hsub
          rcases List.mem_cons.mp hu with rfl | hu
          · exact absurd hsub hjt
          · obtain ⟨_, _, hsubeq, hnm⟩ := haux u hu
            have := hall u hu (by rw [hsubeq]; exact hsub)
            rw [hnm] at this
            exact this
        · rintro ⟨hj, hall⟩
          have hjt : j ∉ subIdsF t s.tops := by
            intro hsub
            obtain ⟨nmt', hnmt', hmem'⟩ := hall t (List.mem_cons_self _ _) hsub
            rw [hnmt] at hnmt'
            cases hnmt'
            exact hk hmem'
          refine ⟨⟨hj, hjt⟩, ?_⟩
          intro u hu hsub
          obtain ⟨_, _, hsubeq, hnm⟩ := haux u hu
          rw [hsubeq] at hsub
          rw [hnm]
          exact hall u (List.mem_cons_of_mem _ hu) hsub
      · intro j hj
        rw [c3 j hj]
        have hj1 : j ∈ idsF (destroyNode s t).tops := ((c2 j).mp hj).1
        have hj0 : j ∈ idsF s.tops ∧ j ∉ subIdsF t s.tops := by
          rw [tops_destroyNode, mem_idsF_removeF (wf_nodup hwf)] at hj1
          exact hj1
        have hjt : t ∉ subIdsF j s.tops := by
          intro hsub
          have hjeq := top_mem_subIdsF (wf_nodup hwf) ht hsub
          apply hj0.2
          rw [hjeq]
          exact mem_subIdsF_self htid
        rw [tops_destroyNode, findF_removeF_of_disjoint (wf_nodup hwf) hj0.2 hjt]
      · intro u
        rw [c4 u]
        rw [mem_topIds_destroyNode]
        constructor
        · rintro ⟨⟨hu, hut⟩, himp⟩
          refine ⟨hu, ?_⟩
          intro humem
          rcases List.mem_cons.mp humem with rfl | humem
          · exact absurd rfl hut
          · obtain ⟨_, _, _, hnm⟩ := haux u humem
            rw [← hnm]
            exact himp humem
        · rintro ⟨hu, himp⟩
          have hut : u ≠ t := by
            rintro rfl
            obtain ⟨nmt', hnmt', hmem'⟩ := himp (List.mem_cons_self _ _)
            rw [hnmt] at hnmt'
            cases hnmt'
            exact hk hmem'
          refine ⟨⟨hu, hut⟩, ?_⟩
          intro humem
          obtain ⟨_, _, _, hnm⟩ := haux u humem
          rw [hnm]
          exact himp (List.mem_cons_of_mem _ humem)

theorem topIds_nodup {s : Scene G} (hwf : wf s) : (topIds s).Nodup :=
  (childIdsF_false_sublist _).nodup (wf_nodup hwf)

/-- The destruction phase of `scene.clear`: survivors are exactly the
subtrees of kept-named top-level nodes, their data untouched. -/
theorem sweep_spec {s : Scene G} (names : List String) (hwf : wf s) :
    wf (sweep s names) ∧
    (∀ j, j ∈ idsF (sweep s names).tops ↔
      ∃ t, t ∈ topIds s ∧ (∃ nmt, nameOf s t = some nmt ∧ nmt ∈ names) ∧
        j ∈ subIdsF t s.tops) ∧
    (∀ j, j ∈ idsF (sweep s names).tops →
      findF j (sweep s names).tops = findF j s.tops) ∧
    (∀ u, u ∈ topIds (sweep s names) ↔ (u ∈ topIds s ∧
        ∃ nmt, nameOf s u = some nmt ∧ nmt ∈ names)) := by
  have hsw : sweep s names = sweepGo s names (topIds s) := rfl
  obtain ⟨c1, c2, c3, c4⟩ :=
    sweepGo_spec names (topIds s) s hwf (fun _ h => h) (topIds_nodup hwf)
  rw [hsw]
  refine ⟨c1, ?_, c3, ?_⟩
  · intro j
    rw [c2 j]
    constructor
    · rintro ⟨hj, hall⟩
      obtain ⟨t, htop, hsub⟩ := mem_top_subtree (wf_nodup hwf) hj
      exact ⟨t, htop, hall t htop hsub, hsub⟩
    · rintro ⟨t, htop, hkept, hsub⟩
      refine ⟨subIdsF_subset _ _ hsub, ?_⟩
      intro u hutop husub
      rcases subIdsF_nested_or_disjoint (wf_nodup hwf) hsub husub with h1 | h2
      · have hut : u = t := top_mem_subIdsF (wf_nodup hwf) htop h1
        rw [hut]
        exact hkept
      · have htu : t = u := top_mem_subIdsF (wf_nodup hwf) hutop h2
        rw [← htu]
        exact hkept
  · intro u
    rw [c4 u]
    constructor
    · rintro ⟨hu, himp⟩
      exact ⟨hu, himp hu⟩
    · rintro ⟨hu, hex⟩
      exact ⟨hu, fun _ => hex⟩

/-! ### Further forest lemmas for re-parenting -/

theorem parentOfF_in_child {n j : Nat} {t : FT G} {nm : String} {l : G} {ch : FT G}
    (hnd : (idsF t).Nodup) (hf : findF n t = some (nm, l, ch)) (hj : j ∈ idsF ch) :
    ∀ pid, parentOfF pid j t = parentOfF n j ch := by
  induction t with
  | nil => simp [findF] at hf
  | node k nmk lk c s ihc ihs =>
    obtain ⟨hkc, hks, hndc, hnds, hdisj⟩ := nodup_parts hnd
    intro pid
    simp only [findF] at hf
    by_cases hk : k = n
    · rw [if_pos hk] at hf
      cases hf
      subst hk
      have hkj : k ≠ j := fun he => hkc (he ▸ hj)
      exact parentOfF_node_left hkj hj
    · rw [if_neg hk] at hf
      cases hfc : findF n c with
      | some d =>
        rw [hfc] at hf
        cases hf
        have hjc : j ∈ idsF c := findF_child_subset hfc hj
        have hkj : k ≠ j := fun he => hkc (he ▸ hjc)
        rw [parentOfF_node_left hkj hjc]
        exact ihc hndc hfc k
      | none =>
        rw [hfc] at hf
        have hjs : j ∈ idsF s := findF_child_subset hf hj
        have hkj : k ≠ j := fun he => hks (he ▸ hjs)
        rw [parentOfF_node_right hkj (fun hm => hdisj j hm hjs)]
        exact ihs hnds hf pid

theorem idsF_graftF_subset {p : Nat} {nd t : FT G} :
    ∀ j ∈ idsF (graftF p nd t), j ∈ idsF t ∨ j ∈ idsF nd := by
  induction t with
  | nil => simp [graftF, idsF]
  | node k nmk lk c s ihc ihs =>
    intro j hj
    by_cases hk : k = p
    · subst hk
      rw [show graftF k nd (FT.node k nmk lk c s)
            = FT.node k nmk lk (appendF c nd) s by simp [graftF]] at hj
      simp only [idsF, idsF_appendF, List.mem_cons, List.mem_append] at hj
      rcases hj with rfl | (h | h) | h
      · exact Or.inl (List.mem_cons_self _ _)
      · exact Or.inl (by simp [idsF, h])
      · exact Or.inr h
      · exact Or.inl (by simp [idsF, h])
    · rw [show graftF p nd (FT.node k nmk lk c s)
            = FT.node k nmk lk (graftF p nd c) (graftF p nd s) by simp [graftF, hk]] at hj
      simp only [idsF, List.mem_cons, List.mem_append] at hj
      rcases hj with rfl | h | h
      · exact Or.inl (List.mem_cons_self _ _)
      · rcases ihc j h with h' | h'
        · exact Or.inl (by simp [idsF, h'])
        · exact Or.inr h'
      · rcases ihs j h with h' | h'
        · exact Or.inl (by simp [idsF, h'])
        · exact Or.inr h'

/-- Lookup inside the freshly grafted forest. -/
theorem findF_graftF_new {p j : Nat} {nd t : FT G}
    (hp : p ∈ idsF t) (hjt : j ∉ idsF t) :
    findF j (graftF p nd t) = findF j nd := by
  induction t with
  | nil => simp [idsF] at hp
  | node k nmk lk c s ihc ihs =>
    have hkj : k ≠ j := fun he => hjt (he ▸ List.mem_cons_self _ _)
    have hjc : j ∉ idsF c := fun hm => hjt (by simp [idsF, hm])
    have hjs : j ∉ idsF s := fun hm => hjt (by simp [idsF, hm])
    by_cases hk : k = p
    · subst hk
      rw [show graftF k nd (FT.node k nmk lk c s)
            = FT.node k nmk lk (appendF c nd) s by simp [graftF]]
      simp only [findF, if_neg hkj]
      rw [findF_appendF, findF_eq_none.mpr hjc]
      cases hfn : findF j nd with
      | some d => simp
      | none => simp [findF_eq_none.mpr hjs]
    · rw [show graftF p nd (FT.node k nmk lk c s)
            = FT.node k nmk lk (graftF p nd c) (graftF p nd s) by simp [graftF, hk]]
      simp only [findF, if_neg hkj]
      simp only [idsF, List.mem_cons, List.mem_append] at hp
      have hviaC : p ∈ idsF c →
          (match findF j (graftF p nd c) with
            | some d => some d
            | none => findF j (graftF p nd s)) = findF j nd := by
        intro hpc
        rw [ihc hpc hjc]
        cases hfn : findF j nd with
        | some d => simp
        | none =>
          simp only
          refine findF_eq_none.mpr ?_
          intro hm
          rcases idsF_graftF_subset j hm with h | h
          · exact hjs h
          · exact (findF_eq_none.mp hfn) h
      rcases hp with rfl | hpc | hps
      · exact absurd rfl hk
      · exact hviaC hpc
      · by_cases hpc : p ∈ idsF c
        · exact hviaC hpc
        · rw [graftF_eq_self hpc, findF_eq_none.mpr hjc, ihs hps hjs]

/-- Parent linkage inside the freshly grafted forest (owner is the graft
point). -/
theorem parentOfF_graftF_new {pid p j : Nat} {nd t : FT G}
    (hp : p ∈ idsF t) (hjt : j ∉ idsF t) :
    parentOfF pid j (graftF p nd t) = parentOfF p j nd := by
  induction t generalizing pid with
  | nil => simp [idsF] at hp
  | node k nmk lk c s ihc ihs =>
    have hkj : k ≠ j := fun he => hjt (he ▸ List.mem_cons_self _ _)
    have hjc : j ∉ idsF c := fun hm => hjt (by simp [idsF, hm])
    have hjs : j ∉ idsF s := fun hm => hjt (by simp [idsF, hm])
    by_cases hk : k = p
    · subst hk
      rw [show graftF k nd (FT.node k nmk lk c s)
            = FT.node k nmk lk (appendF c nd) s by simp [graftF]]
      simp only [parentOfF, if_neg hkj]
      rw [parentOfF_appendF, parentOfF_eq_none.mpr hjc]
      cases hfn : parentOfF k j nd with
      | some q => simp
      | none => simp [parentOfF_eq_none.mpr hjs, hfn]
    · rw [show graftF p nd (FT.node k nmk lk c s)
            = FT.node k nmk lk (graftF p nd c) (graftF p nd s) by simp [graftF, hk]]
      simp only [parentOfF, if_neg hkj]
      simp only [idsF, List.mem_cons, List.mem_append] at hp
      have hviaC : p ∈ idsF c →
          (match parentOfF k j (graftF p nd c) with
            | some q => some q
            | none => parentOfF pid j (graftF p nd s)) = parentOfF p j nd := by
        intro hpc
        rw [ihc hpc hjc]
        cases hfn : parentOfF p j nd with
        | some q => simp
        | none =>
          simp only
          refine parentOfF_eq_none.mpr ?_
          intro hm
          rcases idsF_graftF_subset j hm with h | h
          · exact hjs h
          · exact (parentOfF_eq_none.mp hfn) h
      rcases hp with rfl | hpc | hps
      · exact absurd rfl hk
      · exact hviaC hpc
      · by_cases hpc : p ∈ idsF c
        · exact hviaC hpc
        · rw [graftF_eq_self hpc, parentOfF_eq_none.mpr hjc, ihs hps hjs]

theorem childIdsF_false_appendF (t u : FT G) :
    childIdsF false (appendF t u) = childIdsF false t ++ childIdsF false u := by
  induction t with
  | nil => simp [appendF, childIdsF]
  | node j nm l ch sib ihc ihs =>
    rw [show appendF (FT.node j nm l ch sib) u = FT.node j nm l ch (appendF sib u)
          by simp [appendF]]
    rw [childIdsF_false_node, childIdsF_false_node, ihs]
    simp

theorem childIdsF_false_graftF (p : Nat) (nd t : FT G) :
    childIdsF false (graftF p nd t) = childIdsF false t := by
  induction t with
  | nil => simp [graftF]
  | node j nm l ch sib ihc ihs =>
    by_cases hj : j = p
    · subst hj
      rw [show graftF j nd (FT.node j nm l ch sib)
            = FT.node j nm l (appendF ch nd) sib by simp [graftF]]
      rw [childIdsF_false_node, childIdsF_false_node]
    · rw [show graftF p nd (FT.node j nm l ch sib)
            = FT.node j nm l (graftF p nd ch) (graftF p nd sib) by simp [graftF, hj]]
      rw [childIdsF_false_node, childIdsF_false_node, ihs]

theorem idsF_singleton (n : Nat) (nm : String) (r : G) (ch : FT G) :
    idsF (FT.node n nm r ch FT.nil) = n :: idsF ch := by
  simp [idsF]

theorem evalGlobal_some [Group G] {s : Scene G} {i : Nat}
    (h : i = s.rootId ∨ i ∈ idsF s.tops) : ∃ g, evalGlobal s i = some g := by
  unfold evalGlobal
  rcases h with rfl | hm
  · exact ⟨s.rootLcl, by simp⟩
  · by_cases hr : i = s.rootId
    · exact ⟨s.rootLcl, by simp [hr]⟩
    · rw [if_neg hr]
      cases hg : globalF i s.rootLcl s.tops with
      | some g => exact ⟨g, rfl⟩
      | none => exact absurd (globalF_eq_none.mp hg) (by simp [hm])

/-! ### `AddChild` characterization -/

theorem rootId_addChild (s : Scene G) (p : Nat) (nd : FT G) :
    (addChild s p nd).rootId = s.rootId := by
  unfold addChild
  split <;> rfl

theorem rootName_addChild (s : Scene G) (p : Nat) (nd : FT G) :
    (addChild s p nd).rootName = s.rootName := by
  unfold addChild
  split <;> rfl

theorem rootLcl_addChild (s : Scene G) (p : Nat) (nd : FT G) :
    (addChild s p nd).rootLcl = s.rootLcl := by
  unfold addChild
  split <;> rfl

/-- `AddChild` of a detached single node (with its subtree) onto a valid
parent: every structural fact needed about the result. -/
theorem addChild_spec [Group G] {s1 s2 : Scene G} {pid n : Nat} {nm : String}
    {r : G} {ch : FT G}
    (hs2 : s2 = addChild s1 pid (FT.node n nm r ch FT.nil))
    (hwf1 : wf s1)
    (hfn : n ∉ idsF s1.tops) (hnroot : n ≠ s1.rootId)
    (hfch : ∀ x ∈ idsF ch, x ∉ idsF s1.tops)
    (hndch : (idsF ch).Nodup) (hnch : n ∉ idsF ch)
    (hchroot : s1.rootId ∉ idsF ch)
    (hpid : pid = s1.rootId ∨ pid ∈ idsF s1.tops) :
    wf s2 ∧
    (∀ j, j ∈ idsF s2.tops ↔ (j ∈ idsF s1.tops ∨ j = n ∨ j ∈ idsF ch)) ∧
    findF n s2.tops = some (nm, r, ch) ∧
    (∀ j, j ∈ idsF s1.tops →
      (findF j s2.tops).map (fun d => (d.1, d.2.1)) =
        (findF j s1.tops).map (fun d => (d.1, d.2.1))) ∧
    (∀ j, j ∈ idsF ch → findF j s2.tops = findF j ch) ∧
    getParent s2 n = some pid ∧
    (∀ j, j ≠ n → j ∈ idsF s1.tops → getParent s2 j = getParent s1 j) ∧
    (∀ j, j ∈ idsF ch → getParent s2 j = parentOfF n j ch) ∧
    (∀ j, j ∈ idsF s1.tops → evalGlobal s2 j = evalGlobal s1 j) ∧
    evalGlobal s2 n = (evalGlobal s1 pid).map (fun wp => r * wp) ∧
    (∀ j, j ∈ topIds s2 ↔ (j ∈ topIds s1 ∨ (pid = s1.rootId ∧ j = n))) := by
  have hroot2 : s2.rootId = s1.rootId := by rw [hs2]; exact rootId_addChild _ _ _
  have hrootl2 : s2.rootLcl = s1.rootLcl := by rw [hs2]; exact rootLcl_addChild _ _ _
  have hndid : idsF (FT.node n nm r ch FT.nil) = n :: idsF ch := idsF_singleton _ _ _ _
  have hfresh : ∀ x ∈ idsF (FT.node n nm r ch FT.nil), x ∉ idsF s1.tops := by
    intro x hx
    rw [hndid] at hx
    rcases List.mem_cons.mp hx with rfl | hx
    · exact hfn
    · exact hfch x hx
  have hndnd : (idsF (FT.node n nm r ch FT.nil)).Nodup := by
    rw [hndid]
    exact List.nodup_cons.mpr ⟨hnch, hndch⟩
  rcases hpid with hproot | hpmem
  · -- parent is the scene root: append to the top-level forest
    have htops : s2.tops = appendF s1.tops (FT.node n nm r ch FT.nil) := by
      rw [hs2]
      unfold addChild
      rw [if_pos hproot]
    have hids2 : idsF s2.tops = idsF s1.tops ++ (n :: idsF ch) := by
      rw [htops, idsF_appendF, hndid]
    refine ⟨?_, ?_, ?_, ?_, ?_, ?_, ?_, ?_, ?_, ?_, ?_⟩
    · rw [wf, List.nodup_cons, hroot2, hids2]
      refine ⟨?_, ?_⟩
      · simp only [List.mem_append, List.mem_cons, not_or]
        exact ⟨wf_root_not_mem hwf1, fun he => hnroot he.symm, hchroot⟩
      · rw [List.nodup_append]
        refine ⟨wf_nodup hwf1, List.nodup_cons.mpr ⟨hnch, hndch⟩, ?_⟩
        intro x hx hx2
        rcases List.mem_cons.mp hx2 with rfl | hx2
        · exact hfn hx
        · exact hfch x hx2 hx
    · intro j
      rw [hids2]
      simp [List.mem_append]
    · rw [htops, findF_appendF, findF_eq_none.mpr hfn]
      simp [findF]
    · intro j hj
      rw [htops, findF_appendF]
      obtain ⟨d, hd⟩ := mem_findF hj
      simp [hd]
    · intro j hj
      have hjn : j ≠ n := fun he => hnch (he ▸ hj)
      rw [htops, findF_appendF, findF_eq_none.mpr (hfch j hj)]
      obtain ⟨d, hd⟩ := mem_findF hj
      simp only [findF, if_neg (Ne.symm hjn), hd]
    · rw [hs2]
      unfold getParent
      rw [rootId_addChild, if_neg hnroot]
      rw [show (addChild s1 pid (FT.node n nm r ch FT.nil)).tops
            = appendF s1.tops (FT.node n nm r ch FT.nil) from hs2 ▸ htops]
      rw [parentOfF_appendF, parentOfF_eq_none.mpr hfn]
      simp [parentOfF, hproot]
    · intro j hjn hj
      have hjroot : j ≠ s1.rootId := fun he => wf_root_not_mem hwf1 (he ▸ hj)
      unfold getParent
      rw [hroot2, if_neg hjroot, if_neg hjroot, htops, parentOfF_appendF]
      obtain ⟨q, hq⟩ : ∃ q, parentOfF s1.rootId j s1.tops = some q := by
        cases hpq : parentOfF s1.rootId j s1.tops with
        | some q => exact ⟨q, rfl⟩
        | none => exact absurd (parentOfF_eq_none.mp hpq) (by simp [hj])
      simp [hq]
    · intro j hj
      have hjn : j ≠ n := fun he => hnch (he ▸ hj)
      have hjroot : j ≠ s1.rootId := fun he => hchroot (he ▸ hj)
      unfold getParent
      rw [hroot2, if_neg hjroot, htops, parentOfF_appendF,
        parentOfF_eq_none.mpr (hfch j hj)]
      simp only [parentOfF, if_neg (Ne.symm hjn)]
      obtain ⟨q, hq⟩ : ∃ q, parentOfF n j ch = some q := by
        cases hpq : parentOfF n j ch with
        | some q => exact ⟨q, rfl⟩
        | none => exact absurd (parentOfF_eq_none.mp hpq) (by simp [hj])
      simp [hq]
    · intro j hj
      have hjroot : j ≠ s1.rootId := fun he => wf_root_not_mem hwf1 (he ▸ hj)
      unfold evalGlobal
      rw [hroot2, hrootl2, if_neg hjroot, if_neg hjroot, htops, globalF_appendF]
      obtain ⟨g, hg⟩ : ∃ g, globalF j s1.rootLcl s1.tops = some g := by
        cases hpg : globalF j s1.rootLcl s1.tops with
        | some g => exact ⟨g, rfl⟩
        | none => exact absurd (globalF_eq_none.mp hpg) (by simp [hj])
      simp [hg]
    · unfold evalGlobal
      rw [hroot2, hrootl2, if_neg hnroot, if_pos hproot]
      rw [htops, globalF_appendF, globalF_eq_none.mpr hfn]
      simp [globalF]
    · intro j
      unfold topIds
      rw [htops, childIdsF_false_appendF, childIdsF_false_node]
      simp only [childIdsF, List.mem_append, List.mem_cons]
      constructor
      · rintro (h | h | h)
        · exact Or.inl h
        · exact Or.inr ⟨hproot, h⟩
        · simp [childIdsF] at h
      · rintro (h | ⟨_, rfl⟩)
        · exact Or.inl h
        · exact Or.inr (Or.inl rfl)
  · -- parent is a real node: graft inside the forest
    have hproot : pid ≠ s1.rootId := fun he => wf_root_not_mem hwf1 (he ▸ hpmem)
    have htops : s2.tops = graftF pid (FT.node n nm r ch FT.nil) s1.tops := by
      rw [hs2]
      unfold addChild
      rw [if_neg hproot]
    refine ⟨?_, ?_, ?_, ?_, ?_, ?_, ?_, ?_, ?_, ?_, ?_⟩
    · rw [wf, List.nodup_cons, hroot2, htops]
      refine ⟨?_, nodup_graftF (wf_nodup hwf1) hndnd hfresh hpmem⟩
      rw [mem_idsF_graftF (wf_nodup hwf1) hpmem, hndid]
      simp only [List.mem_cons, not_or]
      exact ⟨wf_root_not_mem hwf1, fun he => hnroot he.symm, hchroot⟩
    · intro j
      rw [htops, mem_idsF_graftF (wf_nodup hwf1) hpmem, hndid]
      simp
    · rw [htops]
      exact findF_graftF_fresh hpmem hfn
    · intro j hj
      rw [htops]
      by_cases hjp : j = pid
      · subst hjp
        rw [findF_graftF_self]
        cases hd : findF j s1.tops <;> simp
      · have hjnd : j ∉ idsF (FT.node n nm r ch FT.nil) := fun hm => hfresh j hm hj
        rw [findF_graftF_ne (wf_nodup hwf1) hjp hjnd]
        cases hd : findF j s1.tops <;> simp
    · intro j hj
      have hjn : j ≠ n := fun he => hnch (he ▸ hj)
      have hj1 : j ∉ idsF s1.tops := hfch j hj
      rw [htops, findF_graftF_new hpmem hj1]
      simp only [findF, if_neg (Ne.symm hjn)]
      obtain ⟨d, hd⟩ := mem_findF hj
      simp [hd]
    · unfold getParent
      rw [hroot2, if_neg hnroot, htops]
      exact parentOfF_graftF_fresh hpmem hfn
    · intro j hjn hj
      have hjroot : j ≠ s1.rootId := fun he => wf_root_not_mem hwf1 (he ▸ hj)
      have hjnd : j ∉ idsF (FT.node n nm r ch FT.nil) := fun hm => hfresh j hm hj
      unfold getParent
      rw [hroot2, if_neg hjroot, if_neg hjroot, htops,
        parentOfF_graftF_ne (wf_nodup hwf1) hjnd]
    · intro j hj
      have hjn : j ≠ n := fun he => hnch (he ▸ hj)
      have hjroot : j ≠ s1.rootId := fun he => hchroot (he ▸ hj)
      have hj1 : j ∉ idsF s1.tops := hfch j hj
      unfold getParent
      rw [hroot2, if_neg hjroot, htops, parentOfF_graftF_new hpmem hj1]
      simp only [parentOfF, if_neg (Ne.symm hjn)]
      obtain ⟨q, hq⟩ : ∃ q, parentOfF n j ch = some q := by
        cases hpq : parentOfF n j ch with
        | some q => exact ⟨q, rfl⟩
        | none => exact absurd (parentOfF_eq_none.mp hpq) (by simp [hj])
      simp [hq]
    · intro j hj
      have hjroot : j ≠ s1.rootId := fun he => wf_root_not_mem hwf1 (he ▸ hj)
      have hjnd : j ∉ idsF (FT.node n nm r ch FT.nil) := fun hm => hfresh j hm hj
      unfold evalGlobal
      rw [hroot2, hrootl2, if_neg hjroot, if_neg hjroot, htops,
        globalF_graftF_ne hjnd]
    · unfold evalGlobal
      rw [hroot2, hrootl2, if_neg hnroot, if_neg hproot, htops,
        globalF_graftF_fresh hpmem hfn]
    · intro j
      unfold topIds
      rw [htops, childIdsF_false_graftF]
      constructor
      · intro h
        exact Or.inl h
      · rintro (h | ⟨he, _⟩)
        · exact h
        · exact absurd he hproot

/-! ### `set_parent` characterization -/
theorem rootLcl_destroyNode (s : Scene G) (i : Nat) :
    (destroyNode s i).rootLcl = s.rootLcl := rfl

theorem evalGlobal_destroyNode [Group G] {s : Scene G} {i j : Nat} (hwf : wf s)
    (hj : j ∉ subIdsF i s.tops) :
    evalGlobal (destroyNode s i) j = evalGlobal s j := by
  unfold evalGlobal
  rw [rootId_destroyNode, tops_destroyNode, rootLcl_destroyNode]
  by_cases hr : j = s.rootId
  · simp [hr]
  · rw [if_neg hr, if_neg hr, globalF_removeF (wf_nodup hwf) hj]

theorem evalGlobal_eq_none [Group G] {s : Scene G} {j : Nat}
    (hr : j ≠ s.rootId) (hm : j ∉ idsF s.tops) : evalGlobal s j = none := by
  unfold evalGlobal
  rw [if_neg hr]
  exact globalF_eq_none.mpr hm

theorem getParent_eq_none {s : Scene G} {j : Nat} (hm : j ∉ idsF s.tops) :
    getParent s j = none := by
  unfold getParent
  by_cases hr : j = s.rootId
  · rw [if_pos hr]
  · rw [if_neg hr]
    exact parentOfF_eq_none.mpr hm

/-- The shape of `set_parent`: the node's subtree is detached and re-attached
(with its stored local transform replaced by the relative transform when the
world pose is kept). -/
theorem setParent_eq [Group G] {s : Scene G} {n : Nat} (pa : Option Nat) (kw : Bool)
    {nm : String} {l : G} {ch : FT G}
    (hwf : wf s) (hf : findF n s.tops = some (nm, l, ch))
    (hpid : pa.getD s.rootId = s.rootId ∨ pa.getD s.rootId ∈ idsF s.tops) :
    ∃ r, setParent s n pa kw =
        addChild (destroyNode s n) (pa.getD s.rootId) (FT.node n nm r ch FT.nil) ∧
      (kw = false → r = l) ∧
      (kw = true → ∃ wn wp, evalGlobal s n = some wn ∧
        evalGlobal s (pa.getD s.rootId) = some wp ∧ r = wn * wp⁻¹) := by
  have hn : n ∈ idsF s.tops := findF_mem hf
  cases kw with
  | false =>
    refine ⟨l, ?_, fun _ => rfl, fun h => by simp at h⟩
    unfold setParent
    rw [hf]
    rfl
  | true =>
    obtain ⟨wn, hwn⟩ := evalGlobal_some (s := s) (Or.inr hn)
    obtain ⟨wp, hwp⟩ := evalGlobal_some (s := s) hpid
    refine ⟨wn * wp⁻¹, ?_, fun h => by simp at h, fun _ => ⟨wn, wp, hwn, hwp, rfl⟩⟩
    unfold setParent
    simp only [hf, hwn, hwp]
    rfl

theorem setParent_spec [Group G] {s : Scene G} {n : Nat} {pa : Option Nat} (kw : Bool)
    (hwf : wf s) (hn : n ∈ idsF s.tops)
    (hpid : pa.getD s.rootId = s.rootId ∨ pa.getD s.rootId ∈ idsF s.tops)
    (hcyc : pa.getD s.rootId ∉ subIdsF n s.tops) :
    wf (setParent s n pa kw) ∧
    (setParent s n pa kw).rootId = s.rootId ∧
    (setParent s n pa kw).rootName = s.rootName ∧
    (setParent s n pa kw).rootLcl = s.rootLcl ∧
    (∀ j, j ∈ idsF (setParent s n pa kw).tops ↔ j ∈ idsF s.tops) ∧
    (∀ j, nameOf (setParent s n pa kw) j = nameOf s j) ∧
    (∀ j, j ≠ n → lclOf (setParent s n pa kw) j = lclOf s j) ∧
    getParent (setParent s n pa kw) n = some (pa.getD s.rootId) ∧
    (∀ j, j ≠ n → getParent (setParent s n pa kw) j = getParent s j) ∧
    subIdsF n (setParent s n pa kw).tops = subIdsF n s.tops ∧
    (∀ j, j ∉ subIdsF n s.tops → evalGlobal (setParent s n pa kw) j = evalGlobal s j) ∧
    (kw = true → evalGlobal (setParent s n pa kw) n = evalGlobal s n) ∧
    (kw = false → lclOf (setParent s n pa kw) n = lclOf s n) ∧
    (∀ j, j ∈ topIds (setParent s n pa kw) ↔
      ((j ∈ topIds s ∧ j ≠ n) ∨ (pa.getD s.rootId = s.rootId ∧ j = n))) := by
  obtain ⟨⟨nm, l, ch⟩, hf⟩ := mem_findF hn
  have hnroot : n ≠ s.rootId := fun he => wf_root_not_mem hwf (he ▸ hn)
  have hsubn : subIdsF n s.tops = n :: idsF ch := by
    unfold subIdsF
    rw [hf]
  obtain ⟨r, hshape, hrl, hrw⟩ := setParent_eq pa kw hwf hf hpid
  have hwf1 : wf (destroyNode s n) := wf_destroyNode hwf n
  have hrid1 : (destroyNode s n).rootId = s.rootId := rfl
  have hfn1 : n ∉ idsF (destroyNode s n).tops := by
    rw [tops_destroyNode]
    exact not_mem_removeF n s.tops
  have hfch1 : ∀ x ∈ idsF ch, x ∉ idsF (destroyNode s n).tops := by
    intro x hx
    rw [tops_destroyNode]
    refine not_mem_removeF_of_mem_sub (wf_nodup hwf) ?_
    rw [hsubn]
    exact List.mem_cons_of_mem _ hx
  have hndch : (idsF ch).Nodup := findF_child_nodup (wf_nodup hwf) hf
  have hnch : n ∉ idsF ch := findF_self_not_mem_child (wf_nodup hwf) hf
  have hchroot : (destroyNode s n).rootId ∉ idsF ch := by
    rw [hrid1]
    exact fun hm => wf_root_not_mem hwf (findF_child_subset hf hm)
  have hpid1 : pa.getD s.rootId = (destroyNode s n).rootId ∨
      pa.getD s.rootId ∈ idsF (destroyNode s n).tops := by
    rcases hpid with h | h
    · exact Or.inl (hrid1 ▸ h)
    · refine Or.inr ?_
      rw [tops_destroyNode, mem_idsF_removeF (wf_nodup hwf)]
      exact ⟨h, hcyc⟩
  obtain ⟨a1, a2, a3, a4, a5, a6, a7, a8, a9, a10, a11⟩ :=
    addChild_spec hshape hwf1 hfn1 (hrid1 ▸ hnroot) hfch1 hndch hnch hchroot hpid1
  have hrid2 : (setParent s n pa kw).rootId = s.rootId := by
    rw [hshape, rootId_addChild, hrid1]
  have hrnm2 : (setParent s n pa kw).rootName = s.rootName := by
    rw [hshape, rootName_addChild]
    rfl
  have hrlcl2 : (setParent s n pa kw).rootLcl = s.rootLcl := by
    rw [hshape, rootLcl_addChild]
    rfl
  have hmem2 : ∀ j, j ∈ idsF (setParent s n pa kw).tops ↔ j ∈ idsF s.tops := by
    intro j
    rw [a2 j, tops_destroyNode, mem_idsF_removeF (wf_nodup hwf)]
    constructor
    · rintro (⟨h, _⟩ | rfl | h)
      · exact h
      · exact hn
      · exact findF_child_subset hf h
    · intro hj
      by_cases hjs : j ∈ subIdsF n s.tops
      · rw [hsubn] at hjs
        rcases List.mem_cons.mp hjs with rfl | hjs
        · exact Or.inr (Or.inl rfl)
        · exact Or.inr (Or.inr hjs)
      · exact Or.inl ⟨hj, hjs⟩
  have hcomp : ∀ j, j ∈ idsF s.tops → j ∉ subIdsF n s.tops →
      (findF j (setParent s n pa kw).tops).map (fun d => (d.1, d.2.1)) =
        (findF j s.tops).map (fun d => (d.1, d.2.1)) := by
    intro j hj hjs
    have hj1 : j ∈ idsF (destroyNode s n).tops := by
      rw [tops_destroyNode, mem_idsF_removeF (wf_nodup hwf)]
      exact ⟨hj, hjs⟩
    have h4 := a4 j hj1
    have hfd : findF j (destroyNode s n).tops =
        (findF j s.tops).map (fun d => (d.1, d.2.1, removeF n d.2.2)) := by
      rw [tops_destroyNode]
      exact findF_removeF (wf_nodup hwf) hjs
    rw [hfd] at h4
    rw [h4]
    cases hfs : findF j s.tops <;> simp
  refine ⟨a1, hrid2, hrnm2, hrlcl2, hmem2, ?_, ?_, a6, ?_, ?_, ?_, ?_, ?_, ?_⟩
  · -- names are preserved everywhere
    intro j
    unfold nameOf
    rw [hrid2, hrnm2]
    by_cases hr : j = s.rootId
    · simp [hr]
    · rw [if_neg hr, if_neg hr]
      by_cases hj : j ∈ idsF s.tops
      · by_cases hjn : j = n
        · subst hjn
          rw [a3, hf]
          rfl
        · by_cases hjs : j ∈ subIdsF n s.tops
          · have hjch : j ∈ idsF ch := by
              rw [hsubn] at hjs
              rcases List.mem_cons.mp hjs with rfl | h
              · exact absurd rfl hjn
              · exact h
            rw [a5 j hjch, findF_in_child (wf_nodup hwf) hf hjch]
          · have := hcomp j hj hjs
            cases hfs : findF j s.tops with
            | none =>
              rw [hfs] at this
              cases hfx : findF j (setParent s n pa kw).tops with
              | none => simp
              | some d =>
                rw [hfx] at this
                simp at this
            | some d =>
              rw [hfs] at this
              cases hfx : findF j (setParent s n pa kw).tops with
              | none =>
                rw [hfx] at this
                simp at this
              | some d' =>
                rw [hfx] at this
                simp only [Option.map_some', Option.some.injEq, Prod.mk.injEq] at this
                simp only [Option.map_some', Option.some.injEq]
                exact this.1
      · have h2 : j ∉ idsF (setParent s n pa kw).tops := fun hm => hj ((hmem2 j).mp hm)
        rw [findF_eq_none.mpr hj, findF_eq_none.mpr h2]
  · -- local transforms of other nodes are preserved
    intro j hjn
    unfold lclOf
    rw [hrid2, hrlcl2]
    by_cases hr : j = s.rootId
    · simp [hr]
    · rw [if_neg hr, if_neg hr]
      by_cases hj : j ∈ idsF s.tops
      · by_cases hjs : j ∈ subIdsF n s.tops
        · have hjch : j ∈ idsF ch := by
            rw [hsubn] at hjs
            rcases List.mem_cons.mp hjs with rfl | h
            · exact absurd rfl hjn
            · exact h
          rw [a5 j hjch, findF_in_child (wf_nodup hwf) hf hjch]
        · have := hcomp j hj hjs
          cases hfs : findF j s.tops with
          | none =>
            rw [hfs] at this
            cases hfx : findF j (setParent s n pa kw).tops with
            | none => simp
            | some d =>
              rw [hfx] at this
              simp at this
          | some d =>
            rw [hfs] at this
            cases hfx : findF j (setParent s n pa kw).tops with
            | none =>
              rw [hfx] at this
              simp at this
            | some d' =>
              rw [hfx] at this
              simp only [Option.map_some', Option.some.injEq, Prod.mk.injEq] at this
              simp only [Option.map_some', Option.some.injEq]
              exact this.2
      · have h2 : j ∉ idsF (setParent s n pa kw).tops := fun hm => hj ((hmem2 j).mp hm)
        rw [findF_eq_none.mpr hj, findF_eq_none.mpr h2]
  · -- parents of other nodes are preserved
    intro j hjn
    by_cases hj : j ∈ idsF s.tops
    · by_cases hjs : j ∈ subIdsF n s.tops
      · have hjch : j ∈ idsF ch := by
          rw [hsubn] at hjs
          rcases List.mem_cons.mp hjs with rfl | h
          · exact absurd rfl hjn
          · exact h
        rw [a8 j hjch]
        have hjr : j ≠ s.rootId := fun he => wf_root_not_mem hwf (he ▸ hj)
        unfold getParent
        rw [if_neg hjr]
        exact (parentOfF_in_child (wf_nodup hwf) hf hjch s.rootId).symm
      · have hj1 : j ∈ idsF (destroyNode s n).tops := by
          rw [tops_destroyNode, mem_idsF_removeF (wf_nodup hwf)]
          exact ⟨hj, hjs⟩
        rw [a7 j hjn hj1]
        exact getParent_destroyNode hwf hjs
    · have h2 : j ∉ idsF (setParent s n pa kw).tops := fun hm => hj ((hmem2 j).mp hm)
      rw [getParent_eq_none h2, getParent_eq_none hj]
  · -- the node's subtree is unchanged
    unfold subIdsF
    rw [a3, hf]
  · -- global transforms outside the moved subtree are preserved
    intro j hjs
    by_cases hj : j ∈ idsF s.tops
    · have hj1 : j ∈ idsF (destroyNode s n).tops := by
        rw [tops_destroyNode, mem_idsF_removeF (wf_nodup hwf)]
        exact ⟨hj, hjs⟩
      rw [a9 j hj1]
      exact evalGlobal_destroyNode hwf hjs
    · by_cases hr : j = s.rootId
      · subst hr
        unfold evalGlobal
        rw [hrid2, hrlcl2]
        simp
      · have h2 : j ∉ idsF (setParent s n pa kw).tops := fun hm => hj ((hmem2 j).mp hm)
        rw [evalGlobal_eq_none (hrid2 ▸ hr) h2, evalGlobal_eq_none hr hj]
  · -- keeping the world pose keeps the global transform
    intro hkw
    obtain ⟨wn, wp, hwn, hwp, hr⟩ := hrw hkw
    have hpd : evalGlobal (destroyNode s n) (pa.getD s.rootId) = some wp := by
      rw [evalGlobal_destroyNode hwf hcyc]
      exact hwp
    rw [a10, hpd, hwn]
    simp only [Option.map_some', Option.some.injEq]
    rw [hr]
    exact inv_mul_cancel_right wn wp
  · -- not keeping the world pose keeps the local transform
    intro hkw
    unfold lclOf
    rw [hrid2, if_neg hnroot, if_neg hnroot, a3, hf, hrl hkw]
  · -- top-level membership
    intro j
    rw [a11 j]
    constructor
    · rintro (h | ⟨hp, rfl⟩)
      · rcases mem_topIds_destroyNode.mp h with ⟨h1, h2⟩
        exact Or.inl ⟨h1, h2⟩
      · exact Or.inr ⟨hrid1 ▸ hp, rfl⟩
    · rintro (⟨h1, h2⟩ | ⟨hp, rfl⟩)
      · exact Or.inl (mem_topIds_destroyNode.mpr ⟨h1, h2⟩)
      · exact Or.inr ⟨hrid1 ▸ hp, rfl⟩

/-! ### Paths and the `get_parents` walk -/

theorem pathToF_eq_none {i : Nat} {t : FT G} : pathToF i t = none ↔ i ∉ idsF t := by
  induction t with
  | nil => simp [pathToF, idsF]
  | node j nm l ch sib ihc ihs =>
    simp only [pathToF, idsF]
    by_cases hj : j = i
    · subst hj
      simp
    · rw [if_neg hj]
      cases hpc : pathToF i ch with
      | some p =>
        have : i ∈ idsF ch := by
          by_contra hm
          rw [ihc.mpr hm] at hpc
          exact Option.noConfusion hpc
        simp [this, Ne.symm hj]
      | none =>
        have hnc : i ∉ idsF ch := ihc.mp hpc
        simp [ihs, Ne.symm hj, hnc]

theorem pathToF_node_left {i j : Nat} {nm : String} {l : G} {ch sib : FT G}
    (hj : j ≠ i) (hm : i ∈ idsF ch) :
    pathToF i (FT.node j nm l ch sib) = (pathToF i ch).map (fun p => j :: p) := by
  cases hpc : pathToF i ch with
  | some p => simp [pathToF, hj, hpc]
  | none => exact absurd (pathToF_eq_none.mp hpc) (by simp [hm])

theorem pathToF_node_right {i j : Nat} {nm : String} {l : G} {ch sib : FT G}
    (hj : j ≠ i) (hm : i ∉ idsF ch) :
    pathToF i (FT.node j nm l ch sib) = pathToF i sib := by
  have : pathToF i ch = none := pathToF_eq_none.mpr hm
  simp [pathToF, hj, this]

theorem pathToF_concat {i : Nat} {t : FT G} {q : List Nat}
    (h : pathToF i t = some q) : ∃ q', q = q' ++ [i] := by
  induction t generalizing q with
  | nil => simp [pathToF] at h
  | node j nm l ch sib ihc ihs =>
    simp only [pathToF] at h
    by_cases hj : j = i
    · rw [if_pos hj] at h
      cases h
      exact ⟨[], by simp [hj]⟩
    · rw [if_neg hj] at h
      cases hpc : pathToF i ch with
      | some p =>
        rw [hpc] at h
        cases h
        obtain ⟨q', rfl⟩ := ihc hpc
        exact ⟨j :: q', rfl⟩
      | none =>
        rw [hpc] at h
        exact ihs h

theorem pathToF_subset {i : Nat} {t : FT G} {q : List Nat}
    (h : pathToF i t = some q) : ∀ x ∈ q, x ∈ idsF t := by
  induction t generalizing q with
  | nil => simp [pathToF] at h
  | node j nm l ch sib ihc ihs =>
    simp only [pathToF] at h
    by_cases hj : j = i
    · rw [if_pos hj] at h
      cases h
      intro x hx
      simp only [List.mem_singleton] at hx
      simp [idsF, hx]
    · rw [if_neg hj] at h
      cases hpc : pathToF i ch with
      | some p =>
        rw [hpc] at h
        cases h
        intro x hx
        rcases List.mem_cons.mp hx with rfl | hx
        · simp [idsF]
        · simp [idsF, ihc hpc x hx]
      | none =>
        rw [hpc] at h
        intro x hx
        simp [idsF, ihs h x hx]

theorem pathToF_nodup {i : Nat} {t : FT G} {q : List Nat}
    (hnd : (idsF t).Nodup) (h : pathToF i t = some q) : q.Nodup := by
  induction t generalizing q with
  | nil => simp [pathToF] at h
  | node j nm l ch sib ihc ihs =>
    obtain ⟨hjc, hjs, hndc, hnds, hdisj⟩ := nodup_parts hnd
    simp only [pathToF] at h
    by_cases hj : j = i
    · rw [if_pos hj] at h
      cases h
      simp
    · rw [if_neg hj] at h
      cases hpc : pathToF i ch with
      | some p =>
        rw [hpc] at h
        cases h
        refine List.nodup_cons.mpr ⟨?_, ihc hndc hpc⟩
        intro hm
        exact hjc (pathToF_subset hpc j hm)
      | none =>
        rw [hpc] at h
        exact ihs hnds h

/-- The master correspondence between a node's path, its parent pointer, and
its ancestors' paths. -/
theorem path_parent {t : FT G} (hnd : (idsF t).Nodup) :
    ∀ {n : Nat} {q : List Nat}, pathToF n t = some (q ++ [n]) →
      (∀ pid, parentOfF pid n t = some (q.getLastD pid)) ∧
      (∀ m qm, q = qm ++ [m] → pathToF m t = some (qm ++ [m])) := by
  induction t with
  | nil => intro n q h; simp [pathToF] at h
  | node j nmj lj ch sib ihc ihs =>
    intro n q h
    obtain ⟨hjc, hjs, hndc, hnds, hdisj⟩ := nodup_parts hnd
    simp only [pathToF] at h
    by_cases hj : j = n
    · rw [if_pos hj] at h
      cases h' : q with
      | nil =>
        subst h'
        refine ⟨?_, ?_⟩
        · intro pid
          simp only [List.getLastD_nil]
          simp [parentOfF, hj]
        · intro m qm hqm
          simp at hqm
      | cons a as =>
        exfalso
        rw [h'] at h
        simp only [Option.some.injEq] at h
        have := congrArg List.length h
        simp at this
    · rw [if_neg hj] at h
      cases hpc : pathToF n ch with
      | some p =>
        rw [hpc] at h
        have hq : j :: p = q ++ [n] := Option.some.injEq _ _ ▸ h
        obtain ⟨p', rfl⟩ := pathToF_concat hpc
        have hq' : q = j :: p' := by
          have h1 : (q ++ [n]).dropLast = q := List.dropLast_concat
          rw [← hq] at h1
          rw [show j :: (p' ++ [n]) = (j :: p') ++ [n] by simp] at h1
          rw [List.dropLast_concat] at h1
          exact h1.symm
        subst hq'
        have hnc : n ∈ idsF ch := by
          by_contra hm
          rw [pathToF_eq_none.mpr hm] at hpc
          exact Option.noConfusion hpc
        obtain ⟨ih1, ih2⟩ := ihc hndc hpc
        refine ⟨?_, ?_⟩
        · intro pid
          rw [parentOfF_node_left hj hnc, ih1 j, List.getLastD_cons]
        · intro m qm hqm
          cases qm with
          | nil =>
            simp only [List.nil_append, List.cons.injEq] at hqm
            obtain ⟨rfl, hp'⟩ := hqm
            simp only [List.nil_append]
            simp [pathToF]
          | cons a qm' =>
            simp only [List.cons_append, List.cons.injEq] at hqm
            obtain ⟨rfl, hp'⟩ := hqm
            have hpm := ih2 m qm' hp'
            have hmids : m ∈ idsF ch := by
              refine pathToF_subset hpm m ?_
              simp
            have hjm : j ≠ m := fun he => hjc (he ▸ hmids)
            rw [List.cons_append, pathToF_node_left hjm hmids, hpm]
            rfl
      | none =>
        rw [hpc] at h
        have hnch : n ∉ idsF ch := pathToF_eq_none.mp hpc
        obtain ⟨ih1, ih2⟩ := ihs hnds h
        refine ⟨?_, ?_⟩
        · intro pid
          rw [parentOfF_node_right hj hnch]
          exact ih1 pid
        · intro m qm hqm
          have hpm := ih2 m qm hqm
          have hmids : m ∈ idsF sib := by
            refine pathToF_subset hpm m ?_
            simp
          have hjm : j ≠ m := fun he => hjs (he ▸ hmids)
          rw [pathToF_node_right hjm (fun hm => hdisj m hm hmids)]
          exact hpm

theorem getParent_of_path {s : Scene G} (hwf : wf s) {n : Nat} {q : List Nat}
    (hn : n ∈ idsF s.tops) (hpath : pathToF n s.tops = some (q ++ [n])) :
    getParent s n = some (q.getLastD s.rootId) := by
  have hnr : n ≠ s.rootId := fun he => wf_root_not_mem hwf (he ▸ hn)
  unfold getParent
  rw [if_neg hnr]
  exact (path_parent (wf_nodup hwf) hpath).1 s.rootId

theorem getParentsGo_unroll {s : Scene G} (hwf : wf s) :
    ∀ (q : List Nat) (n : Nat), n ∈ idsF s.tops →
      pathToF n s.tops = some (q ++ [n]) →
      ∀ fuel, q.length + 2 ≤ fuel →
        getParentsGo s fuel (some n) = (q.reverse ++ [s.rootId]).map some ++ [none] := by
  intro q
  induction q using List.reverseRecOn with
  | nil =>
    intro n hn hpath fuel hfuel
    have hp : getParent s n = some s.rootId := by
      have := getParent_of_path hwf hn hpath
      simpa using this
    obtain ⟨f1, rfl⟩ : ∃ f1, fuel = f1 + 2 := ⟨fuel - 2, by omega⟩
    rw [show getParentsGo s (f1 + 2) (some n)
          = getParent s n :: getParentsGo s (f1 + 1) (getParent s n) from rfl]
    rw [hp]
    rw [show getParentsGo s (f1 + 1) (some s.rootId)
          = getParent s s.rootId :: getParentsGo s f1 (getParent s s.rootId) from rfl]
    have hroot : getParent s s.rootId = none := by
      unfold getParent
      simp
    rw [hroot]
    cases f1 <;> rfl
  | append_singleton qm m ih =>
    intro n hn hpath fuel hfuel
    have hp : getParent s n = some m := by
      have := getParent_of_path hwf hn hpath
      simpa using this
    have hpm : pathToF m s.tops = some (qm ++ [m]) :=
      (path_parent (wf_nodup hwf) hpath).2 m qm rfl
    have hm : m ∈ idsF s.tops := pathToF_subset hpm m (by simp)
    obtain ⟨f1, rfl⟩ : ∃ f1, fuel = f1 + 1 := ⟨fuel - 1, by omega⟩
    rw [show getParentsGo s (f1 + 1) (some n)
          = getParent s n :: getParentsGo s f1 (getParent s n) from rfl]
    rw [hp]
    rw [ih m hm hpm f1 (by simp at hfuel ⊢; omega)]
    simp

/-- `node.get_parents` returns the ancestor chain, immediate parent first up
to and including the scene root, followed by one trailing null entry. -/
theorem getParents_eq {s : Scene G} (hwf : wf s) {n : Nat}
    (hn : n = s.rootId ∨ n ∈ idsF s.tops) :
    getParents s n = (ancestorsOf s n).map some ++ [none] := by
  rcases hn with rfl | hn
  · have hanc : ancestorsOf s s.rootId = [] := by
      unfold ancestorsOf
      rw [if_pos rfl]
    rw [hanc]
    unfold getParents
    rw [show (idsF s.tops).length + 2 = (idsF s.tops).length + 1 + 1 by omega]
    rw [show getParentsGo s ((idsF s.tops).length + 1 + 1) (some s.rootId)
          = getParent s s.rootId
            :: getParentsGo s ((idsF s.tops).length + 1) (getParent s s.rootId) from rfl]
    have hroot : getParent s s.rootId = none := by
      unfold getParent
      simp
    rw [hroot]
    rfl
  · have hnr : n ≠ s.rootId := fun he => wf_root_not_mem hwf (he ▸ hn)
    obtain ⟨p, hp⟩ : ∃ p, pathToF n s.tops = some p := by
      cases hpp : pathToF n s.tops with
      | some p => exact ⟨p, rfl⟩
      | none => exact absurd (pathToF_eq_none.mp hpp) (by simp [hn])
    obtain ⟨q, rfl⟩ := pathToF_concat hp
    have hanc : ancestorsOf s n = q.reverse ++ [s.rootId] := by
      unfold ancestorsOf
      rw [if_neg hnr, hp]
      simp
    rw [hanc]
    have hqnd : (q ++ [n]).Nodup := pathToF_nodup (wf_nodup hwf) hp
    have hqsub : ∀ x ∈ q, x ∈ idsF s.tops :=
      fun x hx => pathToF_subset hp x (List.mem_append_left _ hx)
    have hqlen : q.length ≤ (idsF s.tops).length := by
      refine List.Subperm.length_le ?_
      exact List.subperm_of_subset (List.nodup_append.mp hqnd).1 hqsub
    exact getParentsGo_unroll hwf q n hn hp ((idsF s.tops).length + 2) (by omega)

/-! ### Ancestors and the re-parenting walk of `scene.clear` -/

theorem mem_ancestorsOf {s : Scene G} {n a : Nat}
    (ha : a ∈ ancestorsOf s n) : a = s.rootId ∨ a ∈ idsF s.tops := by
  unfold ancestorsOf at ha
  by_cases hr : n = s.rootId
  · rw [if_pos hr] at ha
    simp at ha
  · rw [if_neg hr] at ha
    cases hp : pathToF n s.tops with
    | none =>
      rw [hp] at ha
      simp at ha
    | some p =>
      rw [hp] at ha
      rcases List.mem_append.mp ha with h | h
      · rw [List.mem_reverse] at h
        exact Or.inr (pathToF_subset hp a ((List.dropLast_sublist p).subset h))
      · simp only [List.mem_singleton] at h
        exact Or.inl h

theorem rootId_mem_ancestorsOf {s : Scene G} {n : Nat}
    (hn : n ∈ idsF s.tops) (hnr : n ≠ s.rootId) : s.rootId ∈ ancestorsOf s n := by
  unfold ancestorsOf
  rw [if_neg hnr]
  cases hp : pathToF n s.tops with
  | none => exact absurd (pathToF_eq_none.mp hp) (by simp [hn])
  | some p => simp

/-- A path member's subtree contains the path's endpoint. -/
theorem pathToF_mem_subIdsF {n : Nat} {t : FT G} {p : List Nat}
    (hnd : (idsF t).Nodup) (hp : pathToF n t = some p) :
    ∀ a ∈ p, n ∈ subIdsF a t := by
  induction t generalizing p with
  | nil => simp [pathToF] at hp
  | node j nmj lj ch sib ihc ihs =>
    obtain ⟨hjc, hjs, hndc, hnds, hdisj⟩ := nodup_parts hnd
    simp only [pathToF] at hp
    by_cases hj : j = n
    · rw [if_pos hj] at hp
      cases hp
      intro a ha
      simp only [List.mem_singleton] at ha
      subst ha
      subst hj
      exact mem_subIdsF_self (by simp [idsF])
    · rw [if_neg hj] at hp
      cases hpc : pathToF n ch with
      | some pc =>
        rw [hpc] at hp
        cases hp
        have hnch : n ∈ idsF ch := by
          by_contra hm
          rw [pathToF_eq_none.mpr hm] at hpc
          exact Option.noConfusion hpc
        intro a ha
        rcases List.mem_cons.mp ha with rfl | ha
        · have : subIdsF a (FT.node a nmj lj ch sib) = a :: idsF ch := by
            unfold subIdsF
            simp [findF]
          rw [this]
          exact List.mem_cons_of_mem _ hnch
        · have hach : a ∈ idsF ch := pathToF_subset hpc a ha
          have hja : j ≠ a := fun he => hjc (he ▸ hach)
          rw [subIdsF_node_left hja hach]
          exact ihc hndc hpc a ha
      | none =>
        rw [hpc] at hp
        have hnch : n ∉ idsF ch := pathToF_eq_none.mp hpc
        intro a ha
        have hasib : a ∈ idsF sib := pathToF_subset hp a ha
        have hja : j ≠ a := fun he => hjs (he ▸ hasib)
        rw [subIdsF_node_right hja (fun hm => hdisj a hm hasib)]
        exact ihs hnds hp a ha

theorem ancestorsOf_mem_subIdsF {s : Scene G} {n a : Nat} (hwf : wf s)
    (ha : a ∈ ancestorsOf s n) (har : a ≠ s.rootId) :
    n ∈ subIdsF a s.tops := by
  unfold ancestorsOf at ha
  by_cases hr : n = s.rootId
  · rw [if_pos hr] at ha
    simp at ha
  · rw [if_neg hr] at ha
    cases hp : pathToF n s.tops with
    | none =>
      rw [hp] at ha
      simp at ha
    | some p =>
      rw [hp] at ha
      rcases List.mem_append.mp ha with h | h
      · rw [List.mem_reverse] at h
        exact pathToF_mem_subIdsF (wf_nodup hwf) hp a ((List.dropLast_sublist p).subset h)
      · simp only [List.mem_singleton] at h
        exact absurd h har

/-- The generic walk over the ancestors list: the loop breaks at the first
ancestor whose name is not kept, re-parenting the node reached so far. -/
theorem stabilizeGo_walk [Group G] {s : Scene G} (ks : List String) :
    ∀ (anc : List Nat) (ntr : Nat),
      (∀ a ∈ anc, ∃ nm, nameOf s a = some nm) →
      (∃ a ∈ anc, ∃ nm, nameOf s a = some nm ∧ nm ∉ ks) →
      stabilizeGo s ks (anc.map some ++ [none]) ntr =
          .ok (setParent s (keptTopGo s ks (anc.map some ++ [none]) ntr) none true) ∧
        (keptTopGo s ks (anc.map some ++ [none]) ntr = ntr ∨
          (keptTopGo s ks (anc.map some ++ [none]) ntr ∈ anc ∧
            ∃ nm, nameOf s (keptTopGo s ks (anc.map some ++ [none]) ntr) = some nm ∧
              nm ∈ ks)) := by
  intro anc
  induction anc with
  | nil =>
    intro ntr _ hstop
    simp at hstop
  | cons a anc' ih =>
    intro ntr hname hstop
    obtain ⟨nma, hnma⟩ := hname a (List.mem_cons_self _ _)
    by_cases hk : nma ∈ ks
    · have hstep : stabilizeGo s ks ((a :: anc').map some ++ [none]) ntr =
          stabilizeGo s ks (anc'.map some ++ [none]) a := by
        simp only [List.map_cons, List.cons_append]
        rw [show stabilizeGo s ks (some a :: (List.map some anc' ++ [none])) ntr =
              (match nameOf s a with
                | none => Except.error "model: parent not present in the scene"
                | some pnm =>
                    if pnm ∈ ks then stabilizeGo s ks (List.map some anc' ++ [none]) a
                    else Except.ok (setParent s ntr none true)) from rfl]
        rw [hnma]
        simp [hk]
      have hkstep : keptTopGo s ks ((a :: anc').map some ++ [none]) ntr =
          keptTopGo s ks (anc'.map some ++ [none]) a := by
        simp only [List.map_cons, List.cons_append]
        rw [show keptTopGo s ks (some a :: (List.map some anc' ++ [none])) ntr =
              (match nameOf s a with
                | none => ntr
                | some pnm =>
                    if pnm ∈ ks then keptTopGo s ks (List.map some anc' ++ [none]) a
                    else ntr) from rfl]
        rw [hnma]
        simp [hk]
      have hstop' : ∃ b ∈ anc', ∃ nm, nameOf s b = some nm ∧ nm ∉ ks := by
        obtain ⟨b, hb, nmb, hnmb, hnmb2⟩ := hstop
        rcases List.mem_cons.mp hb with rfl | hb
        · rw [hnma] at hnmb
          cases hnmb
          exact absurd hk hnmb2
        · exact ⟨b, hb, nmb, hnmb, hnmb2⟩
      obtain ⟨ih1, ih2⟩ := ih a (fun b hb => hname b (List.mem_cons_of_mem _ hb)) hstop'
      rw [hstep, hkstep, ih1]
      refine ⟨rfl, ?_⟩
      rcases ih2 with he | ⟨hmem, hex⟩
      · refine Or.inr ⟨?_, ?_⟩ <;> rw [he]
        · exact List.mem_cons_self _ _
        · exact ⟨nma, hnma, hk⟩
      · exact Or.inr ⟨List.mem_cons_of_mem _ hmem, hex⟩
    · have hstep : stabilizeGo s ks ((a :: anc').map some ++ [none]) ntr =
          .ok (setParent s ntr none true) := by
        simp only [List.map_cons, List.cons_append]
        rw [show stabilizeGo s ks (some a :: (List.map some anc' ++ [none])) ntr =
              (match nameOf s a with
                | none => Except.error "model: parent not present in the scene"
                | some pnm =>
                    if pnm ∈ ks then stabilizeGo s ks (List.map some anc' ++ [none]) a
                    else Except.ok (setParent s ntr none true)) from rfl]
        rw [hnma]
        simp [hk]
      have hkstep : keptTopGo s ks ((a :: anc').map some ++ [none]) ntr = ntr := by
        simp only [List.map_cons, List.cons_append]
        rw [show keptTopGo s ks (some a :: (List.map some anc' ++ [none])) ntr =
              (match nameOf s a with
                | none => ntr
                | some pnm =>
                    if pnm ∈ ks then keptTopGo s ks (List.map some anc' ++ [none]) a
                    else ntr) from rfl]
        rw [hnma]
        simp [hk]
      rw [hstep, hkstep]
      exact ⟨rfl, Or.inl rfl⟩

/-- One iteration of the re-parenting loop of `scene.clear`: it re-parents
the topmost consecutively-kept node on the walk (possibly the kept node
itself) to the scene root. -/
theorem stabilizeOne_spec [Group G] {s : Scene G} {ks : List String} {n : Nat}
    (hwf : wf s) (hn : n ∈ idsF s.tops) (hroot : s.rootName ∉ ks) :
    stabilizeOne s ks n = .ok (setParent s (keptTop s ks n) none true) ∧
    keptTop s ks n ∈ idsF s.tops ∧
    n ∈ subIdsF (keptTop s ks n) s.tops ∧
    (keptTop s ks n = n ∨
      ∃ nm, nameOf s (keptTop s ks n) = some nm ∧ nm ∈ ks) := by
  have hnr : n ≠ s.rootId := fun he => wf_root_not_mem hwf (he ▸ hn)
  have hanc := getParents_eq hwf (Or.inr hn)
  have hname : ∀ a ∈ ancestorsOf s n, ∃ nm, nameOf s a = some nm := by
    intro a ha
    rcases mem_ancestorsOf ha with rfl | hm
    · exact ⟨s.rootName, by unfold nameOf; simp⟩
    · have har : a ≠ s.rootId := fun he => wf_root_not_mem hwf (he ▸ hm)
      obtain ⟨d, hd⟩ := mem_findF hm
      exact ⟨d.1, by unfold nameOf; rw [if_neg har, hd]; rfl⟩
  have hstop : ∃ a ∈ ancestorsOf s n, ∃ nm, nameOf s a = some nm ∧ nm ∉ ks := by
    refine ⟨s.rootId, rootId_mem_ancestorsOf hn hnr, s.rootName, ?_, hroot⟩
    unfold nameOf
    simp
  obtain ⟨w1, w2⟩ := stabilizeGo_walk ks (ancestorsOf s n) n hname hstop
  have hko : keptTop s ks n = keptTopGo s ks ((ancestorsOf s n).map some ++ [none]) n := by
    unfold keptTop
    rw [hanc]
  have hso : stabilizeOne s ks n =
      stabilizeGo s ks ((ancestorsOf s n).map some ++ [none]) n := by
    unfold stabilizeOne
    rw [hanc]
  rw [hso, hko]
  refine ⟨w1, ?_, ?_, ?_⟩
  · rcases w2 with he | ⟨hmem, hex⟩
    · rw [he]
      exact hn
    · rcases mem_ancestorsOf hmem with hr | hm
      · exfalso
        obtain ⟨nm, hnm, hks⟩ := hex
        rw [hr] at hnm
        unfold nameOf at hnm
        simp at hnm
        rw [← hnm] at hks
        exact hroot hks
      · exact hm
  · rcases w2 with he | ⟨hmem, hex⟩
    · rw [he]
      exact mem_subIdsF_self hn
    · have har : keptTopGo s ks ((ancestorsOf s n).map some ++ [none]) n ≠ s.rootId := by
        intro hr
        obtain ⟨nm, hnm, hks⟩ := hex
        rw [hr] at hnm
        unfold nameOf at hnm
        simp at hnm
        rw [← hnm] at hks
        exact hroot hks
      exact ancestorsOf_mem_subIdsF hwf hmem har
  · rcases w2 with he | ⟨_, hex⟩
    · exact Or.inl he
    · exact Or.inr hex

theorem subIdsF_setParent_root [Group G] {s : Scene G} {y t j : Nat} (hwf : wf s)
    (hy : y ∈ idsF s.tops) (hti : t ∈ idsF s.tops) (hts : t ∉ subIdsF y s.tops) :
    j ∈ subIdsF t (setParent s y none true).tops ↔
      j ∈ subIdsF t s.tops ∧ j ∉ subIdsF y s.tops := by
  obtain ⟨⟨nm, l, ch⟩, hf⟩ := mem_findF hy
  obtain ⟨r, hshape, _, _⟩ := setParent_eq none true hwf hf (Or.inl rfl)
  have htops : (setParent s y none true).tops
      = appendF (removeF y s.tops) (FT.node y nm r ch FT.nil) := by
    rw [hshape]
    unfold addChild
    rw [if_pos (show (none : Option Nat).getD s.rootId = (destroyNode s y).rootId from rfl)]
    rfl
  have hmem : t ∈ idsF (removeF y s.tops) :=
    (mem_idsF_removeF (wf_nodup hwf)).mpr ⟨hti, hts⟩
  obtain ⟨d, hd⟩ := mem_findF hmem
  have hsub' : subIdsF t (setParent s y none true).tops
      = subIdsF t (removeF y s.tops) := by
    unfold subIdsF
    rw [htops, findF_appendF, hd]
  rw [hsub']
  exact mem_subIdsF_removeF (wf_nodup hwf) hts

theorem setParent_root_hyps [Group G] {s : Scene G} {y : Nat} (hwf : wf s) :
    ((none : Option Nat).getD s.rootId = s.rootId ∨
      (none : Option Nat).getD s.rootId ∈ idsF s.tops) ∧
    (none : Option Nat).getD s.rootId ∉ subIdsF y s.tops := by
  refine ⟨Or.inl rfl, ?_⟩
  intro hm
  exact wf_root_not_mem hwf (subIdsF_subset _ _ hm)

/-- Re-parenting a kept-named node to the root preserves (and establishes for
its subtree) the kept-top invariant. -/
theorem inKeptTop_reparent [Group G] {s : Scene G} {ks : List String} {y : Nat}
    (hwf : wf s) (hy : y ∈ idsF s.tops)
    (hkepty : ∃ nm, nameOf s y = some nm ∧ nm ∈ ks) :
    ∀ j, (inKeptTop s ks j ∨ j ∈ subIdsF y s.tops) →
      inKeptTop (setParent s y none true) ks j := by
  obtain ⟨hpid, hcyc⟩ := setParent_root_hyps (y := y) hwf
  obtain ⟨b1, b2, b3, b4, b5, b6, b7, b8, b9, b10, b11, b12, b13, b14⟩ :=
    setParent_spec true hwf hy hpid hcyc
  have hytop : y ∈ topIds (setParent s y none true) := by
    rw [b14 y]
    exact Or.inr ⟨rfl, rfl⟩
  intro j hj
  have hInSub : j ∈ subIdsF y s.tops → inKeptTop (setParent s y none true) ks j := by
    intro hjs
    refine ⟨y, hytop, ?_, ?_⟩
    · rw [b10]
      exact hjs
    · obtain ⟨nm, hnm, hks⟩ := hkepty
      exact ⟨nm, by rw [b6 y]; exact hnm, hks⟩
  rcases hj with ⟨t, htop, hsub, nmz, hnmz, hksz⟩ | hjs
  · by_cases hjs : j ∈ subIdsF y s.tops
    · exact hInSub hjs
    · by_cases hty : t = y
      · exact hInSub (hty ▸ hsub)
      · have hti : t ∈ idsF s.tops := (childIdsF_false_sublist _).subset htop
        have hts : t ∉ subIdsF y s.tops := by
          intro hm
          have htop' : t ∈ childIdsF false s.tops := htop
          exact hty (top_mem_subIdsF (wf_nodup hwf) htop' hm).symm
        refine ⟨t, ?_, ?_, ⟨nmz, by rw [b6 t]; exact hnmz, hksz⟩⟩
        · rw [b14 t]
          exact Or.inl ⟨htop, hty⟩
        · rw [subIdsF_setParent_root hwf hy hti hts]
          exact ⟨hsub, hjs⟩
  · exact hInSub hjs

/-- The whole re-parenting phase of `scene.clear`: it succeeds, permutes no
identities, changes no names, and leaves every kept node inside a kept-named
top-level subtree. -/
theorem stabilize_spec [Group G] (ks : List String) :
    ∀ (kl : List Nat) (s : Scene G), wf s → s.rootName ∉ ks →
      (∀ i ∈ kl, i ∈ idsF s.tops ∧ ∃ nm, nameOf s i = some nm ∧ nm ∈ ks) →
      ∃ s1, stabilize s ks kl = .ok s1 ∧ wf s1 ∧
        s1.rootId = s.rootId ∧ s1.rootName = s.rootName ∧ s1.rootLcl = s.rootLcl ∧
        (∀ j, j ∈ idsF s1.tops ↔ j ∈ idsF s.tops) ∧
        (∀ j, nameOf s1 j = nameOf s j) ∧
        (∀ j, inKeptTop s ks j → inKeptTop s1 ks j) ∧
        (∀ i ∈ kl, inKeptTop s1 ks i) ∧
        (∀ t, t ∈ topIds s1 → t ∈ topIds s ∨
          ∃ nm, nameOf s1 t = some nm ∧ nm ∈ ks) := by
  intro kl
  induction kl with
  | nil =>
    intro s hwf _ _
    refine ⟨s, rfl, hwf, rfl, rfl, rfl, fun _ => Iff.rfl, fun _ => rfl,
      fun _ h => h, by simp, fun t ht => Or.inl ht⟩
  | cons i kl' ih =>
    intro s hwf hroot hkl
    obtain ⟨hi, hinm⟩ := hkl i (List.mem_cons_self _ _)
    obtain ⟨w1, w2, w3, w4⟩ := stabilizeOne_spec hwf hi hroot
    obtain ⟨hpid, hcyc⟩ := setParent_root_hyps (y := keptTop s ks i) hwf
    obtain ⟨b1, b2, b3, b4, b5, b6, b7, b8, b9, b10, b11, b12, b13, b14⟩ :=
      setParent_spec true hwf w2 hpid hcyc
    have hkepty : ∃ nm, nameOf s (keptTop s ks i) = some nm ∧ nm ∈ ks := by
      rcases w4 with he | hex
      · rw [he]
        exact hinm
      · exact hex
    have hstep : stabilize s ks (i :: kl') =
        stabilize (setParent s (keptTop s ks i) none true) ks kl' := by
      rw [show stabilize s ks (i :: kl') =
            (match stabilizeOne s ks i with
              | .ok s1 => stabilize s1 ks kl'
              | .error e => .error e) from rfl]
      rw [w1]
    have hkl' : ∀ i' ∈ kl', i' ∈ idsF (setParent s (keptTop s ks i) none true).tops ∧
        ∃ nm, nameOf (setParent s (keptTop s ks i) none true) i' = some nm ∧ nm ∈ ks := by
      intro i' hi'
      obtain ⟨h1, h2⟩ := hkl i' (List.mem_cons_of_mem _ hi')
      exact ⟨(b5 i').mpr h1, by rw [b6 i']; exact h2⟩
    obtain ⟨s1, hs1, c1, c2, c3, c4, c5, c6, c7, c8, c9⟩ :=
      ih (setParent s (keptTop s ks i) none true) b1 (by rw [b3]; exact hroot) hkl'
    refine ⟨s1, by rw [hstep]; exact hs1, c1, by rw [c2, b2], by rw [c3, b3],
      by rw [c4, b4], ?_, ?_, ?_, ?_, ?_⟩
    · intro j
      rw [c5 j, b5 j]
    · intro j
      rw [c6 j, b6 j]
    · intro j hj
      exact c7 j (inKeptTop_reparent hwf w2 hkepty j (Or.inl hj))
    · intro i' hi'
      rcases List.mem_cons.mp hi' with rfl | hi'
      · exact c7 i' (inKeptTop_reparent hwf w2 hkepty i' (Or.inr w3))
      · exact c8 i' hi'
    · intro t ht
      rcases c9 t ht with ht' | hex
      · rw [b14 t] at ht'
        rcases ht' with ⟨h1, _⟩ | ⟨_, rfl⟩
        · exact Or.inl h1
        · refine Or.inr ?_
          obtain ⟨nm, hnm, hks⟩ := hkepty
          exact ⟨nm, by rw [c6, b6]; exact hnm, hks⟩
      · exact Or.inr hex

/-! ### Preorder position and the destruction order -/

/-- In a preorder enumeration, everything strictly inside a node's subtree
appears after the node. -/
theorem subIdsF_after {f : FT G} (hnd : (idsF f).Nodup) :
    ∀ {a : Nat} {m1 m2 : List Nat}, idsF f = m1 ++ a :: m2 →
      ∀ b ∈ subIdsF a f, b ≠ a → b ∈ m2 := by
  induction f with
  | nil =>
    intro a m1 m2 h
    simp only [idsF] at h
    exact absurd h (by simp)
  | node j nm l ch sib ihc ihs =>
    intro a m1 m2 h
    obtain ⟨hjc, hjs, hndc, hnds, hdisj⟩ := nodup_parts hnd
    simp only [idsF] at h
    cases m1 with
    | nil =>
      simp only [List.nil_append, List.cons.injEq] at h
      intro b hb hbne
      have hsubt : subIdsF a (FT.node j nm l ch sib) = a :: idsF ch := by
        unfold subIdsF
        simp [findF, h.1]
      rw [hsubt] at hb
      rcases List.mem_cons.mp hb with rfl | hb
      · exact absurd rfl hbne
      · rw [← h.2]
        exact List.mem_append_left _ hb
    | cons x m1' =>
      simp only [List.cons_append, List.cons.injEq] at h
      intro b hb hbne
      rcases List.append_eq_append_iff.mp h.2 with ⟨w, hw1, hw2⟩ | ⟨w, hw1, hw2⟩
      · -- hw1 : m1' = idsF ch ++ w ; hw2 : idsF sib = w ++ a :: m2
        have has : a ∈ idsF sib := by
          rw [hw2]
          simp
        have hja : j ≠ a := fun he => hjs (he ▸ has)
        rw [subIdsF_node_right hja (fun hm => hdisj a hm has)] at hb
        exact ihs hnds hw2 b hb hbne
      · -- hw1 : idsF ch = m1' ++ w ; hw2 : a :: m2 = w ++ idsF sib
        cases w with
        | nil =>
          have hw2s : idsF sib = a :: m2 := by
            rw [hw2]
            simp
          have has : a ∈ idsF sib := by
            rw [hw2s]
            simp
          have hja : j ≠ a := fun he => hjs (he ▸ has)
          rw [subIdsF_node_right hja (fun hm => hdisj a hm has)] at hb
          exact ihs hnds (show idsF sib = [] ++ a :: m2 from hw2s) b hb hbne
        | cons c w' =>
          have hw2s : a = c ∧ m2 = w' ++ idsF sib := by
            have h3 := hw2
            simp only [List.cons_append, List.cons.injEq] at h3
            exact h3
          have hach : a ∈ idsF ch := by
            rw [hw1, hw2s.1]
            simp
          have hja : j ≠ a := fun he => hjc (he ▸ hach)
          rw [subIdsF_node_left hja hach] at hb
          have hsplitc : idsF ch = m1' ++ a :: w' := by
            rw [hw1, hw2s.1]
          have hbm := ihc hndc hsplitc b hb hbne
          rw [hw2s.2]
          exact List.mem_append_left _ hbm

/-- The destruction order of `scene.clear`/`scene.delete_node` destroys every
node only after all of its descendants. -/
theorem destroyOrder_spec {s : Scene G} {t : Nat} {nm : String} {l : G} {ch : FT G}
    (hwf : wf s) (hf : findF t s.tops = some (nm, l, ch)) :
    ∀ l1 a l2, destroyOrder s t = l1 ++ a :: l2 →
      ∀ b ∈ subIdsF a s.tops, b ≠ a → b ∈ l1 := by
  have horder := destroyOrder_eq hwf hf
  have hndch : (idsF ch).Nodup := findF_child_nodup (wf_nodup hwf) hf
  have hsubt : subIdsF t s.tops = t :: idsF ch := by
    unfold subIdsF
    rw [hf]
  intro l1 a l2 hsplit
  rw [horder] at hsplit
  rcases List.eq_nil_or_concat l2 with rfl | ⟨l2p, y, rfl⟩
  · obtain ⟨h1, h2⟩ := List.append_inj' hsplit rfl
    have hta : t = a := by
      simpa using h2
    intro b hb hbne
    rw [← hta, hsubt] at hb
    rcases List.mem_cons.mp hb with rfl | hb
    · exact absurd hta hbne
    · rw [← h1, List.mem_reverse]
      exact hb
  · have hsplitc : (idsF ch).reverse ++ [t] = (l1 ++ a :: l2p) ++ [y] := by
      rw [hsplit]
      simp [List.concat_eq_append]
    obtain ⟨h1, _⟩ := List.append_inj' hsplitc rfl
    have hrev : idsF ch = l2p.reverse ++ a :: l1.reverse := by
      have h4 := congrArg List.reverse h1
      simp only [List.reverse_reverse] at h4
      rw [h4]
      simp
    intro b hb hbne
    have hach : a ∈ idsF ch := by
      rw [hrev]
      simp
    have hsubeq : subIdsF a s.tops = subIdsF a ch :=
      subIdsF_in_child (wf_nodup hwf) hf hach
    rw [hsubeq] at hb
    have hbm := subIdsF_after hndch hrev b hb hbne
    exact List.mem_reverse.mp hbm

/-! ### Root fields through the destruction phase -/

theorem rootId_foldl_destroyNode :
    ∀ (L : List Nat) (s : Scene G), (List.foldl destroyNode s L).rootId = s.rootId := by
  intro L
  induction L with
  | nil => intro s; rfl
  | cons x L' ih =>
    intro s
    rw [List.foldl_cons, ih, rootId_destroyNode]

theorem rootName_foldl_destroyNode :
    ∀ (L : List Nat) (s : Scene G), (List.foldl destroyNode s L).rootName = s.rootName := by
  intro L
  induction L with
  | nil => intro s; rfl
  | cons x L' ih =>
    intro s
    rw [List.foldl_cons, ih, rootName_destroyNode]

theorem rootId_deleteTopLevel (s : Scene G) (names : List String) (t : Nat) :
    (deleteTopLevel s names t).rootId = s.rootId := by
  cases hf : findF t s.tops with
  | none => rw [deleteTopLevel_not_found hf]
  | some d =>
    obtain ⟨nm, l, ch⟩ := d
    by_cases hk : nm ∈ names
    · rw [deleteTopLevel_kept hf hk]
    · simp only [deleteTopLevel, hf]
      rw [if_neg hk, rootId_foldl_destroyNode]

theorem rootName_deleteTopLevel (s : Scene G) (names : List String) (t : Nat) :
    (deleteTopLevel s names t).rootName = s.rootName := by
  cases hf : findF t s.tops with
  | none => rw [deleteTopLevel_not_found hf]
  | some d =>
    obtain ⟨nm, l, ch⟩ := d
    by_cases hk : nm ∈ names
    · rw [deleteTopLevel_kept hf hk]
    · simp only [deleteTopLevel, hf]
      rw [if_neg hk, rootName_foldl_destroyNode]

theorem rootId_sweepGo (names : List String) :
    ∀ (T : List Nat) (s : Scene G), (sweepGo s names T).rootId = s.rootId := by
  intro T
  induction T with
  | nil => intro s; rfl
  | cons t T' ih =>
    intro s
    rw [show sweepGo s names (t :: T') = sweepGo (deleteTopLevel s names t) names T' from rfl]
    rw [ih, rootId_deleteTopLevel]

theorem rootName_sweepGo (names : List String) :
    ∀ (T : List Nat) (s : Scene G), (sweepGo s names T).rootName = s.rootName := by
  intro T
  induction T with
  | nil => intro s; rfl
  | cons t T' ih =>
    intro s
    rw [show sweepGo s names (t :: T') = sweepGo (deleteTopLevel s names t) names T' from rfl]
    rw [ih, rootName_deleteTopLevel]

theorem rootId_sweep (s : Scene G) (names : List String) :
    (sweep s names).rootId = s.rootId :=
  rootId_sweepGo names (topIds s) s

theorem rootName_sweep (s : Scene G) (names : List String) :
    (sweep s names).rootName = s.rootName :=
  rootName_sweepGo names (topIds s) s

theorem nameOf_sweep_surviving {s : Scene G} {names : List String} {j : Nat}
    (hwf : wf s) (hj : j ∈ idsF (sweep s names).tops) :
    nameOf (sweep s names) j = nameOf s j := by
  obtain ⟨_, _, c3, _⟩ := sweep_spec names hwf
  unfold nameOf
  rw [rootId_sweep, rootName_sweep, c3 j hj]

theorem subIdsF_sweep_surviving {s : Scene G} {names : List String} {j : Nat}
    (hwf : wf s) (hj : j ∈ idsF (sweep s names).tops) :
    subIdsF j (sweep s names).tops = subIdsF j s.tops := by
  obtain ⟨_, _, c3, _⟩ := sweep_spec names hwf
  unfold subIdsF
  rw [c3 j hj]

theorem mem_sceneNames {s : Scene G} {nm : String} :
    nm ∈ sceneNames s ↔ ∃ j ∈ idsF s.tops, nameOf s j = some nm := by
  unfold sceneNames
  simp [List.mem_filterMap]

/-! ### Name lookup (`scene.get`) -/

theorem findIdByNameF_mem {nm : String} {t : FT G} :
    ∀ {j : Nat}, findIdByNameF nm t = some j → j ∈ idsF t := by
  induction t with
  | nil =>
    intro j h
    exact absurd h (by simp [findIdByNameF])
  | node k knm l ch sib ihc ihs =>
    intro j h
    unfold findIdByNameF at h
    by_cases hk : knm = nm
    · rw [if_pos hk] at h
      have hkj : k = j := Option.some.inj h
      simp [idsF, hkj]
    · rw [if_neg hk] at h
      cases hc : findIdByNameF nm ch with
      | some r =>
        rw [hc] at h
        have hrj : r = j := Option.some.inj h
        have := ihc hc
        rw [hrj] at this
        simp only [idsF, List.mem_cons, List.mem_append]
        exact Or.inr (Or.inl this)
      | none =>
        rw [hc] at h
        have := ihs h
        simp only [idsF, List.mem_cons, List.mem_append]
        exact Or.inr (Or.inr this)

theorem findIdByNameF_eq_none {nm : String} {t : FT G} :
    findIdByNameF nm t = none → ∀ j d, findF j t = some d → d.1 ≠ nm := by
  induction t with
  | nil =>
    intro _ j d hd
    exact absurd hd (by simp [findF])
  | node k knm l ch sib ihc ihs =>
    intro h j d hd
    unfold findIdByNameF at h
    by_cases hk : knm = nm
    · rw [if_pos hk] at h
      exact absurd h (by simp)
    · rw [if_neg hk] at h
      have hc : findIdByNameF nm ch = none := by
        cases hc : findIdByNameF nm ch with
        | some r =>
          rw [hc] at h
          exact absurd h (by simp)
        | none => rfl
      rw [hc] at h
      unfold findF at hd
      by_cases hj : k = j
      · rw [if_pos hj] at hd
        have hde : (knm, l, ch) = d := Option.some.inj hd
        rw [← hde]
        exact hk
      · rw [if_neg hj] at hd
        cases hcf : findF j ch with
        | some d2 =>
          rw [hcf] at hd
          have hde : d2 = d := Option.some.inj hd
          rw [← hde]
          exact ihc hc j d2 hcf
        | none =>
          rw [hcf] at hd
          exact ihs h j d hd

theorem findIdByNameF_name {nm : String} {t : FT G} (hnd : (idsF t).Nodup) :
    ∀ {j : Nat}, findIdByNameF nm t = some j → ∃ d, findF j t = some d ∧ d.1 = nm := by
  induction t with
  | nil =>
    intro j h
    exact absurd h (by simp [findIdByNameF])
  | node k knm l ch sib ihc ihs =>
    obtain ⟨hkc, hks, hndc, hnds, hdisj⟩ := nodup_parts hnd
    intro j h
    unfold findIdByNameF at h
    by_cases hk : knm = nm
    · rw [if_pos hk] at h
      have hkj : k = j := Option.some.inj h
      refine ⟨(knm, l, ch), ?_, hk⟩
      unfold findF
      rw [if_pos hkj]
    · rw [if_neg hk] at h
      cases hc : findIdByNameF nm ch with
      | some r =>
        rw [hc] at h
        have hrj : r = j := Option.some.inj h
        obtain ⟨d, hfc, hd1⟩ := ihc hndc hc
        have hjm : r ∈ idsF ch := findF_mem hfc
        refine ⟨d, ?_, hd1⟩
        rw [← hrj]
        rw [findF_node_left (fun he => hkc (by rw [he]; exact hjm)) hjm]
        exact hfc
      | none =>
        rw [hc] at h
        obtain ⟨d, hfs, hd1⟩ := ihs hnds h
        have hjm : j ∈ idsF sib := findF_mem hfs
        refine ⟨d, ?_, hd1⟩
        rw [findF_node_right (fun he => hks (by rw [he]; exact hjm))
          (fun hm => hdisj j hm hjm)]
        exact hfs

theorem findIdByNameF_isSome {nm : String} {t : FT G} {j : Nat} {d : String × G × FT G}
    (hf : findF j t = some d) (hd : d.1 = nm) :
    ∃ k, findIdByNameF nm t = some k := by
  cases hc : findIdByNameF nm t with
  | some k => exact ⟨k, rfl⟩
  | none => exact absurd hd (findIdByNameF_eq_none hc j d hf)

theorem nameOf_mem {s : Scene G} {i : Nat} {nm : String}
    (hi : nameOf s i = some nm) (hir : i ≠ s.rootId) :
    i ∈ idsF s.tops := by
  unfold nameOf at hi
  rw [if_neg hir] at hi
  cases hf : findF i s.tops with
  | none =>
    rw [hf] at hi
    exact absurd hi (by simp)
  | some d => exact findF_mem hf

theorem getByName_ok {s : Scene G} {i : Nat} {nm : String} (hwf : wf s)
    (hnm : s.rootName ≠ nm) (hi : nameOf s i = some nm) (hir : i ≠ s.rootId) :
    ∃ j, getByName s nm = some j ∧ j ∈ idsF s.tops ∧ j ≠ s.rootId ∧
      nameOf s j = some nm := by
  unfold nameOf at hi
  rw [if_neg hir] at hi
  cases hf : findF i s.tops with
  | none =>
    rw [hf] at hi
    exact absurd hi (by simp)
  | some d =>
    rw [hf] at hi
    have hd1 : d.1 = nm := by simpa using hi
    obtain ⟨k, hk⟩ := findIdByNameF_isSome hf hd1
    have hkm : k ∈ idsF s.tops := findIdByNameF_mem hk
    have hkr : k ≠ s.rootId := fun he => wf_root_not_mem hwf (by rw [he] at hkm; exact hkm)
    obtain ⟨d2, hfd2, hd21⟩ := findIdByNameF_name (wf_nodup hwf) hk
    refine ⟨k, ?_, hkm, hkr, ?_⟩
    · unfold getByName
      rw [if_neg hnm, hk]
    · unfold nameOf
      rw [if_neg hkr, hfd2]
      simp [hd21]

/-! ### The resolution loop of `scene.clear` -/

theorem resolveEx_ok_pairs {s : Scene G} (hwf : wf s) :
    ∀ {exs : List (Nat ⊕ String)} {pairs : List (Nat × String)},
      resolveEx s exs = .ok pairs → s.rootName ∉ pairs.map (fun p => p.2) →
      ∀ p ∈ pairs, p.1 ∈ idsF s.tops ∧ p.1 ≠ s.rootId ∧ nameOf s p.1 = some p.2 := by
  intro exs
  induction exs with
  | nil =>
    intro pairs h _ p hp
    have he : ([] : List (Nat × String)) = pairs := by simpa [resolveEx] using h
    rw [← he] at hp
    simp at hp
  | cons e rest ih =>
    intro pairs h hroot p hp
    cases e with
    | inl i =>
      rw [show resolveEx s (Sum.inl i :: rest) =
          (match nameOf s i with
            | some nm => (resolveEx s rest).map (fun r => (i, nm) :: r)
            | none => .error "model: excluding entry not present in the scene") from rfl] at h
      cases hn : nameOf s i with
      | none =>
        rw [hn] at h
        exact absurd h (by simp)
      | some nm =>
        rw [hn] at h
        cases hr : resolveEx s rest with
        | error e2 =>
          rw [hr] at h
          exact absurd h (by simp [Except.map])
        | ok r =>
          rw [hr] at h
          have hpr : (i, nm) :: r = pairs := by simpa [Except.map] using h
          rw [← hpr] at hroot hp
          simp only [List.map_cons, List.mem_cons] at hroot hp
          push_neg at hroot
          rcases hp with rfl | hp
          · have hir : i ≠ s.rootId := by
              intro he
              have hnr : nameOf s i = some s.rootName := by
                unfold nameOf
                rw [if_pos he]
              rw [hn] at hnr
              exact hroot.1 (Option.some.inj hnr).symm
            exact ⟨nameOf_mem hn hir, hir, hn⟩
          · exact ih hr hroot.2 p hp
    | inr nm =>
      rw [show resolveEx s (Sum.inr nm :: rest) =
          (match getByName s nm with
            | some i => (resolveEx s rest).map (fun r => (i, nm) :: r)
            | none => .error "AttributeError: NoneType object has no attribute GetName")
        from rfl] at h
      cases hg : getByName s nm with
      | none =>
        rw [hg] at h
        exact absurd h (by simp)
      | some i =>
        rw [hg] at h
        cases hr : resolveEx s rest with
        | error e2 =>
          rw [hr] at h
          exact absurd h (by simp [Except.map])
        | ok r =>
          rw [hr] at h
          have hpr : (i, nm) :: r = pairs := by simpa [Except.map] using h
          rw [← hpr] at hroot hp
          simp only [List.map_cons, List.mem_cons] at hroot hp
          push_neg at hroot
          rcases hp with rfl | hp
          · unfold getByName at hg
            rw [if_neg hroot.1] at hg
            have him := findIdByNameF_mem hg
            have hirr : i ≠ s.rootId := fun he =>
              wf_root_not_mem hwf (by rw [he] at him; exact him)
            obtain ⟨d, hfd, hd1⟩ := findIdByNameF_name (wf_nodup hwf) hg
            refine ⟨him, hirr, ?_⟩
            unfold nameOf
            rw [if_neg hirr, hfd]
            simp [hd1]
          · exact ih hr hroot.2 p hp

theorem resolveEx_again {s s1 : Scene G} (hwf1 : wf s1) (hrn : s1.rootName = s.rootName) :
    ∀ {exs : List (Nat ⊕ String)} {pairs : List (Nat × String)},
      resolveEx s exs = .ok pairs → s.rootName ∉ pairs.map (fun p => p.2) →
      (∀ p ∈ pairs, p.1 ∈ idsF s1.tops ∧ p.1 ≠ s1.rootId ∧ nameOf s1 p.1 = some p.2) →
      ∃ pairs2, resolveEx s1 exs = .ok pairs2 ∧
        pairs2.map (fun p => p.2) = pairs.map (fun p => p.2) ∧
        ∀ p ∈ pairs2, p.1 ∈ idsF s1.tops ∧ p.1 ≠ s1.rootId ∧ nameOf s1 p.1 = some p.2 := by
  intro exs
  induction exs with
  | nil =>
    intro pairs h _ _
    have he : ([] : List (Nat × String)) = pairs := by simpa [resolveEx] using h
    refine ⟨[], rfl, ?_, by simp⟩
    rw [← he]
  | cons e rest ih =>
    intro pairs h hroot hprev
    cases e with
    | inl i =>
      rw [show resolveEx s (Sum.inl i :: rest) =
          (match nameOf s i with
            | some nm => (resolveEx s rest).map (fun r => (i, nm) :: r)
            | none => .error "model: excluding entry not present in the scene") from rfl] at h
      cases hn : nameOf s i with
      | none =>
        rw [hn] at h
        exact absurd h (by simp)
      | some nm =>
        rw [hn] at h
        cases hr : resolveEx s rest with
        | error e2 =>
          rw [hr] at h
          exact absurd h (by simp [Except.map])
        | ok r =>
          rw [hr] at h
          have hpr : (i, nm) :: r = pairs := by simpa [Except.map] using h
          rw [← hpr] at hroot hprev
          simp only [List.map_cons, List.mem_cons] at hroot
          push_neg at hroot
          obtain ⟨hm1, hm2, hm3⟩ := hprev (i, nm) (List.mem_cons_self _ _)
          obtain ⟨r2, hr2, hmap2, hall2⟩ := ih hr hroot.2
            (fun p hp => hprev p (List.mem_cons_of_mem _ hp))
          refine ⟨(i, nm) :: r2, ?_, ?_, ?_⟩
          · rw [show resolveEx s1 (Sum.inl i :: rest) =
                (match nameOf s1 i with
                  | some nm2 => (resolveEx s1 rest).map (fun r3 => (i, nm2) :: r3)
                  | none => .error "model: excluding entry not present in the scene")
              from rfl]
            rw [hm3, hr2]
            rfl
          · rw [← hpr]
            simp only [List.map_cons, hmap2]
          · intro p hp
            rcases List.mem_cons.mp hp with rfl | hp
            · exact ⟨hm1, hm2, hm3⟩
            · exact hall2 p hp
    | inr nm =>
      rw [show resolveEx s (Sum.inr nm :: rest) =
          (match getByName s nm with
            | some i => (resolveEx s rest).map (fun r => (i, nm) :: r)
            | none => .error "AttributeError: NoneType object has no attribute GetName")
        from rfl] at h
      cases hg : getByName s nm with
      | none =>
        rw [hg] at h
        exact absurd h (by simp)
      | some i =>
        rw [hg] at h
        cases hr : resolveEx s rest with
        | error e2 =>
          rw [hr] at h
          exact absurd h (by simp [Except.map])
        | ok r =>
          rw [hr] at h
          have hpr : (i, nm) :: r = pairs := by simpa [Except.map] using h
          rw [← hpr] at hroot hprev
          simp only [List.map_cons, List.mem_cons] at hroot
          push_neg at hroot
          obtain ⟨hm1, hm2, hm3⟩ := hprev (i, nm) (List.mem_cons_self _ _)
          obtain ⟨j, hj1, hj2, hj3, hj4⟩ :=
            getByName_ok hwf1 (by rw [hrn]; exact hroot.1) hm3 hm2
          obtain ⟨r2, hr2, hmap2, hall2⟩ := ih hr hroot.2
            (fun p hp => hprev p (List.mem_cons_of_mem _ hp))
          refine ⟨(j, nm) :: r2, ?_, ?_, ?_⟩
          · rw [show resolveEx s1 (Sum.inr nm :: rest) =
                (match getByName s1 nm with
                  | some i2 => (resolveEx s1 rest).map (fun r3 => (i2, nm) :: r3)
                  | none =>
                    .error "AttributeError: NoneType object has no attribute GetName")
              from rfl]
            rw [hj1, hr2]
            rfl
          · rw [← hpr]
            simp only [List.map_cons, hmap2]
          · intro p hp
            rcases List.mem_cons.mp hp with rfl | hp
            · exact ⟨hj2, hj3, hj4⟩
            · exact hall2 p hp

/-! ### The sweep skips a scene whose top-level nodes are all kept -/

theorem sweepGo_noop {names : List String} {s : Scene G} (hwf : wf s) :
    ∀ T : List Nat, (∀ t ∈ T, ∃ nm, nameOf s t = some nm ∧ nm ∈ names) →
      (∀ t ∈ T, t ∈ idsF s.tops) →
      sweepGo s names T = s := by
  intro T
  induction T with
  | nil =>
    intro _ _
    rfl
  | cons t T' ih =>
    intro hk hm
    obtain ⟨nm, hnm, hnk⟩ := hk t (List.mem_cons_self _ _)
    have htm := hm t (List.mem_cons_self _ _)
    have htr : t ≠ s.rootId := fun he => wf_root_not_mem hwf (by rw [he] at htm; exact htm)
    obtain ⟨⟨nm1, l1, ch1⟩, hd⟩ := mem_findF htm
    have hd1 : nm1 = nm := by
      unfold nameOf at hnm
      rw [if_neg htr, hd] at hnm
      simpa using hnm
    have hdel : deleteTopLevel s names t = s :=
      deleteTopLevel_kept hd (by rw [hd1]; exact hnk)
    rw [show sweepGo s names (t :: T') = sweepGo (deleteTopLevel s names t) names T' from rfl]
    rw [hdel]
    exact ih (fun u hu => hk u (List.mem_cons_of_mem _ hu))
      (fun u hu => hm u (List.mem_cons_of_mem _ hu))

theorem sweep_noop {names : List String} {s : Scene G} (hwf : wf s)
    (h : ∀ t ∈ topIds s, ∃ nm, nameOf s t = some nm ∧ nm ∈ names) :
    sweep s names = s := by
  rw [show sweep s names = sweepGo s names (topIds s) from rfl]
  exact sweepGo_noop hwf (topIds s) h (fun t ht => childIdsF_subset false s.tops ht)

/-! ### The `get_parents` walk follows `GetParent` -/

theorem getParentsGo_chain {s : Scene G} :
    ∀ (fuel : Nat) (o : Option Nat) (k a : Nat),
      (getParentsGo s fuel o).get? k = some (some a) →
      k + 1 < (getParentsGo s fuel o).length →
      (getParentsGo s fuel o).get? (k + 1) = some (getParent s a) := by
  intro fuel
  induction fuel with
  | zero =>
    intro o k a hk _
    cases o <;> simp [getParentsGo] at hk
  | succ f ih =>
    intro o k a hk hlen
    cases o with
    | none => simp [getParentsGo] at hk
    | some c =>
      rw [show getParentsGo s (f + 1) (some c)
            = getParent s c :: getParentsGo s f (getParent s c) from rfl] at hk hlen ⊢
      cases k with
      | zero =>
        have hca : getParent s c = some a := by simpa using hk
        rw [hca] at hlen ⊢
        simp only [List.length_cons] at hlen
        cases f with
        | zero => simp [getParentsGo] at hlen
        | succ f2 =>
          rw [show getParentsGo s (f2 + 1) (some a)
                = getParent s a :: getParentsGo s f2 (getParent s a) from rfl]
          rfl
      | succ k2 =>
        have hk2 : (getParentsGo s f (getParent s c)).get? k2 = some (some a) := by
          simpa using hk
        have hlen2 : k2 + 1 < (getParentsGo s f (getParent s c)).length := by
          simp only [List.length_cons] at hlen
          omega
        have hstep := ih (getParent s c) k2 a hk2 hlen2
        simpa using hstep

theorem ancestorsOf_getLast {s : Scene G} {n : Nat} (hwf : wf s) (hn : n ∈ idsF s.tops) :
    (ancestorsOf s n).getLast? = some s.rootId := by
  have hnr : n ≠ s.rootId := fun he => wf_root_not_mem hwf (by rw [he] at hn; exact hn)
  obtain ⟨p, hp⟩ : ∃ p, pathToF n s.tops = some p := by
    cases hpp : pathToF n s.tops with
    | some p => exact ⟨p, rfl⟩
    | none => exact absurd (pathToF_eq_none.mp hpp) (by simp [hn])
  unfold ancestorsOf
  rw [if_neg hnr, hp]
  exact List.getLast?_concat _

/-! ### Full characterization of `scene.clear` -/

theorem clearScene_spec [Group G] {s : Scene G} (exs : List (Nat ⊕ String))
    (pairs : List (Nat × String)) (hwf : wf s)
    (hres : resolveEx s exs = .ok pairs)
    (hroot : s.rootName ∉ pairs.map (fun p => p.2)) :
    ∃ s2, clearScene s exs = .ok s2 ∧ wf s2 ∧
      s2.rootId = s.rootId ∧ s2.rootName = s.rootName ∧
      (∀ j, j ∈ idsF s2.tops → j ∈ idsF s.tops) ∧
      (∀ j, j ∈ idsF s2.tops → nameOf s2 j = nameOf s j) ∧
      (∀ p ∈ pairs, p.1 ∈ idsF s2.tops) ∧
      (∀ t, t ∈ topIds s2 → ∃ nm, nameOf s2 t = some nm ∧
        nm ∈ pairs.map (fun p => p.2)) ∧
      (∀ j, j ∈ idsF s2.tops → ∃ t, t ∈ topIds s2 ∧ j ∈ subIdsF t s2.tops ∧
        ∃ nm, nameOf s2 t = some nm ∧ nm ∈ pairs.map (fun p => p.2)) := by
  have hpr := resolveEx_ok_pairs hwf hres hroot
  have hkl : ∀ i ∈ pairs.map (fun p => p.1), i ∈ idsF s.tops ∧
      ∃ nm, nameOf s i = some nm ∧ nm ∈ pairs.map (fun p => p.2) := by
    intro i hi
    obtain ⟨p, hp, hpi⟩ := List.mem_map.mp hi
    obtain ⟨h1, _, h3⟩ := hpr p hp
    exact ⟨hpi ▸ h1, p.2, hpi ▸ h3, List.mem_map.mpr ⟨p, hp, rfl⟩⟩
  obtain ⟨s1, hok, hwf1, hrid, hrnm, _, hids, hnames, _, hkl1, _⟩ :=
    stabilize_spec (pairs.map (fun p => p.2)) (pairs.map (fun p => p.1)) s hwf
      hroot hkl
  have hclear : clearScene s exs = .ok (sweep s1 (pairs.map (fun p => p.2))) := by
    simp only [clearScene, hres, hok]
  obtain ⟨c1, c2, c3, c4⟩ := sweep_spec (pairs.map (fun p => p.2)) hwf1
  refine ⟨sweep s1 (pairs.map (fun p => p.2)), hclear, c1, ?_, ?_, ?_, ?_, ?_, ?_, ?_⟩
  · rw [rootId_sweep]
    exact hrid
  · rw [rootName_sweep]
    exact hrnm
  · intro j hj
    obtain ⟨t, _, _, hsub⟩ := (c2 j).mp hj
    exact (hids j).mp (subIdsF_subset _ _ hsub)
  · intro j hj
    rw [nameOf_sweep_surviving hwf1 hj]
    exact hnames j
  · intro p hp
    have hik := hkl1 p.1 (List.mem_map.mpr ⟨p, hp, rfl⟩)
    obtain ⟨t, ht1, ht2, ht3⟩ := hik
    exact (c2 p.1).mpr ⟨t, ht1, ht3, ht2⟩
  · intro t ht
    obtain ⟨ht1, nmt, hnmt, hnmk⟩ := (c4 t).mp ht
    have htm : t ∈ idsF (sweep s1 (pairs.map (fun p => p.2))).tops :=
      childIdsF_subset false _ ht
    refine ⟨nmt, ?_, hnmk⟩
    rw [nameOf_sweep_surviving hwf1 htm]
    exact hnmt
  · intro j hj
    obtain ⟨t, ht1, ⟨nmt, hnmt, hnmk⟩, hsub⟩ := (c2 j).mp hj
    have htop2 : t ∈ topIds (sweep s1 (pairs.map (fun p => p.2))) :=
      (c4 t).mpr ⟨ht1, nmt, hnmt, hnmk⟩
    have htm : t ∈ idsF (sweep s1 (pairs.map (fun p => p.2))).tops :=
      childIdsF_subset false _ htop2
    refine ⟨t, htop2, ?_, nmt, ?_, hnmk⟩
    · rw [subIdsF_sweep_surviving hwf1 htm]
      exact hsub
    · rw [nameOf_sweep_surviving hwf1 htm]
      exact hnmt

/-! ### The claims -/

/-- C1: `set_parent` with `keep_worldspace` evaluates the node's and the
target parent's world transforms, installs `relative = node_xfo *
parent_xfo.Inverse()` as the node's new local transform while re-attaching it
under the resolved parent, and the node's world transform is unchanged by the
call. -/
theorem claim_C1_reparent_keep_world [Group G] {s : Scene G} {n : Nat} {pa : Option Nat}
    (hwf : wf s) (hn : n ∈ idsF s.tops)
    (hpid : pa.getD s.rootId = s.rootId ∨ pa.getD s.rootId ∈ idsF s.tops)
    (hcyc : pa.getD s.rootId ∉ subIdsF n s.tops) :
    (∃ nm l ch wn wp, findF n s.tops = some (nm, l, ch) ∧
      evalGlobal s n = some wn ∧ evalGlobal s (pa.getD s.rootId) = some wp ∧
      setParent s n pa true =
        addChild (destroyNode s n) (pa.getD s.rootId)
          (FT.node n nm (wn * wp⁻¹) ch FT.nil)) ∧
    evalGlobal (setParent s n pa true) n = evalGlobal s n ∧
    getParent (setParent s n pa true) n = some (pa.getD s.rootId) := by
  obtain ⟨⟨nm, l, ch⟩, hf⟩ := mem_findF hn
  obtain ⟨r, hshape, _, hrw⟩ := setParent_eq pa true hwf hf hpid
  obtain ⟨wn, wp, hwn, hwp, hr⟩ := hrw rfl
  obtain ⟨_, _, _, _, _, _, _, b8, _, _, _, b12, _, _⟩ :=
    setParent_spec true hwf hn hpid hcyc
  refine ⟨⟨nm, l, ch, wn, wp, hf, hwn, hwp, ?_⟩, b12 rfl, b8⟩
  rw [hshape, hr]

theorem claim_C1_witness :
    (wf sc1 ∧ 3 ∈ idsF sc1.tops ∧
      ((some 1 : Option Nat).getD sc1.rootId = sc1.rootId ∨
        (some 1 : Option Nat).getD sc1.rootId ∈ idsF sc1.tops) ∧
      (some 1 : Option Nat).getD sc1.rootId ∉ subIdsF 3 sc1.tops) ∧
    ((∃ nm l ch wn wp, findF 3 sc1.tops = some (nm, l, ch) ∧
        evalGlobal sc1 3 = some wn ∧
        evalGlobal sc1 ((some 1 : Option Nat).getD sc1.rootId) = some wp ∧
        setParent sc1 3 (some 1) true =
          addChild (destroyNode sc1 3) ((some 1 : Option Nat).getD sc1.rootId)
            (FT.node 3 nm (wn * wp⁻¹) ch FT.nil)) ∧
      evalGlobal (setParent sc1 3 (some 1) true) 3 = evalGlobal sc1 3 ∧
      getParent (setParent sc1 3 (some 1) true) 3 =
        some ((some 1 : Option Nat).getD sc1.rootId)) :=
  ⟨⟨by decide, by decide, by decide, by decide⟩,
    claim_C1_reparent_keep_world (by decide) (by decide) (by decide) (by decide)⟩

/-- C2 (corrected): the re-parenting walk of `scene.clear` moves
`node_to_reparent` — the topmost node reached while ancestor names stay in the
keep list — to be a direct child of the scene root when the walk meets a
non-kept ancestor; the kept node itself is moved only when its immediate
parent is already non-kept. -/
theorem claim_C2_clear_walk_moves_kept_top [Group G] {s : Scene G} {ks : List String}
    {n : Nat} (hwf : wf s) (hn : n ∈ idsF s.tops) (hroot : s.rootName ∉ ks) :
    stabilizeOne s ks n = .ok (setParent s (keptTop s ks n) none true) ∧
    keptTop s ks n ∈ idsF s.tops ∧
    n ∈ subIdsF (keptTop s ks n) s.tops ∧
    (keptTop s ks n = n ∨ ∃ nm, nameOf s (keptTop s ks n) = some nm ∧ nm ∈ ks) ∧
    getParent (setParent s (keptTop s ks n) none true) (keptTop s ks n) =
      some s.rootId := by
  obtain ⟨w1, w2, w3, w4⟩ := stabilizeOne_spec hwf hn hroot
  obtain ⟨hpid, hcyc⟩ := setParent_root_hyps (y := keptTop s ks n) hwf
  obtain ⟨_, _, _, _, _, _, _, b8, _, _, _, _, _, _⟩ :=
    setParent_spec true hwf w2 hpid hcyc
  exact ⟨w1, w2, w3, w4, b8⟩

theorem claim_C2_witness :
    (wf sc1 ∧ 3 ∈ idsF sc1.tops ∧ sc1.rootName ∉ ["P1", "N"]) ∧
    (stabilizeOne sc1 ["P1", "N"] 3 =
        .ok (setParent sc1 (keptTop sc1 ["P1", "N"] 3) none true) ∧
      keptTop sc1 ["P1", "N"] 3 ∈ idsF sc1.tops ∧
      3 ∈ subIdsF (keptTop sc1 ["P1", "N"] 3) sc1.tops ∧
      (keptTop sc1 ["P1", "N"] 3 = 3 ∨
        ∃ nm, nameOf sc1 (keptTop sc1 ["P1", "N"] 3) = some nm ∧ nm ∈ ["P1", "N"]) ∧
      getParent (setParent sc1 (keptTop sc1 ["P1", "N"] 3) none true)
          (keptTop sc1 ["P1", "N"] 3) = some sc1.rootId) :=
  ⟨⟨by decide, by decide, by decide⟩,
    claim_C2_clear_walk_moves_kept_top (by decide) (by decide) (by decide)⟩

/-- C2, counterexample to the original claim: in the scene
root(0) → A(1) → P1(2) → N(3), keeping the objects P1 and N, the kept node N
has the non-kept ancestor A on its chain, so the claim requires N to become a
direct child of the scene root; instead the code moves P1 (the topmost
consecutively-kept ancestor), and after the clear N's parent is still P1. -/
theorem claim_C2_counterexample :
    nameOf sc1 1 = some "A" ∧ nameOf sc1 2 = some "P1" ∧ nameOf sc1 3 = some "N" ∧
    getParent sc1 3 = some 2 ∧ getParent sc1 2 = some 1 ∧ getParent sc1 1 = some 0 ∧
    sc1.rootId = 0 ∧
    (clearScene sc1 [Sum.inl 2, Sum.inl 3]).toOption.map
        (fun s1 => (getParent s1 3, getParent s1 2)) = some (some 2, some 0) ∧
    (some 2 : Option Nat) ≠ some sc1.rootId := by
  decide

/-- C3: for a top-level node whose name is not kept, the destruction loop of
`scene.clear` folds `Destroy` over the node's recursive children reversed
followed by the node itself, and in that order every node strictly inside a
node's subtree is destroyed before it. -/
theorem claim_C3_destroy_children_first {s : Scene G} {names : List String} {t : Nat}
    (nm : String) (l : G) (ch : FT G) (hwf : wf s)
    (hf : findF t s.tops = some (nm, l, ch)) (hk : nm ∉ names) :
    deleteTopLevel s names t = List.foldl destroyNode s (destroyOrder s t) ∧
    destroyOrder s t = (getChildren s t true).reverse ++ [t] ∧
    destroyOrder s t = (idsF ch).reverse ++ [t] ∧
    ∀ l1 a l2, destroyOrder s t = l1 ++ a :: l2 →
      ∀ b ∈ subIdsF a s.tops, b ≠ a → b ∈ l1 := by
  refine ⟨?_, rfl, destroyOrder_eq hwf hf, destroyOrder_spec hwf hf⟩
  simp [deleteTopLevel, hf, hk]

theorem claim_C3_witness :
    (wf sc1 ∧
      findF 1 sc1.tops = some ("A", Multiplicative.ofAdd 2,
        FT.node 2 "P1" (Multiplicative.ofAdd 3)
          (FT.node 3 "N" (Multiplicative.ofAdd 5) FT.nil FT.nil) FT.nil) ∧
      "A" ∉ ["Keep"]) ∧
    (deleteTopLevel sc1 ["Keep"] 1 = List.foldl destroyNode sc1 (destroyOrder sc1 1) ∧
      destroyOrder sc1 1 = (getChildren sc1 1 true).reverse ++ [1] ∧
      destroyOrder sc1 1 = (idsF (FT.node 2 "P1" (Multiplicative.ofAdd 3)
        (FT.node 3 "N" (Multiplicative.ofAdd 5) FT.nil FT.nil) FT.nil)).reverse ++ [1] ∧
      ∀ l1 a l2, destroyOrder sc1 1 = l1 ++ a :: l2 →
        ∀ b ∈ subIdsF a sc1.tops, b ≠ a → b ∈ l1) :=
  ⟨⟨by decide, by decide, by decide⟩,
    claim_C3_destroy_children_first "A" (Multiplicative.ofAdd 2)
      (FT.node 2 "P1" (Multiplicative.ofAdd 3)
        (FT.node 3 "N" (Multiplicative.ofAdd 5) FT.nil FT.nil) FT.nil)
      (by decide) (by decide) (by decide)⟩

/-- C4: when `scene.clear` succeeds, every node remaining in the scene lies
inside the subtree of a top-level node whose name is in the keep set — it is
a kept node or a descendant of one, and nothing under a removed top-level node
survives. -/
theorem claim_C4_clear_invariant [Group G] {s : Scene G} {exs : List (Nat ⊕ String)}
    {pairs : List (Nat × String)} (hwf : wf s)
    (hres : resolveEx s exs = .ok pairs)
    (hroot : s.rootName ∉ pairs.map (fun p => p.2)) :
    ∃ s2, clearScene s exs = .ok s2 ∧ wf s2 ∧
      ∀ j, j ∈ idsF s2.tops → ∃ t, t ∈ topIds s2 ∧ j ∈ subIdsF t s2.tops ∧
        ∃ nm, nameOf s2 t = some nm ∧ nm ∈ pairs.map (fun p => p.2) := by
  obtain ⟨s2, hok, hw, _, _, _, _, _, _, hall⟩ := clearScene_spec exs pairs hwf hres hroot
  exact ⟨s2, hok, hw, hall⟩

theorem claim_C4_witness :
    (wf sc1 ∧ resolveEx sc1 [Sum.inl 2] = .ok [(2, "P1")] ∧
      sc1.rootName ∉ [(2, "P1")].map (fun p => p.2)) ∧
    (∃ s2, clearScene sc1 [Sum.inl 2] = .ok s2 ∧ wf s2 ∧
      ∀ j, j ∈ idsF s2.tops → ∃ t, t ∈ topIds s2 ∧ j ∈ subIdsF t s2.tops ∧
        ∃ nm, nameOf s2 t = some nm ∧ nm ∈ [(2, "P1")].map (fun p => p.2)) :=
  ⟨⟨by decide, rfl, by decide⟩,
    claim_C4_clear_invariant (by decide) rfl (by decide)⟩

/-- C5: `set_parent` without `keep_worldspace` detaches the node and
re-attaches it under the resolved parent with its local transform
bit-identical, leaving every other node's parent link unchanged. -/
theorem claim_C5_reparent_keep_local [Group G] {s : Scene G} {n : Nat} {pa : Option Nat}
    (hwf : wf s) (hn : n ∈ idsF s.tops)
    (hpid : pa.getD s.rootId = s.rootId ∨ pa.getD s.rootId ∈ idsF s.tops)
    (hcyc : pa.getD s.rootId ∉ subIdsF n s.tops) :
    lclOf (setParent s n pa false) n = lclOf s n ∧
    getParent (setParent s n pa false) n = some (pa.getD s.rootId) ∧
    (∀ j, j ≠ n → getParent (setParent s n pa false) j = getParent s j) ∧
    ∃ nm l ch, findF n s.tops = some (nm, l, ch) ∧
      setParent s n pa false =
        addChild (destroyNode s n) (pa.getD s.rootId) (FT.node n nm l ch FT.nil) := by
  obtain ⟨⟨nm, l, ch⟩, hf⟩ := mem_findF hn
  obtain ⟨r, hshape, hrl, _⟩ := setParent_eq pa false hwf hf hpid
  obtain ⟨_, _, _, _, _, _, _, b8, b9, _, _, _, b13, _⟩ :=
    setParent_spec false hwf hn hpid hcyc
  refine ⟨b13 rfl, b8, b9, nm, l, ch, hf, ?_⟩
  rw [hshape, hrl rfl]

theorem claim_C5_witness :
    (wf sc1 ∧ 2 ∈ idsF sc1.tops ∧
      ((none : Option Nat).getD sc1.rootId = sc1.rootId ∨
        (none : Option Nat).getD sc1.rootId ∈ idsF sc1.tops) ∧
      (none : Option Nat).getD sc1.rootId ∉ subIdsF 2 sc1.tops) ∧
    (lclOf (setParent sc1 2 none false) 2 = lclOf sc1 2 ∧
      getParent (setParent sc1 2 none false) 2 =
        some ((none : Option Nat).getD sc1.rootId) ∧
      (∀ j, j ≠ 2 → getParent (setParent sc1 2 none false) j = getParent sc1 j) ∧
      ∃ nm l ch, findF 2 sc1.tops = some (nm, l, ch) ∧
        setParent sc1 2 none false =
          addChild (destroyNode sc1 2) ((none : Option Nat).getD sc1.rootId)
            (FT.node 2 nm l ch FT.nil)) :=
  ⟨⟨by decide, by decide, by decide, by decide⟩,
    claim_C5_reparent_keep_local (by decide) (by decide) (by decide) (by decide)⟩

/-- C6: clearing with an empty keep set destroys every top-level node and its
subtree — afterwards the scene root has no children and no node remains. -/
theorem claim_C6_clear_empty_keep [Group G] {s : Scene G} (hwf : wf s) :
    ∃ s2, clearScene s [] = .ok s2 ∧ topIds s2 = [] ∧ idsF s2.tops = [] := by
  obtain ⟨s2, hok, _, _, _, _, _, _, htops, hall⟩ :=
    clearScene_spec [] [] hwf rfl (by simp)
  refine ⟨s2, hok, ?_, ?_⟩
  · rw [List.eq_nil_iff_forall_not_mem]
    intro t ht
    obtain ⟨nm, _, hmem⟩ := htops t ht
    simp at hmem
  · rw [List.eq_nil_iff_forall_not_mem]
    intro j hj
    obtain ⟨t, _, _, nm, _, hmem⟩ := hall j hj
    simp at hmem

theorem claim_C6_witness :
    wf sc1 ∧
    ∃ s2, clearScene sc1 [] = .ok s2 ∧ topIds s2 = [] ∧ idsF s2.tops = [] :=
  ⟨by decide, claim_C6_clear_empty_keep (by decide)⟩

/-- C7 (corrected): `set_parent` on a null node is not a silent no-op — every
code path dereferences the null argument (`GetScene`,
`EvaluateGlobalTransform`, or the binding's `AddChild` type check) and the
call raises instead of returning. -/
theorem claim_C7_null_node_raises [Group G] (s : Scene G) (pa : Option Nat) (kw : Bool) :
    (∃ e, setParentE s none pa kw = .error e) ∧
    ∀ s2, setParentE s none pa kw ≠ .ok s2 := by
  have herr : ∃ e, setParentE s none pa kw = .error e := by
    cases pa with
    | none => exact ⟨_, rfl⟩
    | some p =>
      cases kw with
      | true => exact ⟨_, rfl⟩
      | false => exact ⟨_, rfl⟩
  obtain ⟨e, he⟩ := herr
  refine ⟨⟨e, he⟩, ?_⟩
  intro s2 h
  rw [he] at h
  exact Except.noConfusion h

/-- C7, counterexample to the original claim: with a null node argument the
call returns an error (the model of the `AttributeError` raised on
`node.GetScene()`), never a scene. -/
theorem claim_C7_counterexample :
    setParentE sc1 none none false =
      .error "AttributeError: NoneType object has no attribute GetScene" ∧
    ∀ s2 : Scene Gm, setParentE sc1 none none false ≠ .ok s2 := by
  refine ⟨rfl, ?_⟩
  intro s2 h
  exact Except.noConfusion h

/-- C8: `scene.delete_node` destroys the node's reversed recursive-children
list and then the node (leaf first), removing exactly the node's subtree and
leaving every disjoint node's name and parent untouched; a `None` argument
and an unresolved name are both no-ops. -/
theorem claim_C8_delete_node {s : Scene G} {n : Nat} (nm : String) (l : G) (ch : FT G)
    (hwf : wf s) (hf : findF n s.tops = some (nm, l, ch)) :
    deleteNode s none = s ∧
    (∀ nm2, getByName s nm2 = none → deleteNode s (some (Sum.inr nm2)) = s) ∧
    destroyOrder s n = (getChildren s n true).reverse ++ [n] ∧
    deleteNode s (some (Sum.inl n)) = destroyNode s n ∧
    n ∉ idsF (deleteNode s (some (Sum.inl n))).tops ∧
    (∀ j, j ∈ idsF (deleteNode s (some (Sum.inl n))).tops ↔
      j ∈ idsF s.tops ∧ j ∉ subIdsF n s.tops) ∧
    (∀ j, j ∉ subIdsF n s.tops →
      nameOf (deleteNode s (some (Sum.inl n))) j = nameOf s j ∧
      getParent (deleteNode s (some (Sum.inl n))) j = getParent s j) := by
  have hn : n ∈ idsF s.tops := findF_mem hf
  have hsubn : subIdsF n s.tops = n :: idsF ch := by
    unfold subIdsF
    rw [hf]
  have hdel : deleteNode s (some (Sum.inl n)) = destroyNode s n := by
    rw [show deleteNode s (some (Sum.inl n))
          = List.foldl destroyNode s (destroyOrder s n) from rfl]
    rw [destroyOrder_eq hwf hf]
    refine foldl_destroyNode_sub _ s hwf hn ?_
    intro x hx
    rw [List.mem_reverse] at hx
    refine Or.inr ⟨?_, fun he => findF_self_not_mem_child (wf_nodup hwf) hf (he ▸ hx)⟩
    rw [hsubn]
    exact List.mem_cons_of_mem _ hx
  refine ⟨rfl, ?_, rfl, hdel, ?_, ?_, ?_⟩
  · intro nm2 hg
    by_cases h2 : nm2 = ""
    · simp [deleteNode, h2]
    · simp [deleteNode, h2, hg]
  · rw [hdel, tops_destroyNode]
    exact not_mem_removeF n s.tops
  · intro j
    rw [hdel, tops_destroyNode]
    exact mem_idsF_removeF (wf_nodup hwf)
  · intro j hj
    rw [hdel]
    exact ⟨nameOf_destroyNode hwf hj, getParent_destroyNode hwf hj⟩

theorem claim_C8_witness :
    (wf sc1 ∧ findF 2 sc1.tops = some ("P1", Multiplicative.ofAdd 3,
      FT.node 3 "N" (Multiplicative.ofAdd 5) FT.nil FT.nil)) ∧
    (deleteNode sc1 none = sc1 ∧
      (∀ nm2, getByName sc1 nm2 = none → deleteNode sc1 (some (Sum.inr nm2)) = sc1) ∧
      destroyOrder sc1 2 = (getChildren sc1 2 true).reverse ++ [2] ∧
      deleteNode sc1 (some (Sum.inl 2)) = destroyNode sc1 2 ∧
      2 ∉ idsF (deleteNode sc1 (some (Sum.inl 2))).tops ∧
      (∀ j, j ∈ idsF (deleteNode sc1 (some (Sum.inl 2))).tops ↔
        j ∈ idsF sc1.tops ∧ j ∉ subIdsF 2 sc1.tops) ∧
      (∀ j, j ∉ subIdsF 2 sc1.tops →
        nameOf (deleteNode sc1 (some (Sum.inl 2))) j = nameOf sc1 j ∧
        getParent (deleteNode sc1 (some (Sum.inl 2))) j = getParent sc1 j)) :=
  ⟨⟨by decide, by decide⟩,
    claim_C8_delete_node "P1" (Multiplicative.ofAdd 3)
      (FT.node 3 "N" (Multiplicative.ofAdd 5) FT.nil FT.nil) (by decide) (by decide)⟩

/-- C9: when `scene.clear` succeeds, running it a second time with the same
`excluding` argument succeeds as well and leaves the set of node names in the
scene unchanged — the clear is idempotent on the name set. -/
theorem claim_C9_clear_idempotent_names [Group G] {s : Scene G}
    {exs : List (Nat ⊕ String)} {pairs : List (Nat × String)} (hwf : wf s)
    (hres : resolveEx s exs = .ok pairs)
    (hroot : s.rootName ∉ pairs.map (fun p => p.2)) :
    ∃ s1 s2, clearScene s exs = .ok s1 ∧ clearScene s1 exs = .ok s2 ∧
      ∀ nm, nm ∈ sceneNames s2 ↔ nm ∈ sceneNames s1 := by
  obtain ⟨s1, hok1, hwf1, hrid1, hrnm1, hsub1, hnm1, hpsurv1, htops1, _⟩ :=
    clearScene_spec exs pairs hwf hres hroot
  have hprev : ∀ p ∈ pairs, p.1 ∈ idsF s1.tops ∧ p.1 ≠ s1.rootId ∧
      nameOf s1 p.1 = some p.2 := by
    intro p hp
    obtain ⟨h1, h2, h3⟩ := resolveEx_ok_pairs hwf hres hroot p hp
    have hm := hpsurv1 p hp
    refine ⟨hm, ?_, ?_⟩
    · rw [hrid1]
      exact h2
    · rw [hnm1 p.1 hm]
      exact h3
  obtain ⟨pairs2, hres2, hmap2, hall2⟩ := resolveEx_again hwf1 hrnm1 hres hroot hprev
  have hroot2 : s1.rootName ∉ pairs2.map (fun p => p.2) := by
    rw [hrnm1, hmap2]
    exact hroot
  have hkl2 : ∀ i ∈ pairs2.map (fun p => p.1), i ∈ idsF s1.tops ∧
      ∃ nm, nameOf s1 i = some nm ∧ nm ∈ pairs2.map (fun p => p.2) := by
    intro i hi
    obtain ⟨p, hp, hpi⟩ := List.mem_map.mp hi
    obtain ⟨h1, _, h3⟩ := hall2 p hp
    exact ⟨hpi ▸ h1, p.2, hpi ▸ h3, List.mem_map.mpr ⟨p, hp, rfl⟩⟩
  obtain ⟨s2m, hok2, hwf2m, _, _, _, hids2, hnames2, _, _, htops2⟩ :=
    stabilize_spec (pairs2.map (fun p => p.2)) (pairs2.map (fun p => p.1))
      s1 hwf1 hroot2 hkl2
  have htopskept : ∀ t ∈ topIds s2m, ∃ nm, nameOf s2m t = some nm ∧
      nm ∈ pairs2.map (fun p => p.2) := by
    intro t ht
    rcases htops2 t ht with hts1 | hex
    · obtain ⟨nm, hnm, hk⟩ := htops1 t hts1
      refine ⟨nm, ?_, by rw [hmap2]; exact hk⟩
      rw [hnames2 t]
      exact hnm
    · exact hex
  have hsweep : sweep s2m (pairs2.map (fun p => p.2)) = s2m :=
    sweep_noop hwf2m htopskept
  have hclear2 : clearScene s1 exs = .ok s2m := by
    simp only [clearScene, hres2, hok2, hsweep]
  refine ⟨s1, s2m, hok1, hclear2, ?_⟩
  intro nm
  rw [mem_sceneNames, mem_sceneNames]
  constructor
  · rintro ⟨j, hj, hjn⟩
    refine ⟨j, (hids2 j).mp hj, ?_⟩
    rw [← hnames2 j]
    exact hjn
  · rintro ⟨j, hj, hjn⟩
    refine ⟨j, (hids2 j).mpr hj, ?_⟩
    rw [hnames2 j]
    exact hjn

theorem claim_C9_witness :
    (wf sc1 ∧ resolveEx sc1 [Sum.inl 2, Sum.inl 3] = .ok [(2, "P1"), (3, "N")] ∧
      sc1.rootName ∉ [(2, "P1"), (3, "N")].map (fun p => p.2)) ∧
    (∃ s1 s2, clearScene sc1 [Sum.inl 2, Sum.inl 3] = .ok s1 ∧
      clearScene s1 [Sum.inl 2, Sum.inl 3] = .ok s2 ∧
      ∀ nm, nm ∈ sceneNames s2 ↔ nm ∈ sceneNames s1) :=
  ⟨⟨by decide, rfl, by decide⟩,
    claim_C9_clear_idempotent_names (by decide) rfl (by decide)⟩

/-- C10: for a node of the scene hierarchy, `node.get_parents` returns the
ancestor chain — immediate parent first, following `GetParent` at every step,
ending at the scene root — followed by exactly one trailing `None`. -/
theorem claim_C10_get_parents_chain {s : Scene G} (hwf : wf s) {n : Nat}
    (hn : n ∈ idsF s.tops) :
    getParents s n = (ancestorsOf s n).map some ++ [none] ∧
    (ancestorsOf s n).getLast? = some s.rootId ∧
    (getParents s n).head? = some (getParent s n) ∧
    ∀ k a, (getParents s n).get? k = some (some a) →
      k + 1 < (getParents s n).length →
      (getParents s n).get? (k + 1) = some (getParent s a) := by
  refine ⟨getParents_eq hwf (Or.inr hn), ancestorsOf_getLast hwf hn, ?_, ?_⟩
  · rw [show getParents s n = getParent s n
        :: getParentsGo s ((idsF s.tops).length + 1) (getParent s n) from rfl]
    rfl
  · intro k a hk hlen
    unfold getParents at hk hlen ⊢
    exact getParentsGo_chain ((idsF s.tops).length + 2) (some n) k a hk hlen

theorem claim_C10_witness :
    (wf sc1 ∧ 3 ∈ idsF sc1.tops) ∧
    (getParents sc1 3 = (ancestorsOf sc1 3).map some ++ [none] ∧
      (ancestorsOf sc1 3).getLast? = some sc1.rootId ∧
      (getParents sc1 3).head? = some (getParent sc1 3) ∧
      ∀ k a, (getParents sc1 3).get? k = some (some a) →
        k + 1 < (getParents sc1 3).length →
        (getParents sc1 3).get? (k + 1) = some (getParent sc1 a)) :=
  ⟨⟨by decide, by decide⟩,
    claim_C10_get_parents_chain (by decide) (by decide)⟩

theorem claim_C7_witness :
    (∃ e, setParentE sc1 (none : Option Nat) (none : Option Nat) false = .error e) ∧
    ∀ s2, setParentE sc1 (none : Option Nat) (none : Option Nat) false ≠ .ok s2 :=
  claim_C7_null_node_raises sc1 none false

end Fbxtra
